import Mathlib

/-!
# The expqueue sender of the distributed-control RPC transport

A shallow embedding of `src/graphlab/rpc/dc_buffered_stream_send_expqueue.cpp`
(`send_data`, `write_combining_send`, `send_loop`, `shutdown`).

Bytes are natural numbers, buffers are lists of bytes.  `size_t` values are
natural numbers reduced modulo `2 ^ 64` where the source can wrap.  The calls
`free` and `malloc` manage storage only and have no counterpart here.
-/

namespace graphlab
namespace dc_impl

/-! ## Declarations the translation unit includes -/

/-- The number of values of a `size_t`. -/
def SIZE_T_RANGE : Nat := 2 ^ 64

/-- The value of `size_t(-1)`. -/
def SIZE_T_MINUS_ONE : Nat := 2 ^ 64 - 1

/-- Modelled from the spec: `packet_hdr` (declared in `dc_internal_types.hpp`,
which is not among the sources).  The spec gives the fields
`(len: u32, src: procid_t, sequentialization_key: u64, packet_type_mask: u8,
reserved-padding)`; `reserved` stands for every byte of the record that belongs
to none of the four named fields. -/
structure packet_hdr where
  len : Nat
  src : Nat
  sequentialization_key : Nat
  packet_type_mask : Nat
  reserved : Nat
deriving DecidableEq, Repr

/-- Modelled from the spec: what the absent headers fix and the source only
uses: the three packet-kind bits, `sizeof(packet_hdr)` and the object
representation of a header (the `sizeof(packet_hdr)` bytes that
`memcpy(eentry.c, &hdr, sizeof(packet_hdr))` copies). -/
structure packet_format where
  STANDARD_CALL : Nat
  FAST_CALL : Nat
  CONTROL_PACKET : Nat
  sizeof_packet_hdr : Nat
  hdr_image : packet_hdr → List Nat
  hdr_image_length : ∀ h, (hdr_image h).length = sizeof_packet_hdr

/-- The `n` low-order bytes of `v`, least significant first. -/
def le_bytes : Nat → Nat → List Nat
  | 0, _ => []
  | n + 1, v => (v % 256) :: le_bytes n (v / 256)

/-- A concrete format used to evaluate the definitions: kind bits 1, 2 and 16,
and a 24-byte little-endian header with `len` at offset 0, `src` at 4, the
sequentialization key at 8, the kind at 16 and reserved bytes elsewhere. -/
def native_format : packet_format where
  STANDARD_CALL := 1
  FAST_CALL := 2
  CONTROL_PACKET := 16
  sizeof_packet_hdr := 24
  hdr_image := fun h =>
    le_bytes 4 h.len ++ le_bytes 2 h.src ++ le_bytes 2 h.reserved ++
      le_bytes 8 h.sequentialization_key ++ le_bytes 1 h.packet_type_mask ++
      le_bytes 7 (h.reserved / 65536)
  hdr_image_length := fun _ => rfl

/-- Modelled from the spec: the part of `distributed_control` (absent from the
sources) that the sender calls: `procid()`, `get_sequentialization_key()` and
the per-target call counters that `inc_calls_sent` increments. -/
structure distributed_control where
  procid : Nat
  sequentialization_key : Nat
  calls_sent : Nat → Nat

/-- Modelled from the spec: `inc_calls_sent(target)`, "increment the control's
per-target call counter". -/
def distributed_control.inc_calls_sent (dc : distributed_control) (target : Nat) :
    distributed_control :=
  { dc with calls_sent := fun p => if p = target then dc.calls_sent p + 1 else dc.calls_sent p }

/-- Modelled from the spec: `get_sequentialization_key()`, the key stamped into
every outgoing header. -/
def distributed_control.get_sequentialization_key (dc : distributed_control) : Nat :=
  dc.sequentialization_key

/-- The outbound queue entry `expqueue_entry`: an owned allocation `c` and the
number `len` of bytes of it that belong to the entry. -/
structure expqueue_entry where
  c : List Nat
  len : Nat
deriving DecidableEq, Repr

/-- The bytes of an entry: the first `len` bytes of its allocation. -/
def expqueue_entry.bytes (e : expqueue_entry) : List Nat := e.c.take e.len

/-- An entry is well formed when its allocation holds at least `len` bytes. -/
def expqueue_entry.wf (e : expqueue_entry) : Prop := e.len ≤ e.c.length

instance (e : expqueue_entry) : Decidable e.wf := by
  unfold expqueue_entry.wf
  infer_instance

/-- Modelled from the spec: `blocking_queue<expqueue_entry>`
(`graphlab/util/blocking_queue.hpp` is not among the sources): an unbounded
FIFO with a `stop_blocking` terminal state.  `m_queue` holds the entries
enqueued and not yet dequeued, oldest first. -/
structure blocking_queue where
  m_queue : List expqueue_entry
  m_alive : Bool
deriving DecidableEq, Repr

/-- Modelled from the spec: `enqueue` appends at the tail. -/
def blocking_queue.enqueue (q : blocking_queue) (e : expqueue_entry) : blocking_queue :=
  { q with m_queue := q.m_queue ++ [e] }

/-- Modelled from the spec: `stop_blocking` puts the queue in its terminal
state. -/
def blocking_queue.stop_blocking (q : blocking_queue) : blocking_queue :=
  { q with m_alive := false }

/-! ## The sender and `send_data` -/

/-- The members of `dc_buffered_stream_send_expqueue` that `send_data` touches. -/
structure dc_buffered_stream_send_expqueue where
  dc : distributed_control
  target : Nat
  sendqueue : blocking_queue
  bytessent : Nat

/-- The byte-buffer overload `send_data(target, packet_type_mask, data, len)`.
`data` is the memory the pointer refers to; `memcpy` copies its first `len`
bytes.  `hdr.len` is a 32-bit field, `bytessent` and `eentry.len` are
`size_t`. -/
def send_data (F : packet_format) (s : dc_buffered_stream_send_expqueue)
    (target packet_type_mask : Nat) (data : List Nat) (len : Nat) :
    dc_buffered_stream_send_expqueue :=
  let dc1 :=
    if packet_type_mask &&& F.CONTROL_PACKET = 0 then
      if packet_type_mask &&& (F.FAST_CALL ||| F.STANDARD_CALL) ≠ 0 then
        s.dc.inc_calls_sent target
      else s.dc
    else s.dc
  let bytessent1 :=
    if packet_type_mask &&& F.CONTROL_PACKET = 0 then (s.bytessent + len) % SIZE_T_RANGE
    else s.bytessent
  let hdr : packet_hdr :=
    { len := len % 2 ^ 32
      src := dc1.procid
      sequentialization_key := dc1.get_sequentialization_key
      packet_type_mask := packet_type_mask
      reserved := 0 }
  let numbytes_needed := (F.sizeof_packet_hdr + len) % SIZE_T_RANGE
  let eentry : expqueue_entry :=
    { len := numbytes_needed
      c := F.hdr_image hdr ++ data.take len }
  { s with dc := dc1, bytessent := bytessent1, sendqueue := s.sendqueue.enqueue eentry }

/-- A `std::istream` as `readsome` and `good` present it: the chunks that will
be immediately available at the successive `readsome` calls (an empty chunk is
a call that returns 0); the stream stops being good when no chunk is left. -/
structure istream where
  chunks : List (List Nat)
deriving DecidableEq, Repr

/-- The result of `istrm.good()`. -/
def istream.good (s : istream) : Bool := !s.chunks.isEmpty

/-- The call `istrm.readsome(buf, n)`: the bytes stored at `buf` and the stream
afterwards; at most `n` bytes of the chunk at hand are taken. -/
def istream.readsome (s : istream) (n : Nat) : List Nat × istream :=
  match s.chunks with
  | [] => ([], s)
  | c :: rest => if c.length ≤ n then (c, ⟨rest⟩) else (c.take n, ⟨c.drop n :: rest⟩)

/-- The loop `while (len > 0 && istrm.good()) { l = istrm.readsome(cbuffer, len);
len -= l; }` of the stream overload.  Every `readsome` stores at the start of
`cbuffer`. -/
def read_len_loop : Nat → istream → List Nat → Nat → istream × List Nat × Nat
  | 0, istrm, cbuffer, len => (istrm, cbuffer, len)
  | fuel + 1, istrm, cbuffer, len =>
    if 0 < len ∧ istrm.good = true then
      let r := istrm.readsome len
      let l := r.1.length
      read_len_loop fuel r.2 (r.1 ++ cbuffer.drop l) (len - l)
    else (istrm, cbuffer, len)

/-- The loop `while (istrm.good()) { len += istrm.readsome(data+len, cursize-len);
if (cursize - len == 0) { cursize *= 2; data = realloc(data, cursize); } }`.
The state is the stream, the first `len` bytes of `data`, `len` and
`cursize`. -/
def read_all_loop : Nat → istream → List Nat → Nat → Nat → istream × List Nat × Nat × Nat
  | 0, istrm, data, len, cursize => (istrm, data, len, cursize)
  | fuel + 1, istrm, data, len, cursize =>
    if istrm.good = true then
      let r := istrm.readsome (cursize - len)
      let data1 := data.take len ++ r.1
      let len1 := len + r.1.length
      let cursize1 := if cursize - len1 = 0 then cursize * 2 else cursize
      read_all_loop fuel r.2 data1 len1 cursize1
    else (istrm, data, len, cursize)

/-- The number of iterations after which a read loop over `istrm` has
necessarily ended: each iteration uses up a chunk or at least one byte. -/
def istream.fuel (s : istream) : Nat :=
  s.chunks.length + (s.chunks.map List.length).sum + 1

/-- The stream overload `send_data(target_, packet_type_mask, istrm, len)`.
`none` is the failure of `ASSERT_EQ(target, target_)`.  `cbuffer` is the
indeterminate initial content of the stack array `char cbuffer[len]`. -/
def send_data_stream (F : packet_format) (s : dc_buffered_stream_send_expqueue)
    (target_ packet_type_mask : Nat) (istrm : istream) (len : Nat) (cbuffer : List Nat) :
    Option (dc_buffered_stream_send_expqueue × istream) :=
  if s.target ≠ target_ then none
  else if len ≠ SIZE_T_MINUS_ONE then
    let r := read_len_loop istrm.fuel istrm cbuffer len
    some (send_data F s s.target packet_type_mask r.2.1 r.2.2, r.1)
  else
    let r := read_all_loop istrm.fuel istrm [] 0 128
    some (send_data F s s.target packet_type_mask r.2.1 r.2.2.1, r.1)

/-! ## The I/O thread: `write_combining_send`, `send_loop`, `shutdown` -/

/-- What another thread does to the send queue: a producer's `enqueue` (made by
`send_data`) or the `stop_blocking` of `shutdown`. -/
inductive queue_op where
  | enqueue (e : expqueue_entry)
  | stop_blocking
deriving DecidableEq, Repr

/-- The effect of one operation of another thread on the queue. -/
def blocking_queue.apply (q : blocking_queue) : queue_op → blocking_queue
  | .enqueue e => q.enqueue e
  | .stop_blocking => q.stop_blocking

/-- The send queue as the I/O thread meets it: its present state, and
`pending`, the operations the other threads still perform, grouped by the
moment they take effect: the first group before the I/O thread's next queue
call, the second before the call after that, and so on.  An I/O thread that
waits in the blocking dequeue lets one group after the other take effect. -/
structure queue_view where
  sendqueue : blocking_queue
  pending : List (List queue_op)
deriving DecidableEq, Repr

/-- Modelled from the spec: the blocking dequeue on a queue `q` while the
groups of `pending` take effect one by one: "blocks until non-empty or
stopped", and reports `false` on the "drained and stopped" queue.  The result
is `none` when the call never returns (the queue stays empty and alive), and
otherwise the pair the call returns (`none` for `(_, false)`) with the queue
and the groups left. -/
def blocking_queue.wait_dequeue (q : blocking_queue) :
    List (List queue_op) → Option (Option expqueue_entry × queue_view)
  | [] =>
    match q.m_queue with
    | e :: rest => some (some e, ⟨{ q with m_queue := rest }, []⟩)
    | [] => if q.m_alive then none else some (none, ⟨q, []⟩)
  | g :: gs =>
    let q1 := g.foldl blocking_queue.apply q
    match q1.m_queue with
    | e :: rest => some (some e, ⟨{ q1 with m_queue := rest }, gs⟩)
    | [] => if q1.m_alive then q1.wait_dequeue gs else some (none, ⟨q1, gs⟩)

/-- Modelled from the spec: `dequeue_and_begin_critical_section_on_success()`. -/
def queue_view.dequeue_and_begin_critical_section_on_success (w : queue_view) :
    Option (Option expqueue_entry × queue_view) :=
  w.sendqueue.wait_dequeue w.pending

/-- The next group of operations of the other threads takes effect. -/
def queue_view.arrive (w : queue_view) : queue_view :=
  match w.pending with
  | [] => w
  | g :: gs => ⟨g.foldl blocking_queue.apply w.sendqueue, gs⟩

/-- Modelled from the spec: `try_dequeue_in_critical_section()`, the
non-blocking dequeue: the oldest entry when there is one. -/
def queue_view.try_dequeue_in_critical_section (w : queue_view) :
    Option expqueue_entry × queue_view :=
  let w1 := w.arrive
  match w1.sendqueue.m_queue with
  | [] => (none, w1)
  | e :: rest => (some e, { w1 with sendqueue := { w1.sendqueue with m_queue := rest } })

/-- What the I/O thread calls, in call order: the queue operations with their
results, and the two forms of `comm->send`: `send_entry e` is
`comm->send(target, e.c, e.len)` on an entry's own allocation, and
`send_combining buf` is `comm->send(target, sendcombining, length)`, `buf`
being the first `length` bytes of the combining buffer. -/
inductive io_call where
  | dequeue (data : Option expqueue_entry)
  | try_dequeue (data : Option expqueue_entry)
  | end_critical_section
  | send_entry (e : expqueue_entry)
  | send_combining (buf : List Nat)
deriving DecidableEq, Repr

/-- The local variables of the first loop of `write_combining_send`: `entries`
is the filled part `entries[0 .. numentries)` of the 128-slot array. -/
structure gather_state where
  entries : List expqueue_entry
  numentries : Nat
  accumulated_length : Nat
deriving DecidableEq, Repr

/-- The loop `while(1) { data = try_dequeue_in_critical_section(); ... }` of
`write_combining_send`, with the calls it makes. -/
def gather_loop : Nat → queue_view → gather_state → queue_view × gather_state × List io_call
  | 0, w, g => (w, g, [])
  | fuel + 1, w, g =>
    let data := w.try_dequeue_in_critical_section
    match data.1 with
    | some d =>
      let g1 : gather_state :=
        { entries := g.entries.take g.numentries ++ [d]
          numentries := g.numentries + 1
          accumulated_length := (g.accumulated_length + d.len) % SIZE_T_RANGE }
      if g1.numentries ≥ 128 then (data.2, g1, [io_call.try_dequeue (some d)])
      else
        let r := gather_loop fuel data.2 g1
        (r.1, r.2.1, io_call.try_dequeue (some d) :: r.2.2)
    | none => (data.2, g, [io_call.try_dequeue none])

/-- The local variables of the second loop of `write_combining_send`:
`sendcombining` holds the bytes written into the combining buffer from its
start, of which the first `length` are the current content. -/
structure combine_state where
  sendcombining : List Nat
  length : Nat
deriving DecidableEq, Repr

/-- The body of `for (i = 0; i < numentries; ++i)` for `entries[i] = e`.  The
sum `length + entries[i].len` does not wrap: `length` is at most the size of
the combining buffer, and that buffer and the entry are two objects of one
address space. -/
def combine_step (combine_upper_threshold : Nat) (st : combine_state) (e : expqueue_entry) :
    combine_state × List io_call :=
  let r1 : combine_state × List io_call :=
    if st.length + e.len > combine_upper_threshold then
      ({ st with length := 0 }, [io_call.send_combining (st.sendcombining.take st.length)])
    else (st, [])
  if r1.1.length + e.len ≤ combine_upper_threshold then
    ({ sendcombining := r1.1.sendcombining.take r1.1.length ++ e.c.take e.len
       length := r1.1.length + e.len }, r1.2)
  else (r1.1, r1.2 ++ [io_call.send_entry e])

/-- The loop `for (i = 0; i < numentries; ++i)` over the gathered entries. -/
def combine_loop (combine_upper_threshold : Nat) :
    combine_state → List expqueue_entry → combine_state × List io_call
  | st, [] => (st, [])
  | st, e :: es =>
    let r := combine_step combine_upper_threshold st e
    let r2 := combine_loop combine_upper_threshold r.1 es
    (r2.1, r.2 ++ r2.2)

/-- The second half of `write_combining_send`: the loop over the entries and
the flush `if (length > 0) comm->send(target, sendcombining, length)`. -/
def combine_send (combine_upper_threshold : Nat) (entries : List expqueue_entry) :
    List io_call :=
  let r := combine_loop combine_upper_threshold ⟨[], 0⟩ entries
  if r.1.length > 0 then r.2 ++ [io_call.send_combining (r.1.sendcombining.take r.1.length)]
  else r.2

/-- The function `write_combining_send(e)`: the queue afterwards and the calls
made. -/
def write_combining_send (combine_upper_threshold : Nat) (e : expqueue_entry)
    (w : queue_view) : queue_view × List io_call :=
  let g := gather_loop 128 w ⟨[e], 1, e.len⟩
  (g.1, g.2.2 ++ [io_call.end_critical_section] ++
    combine_send combine_upper_threshold (g.2.1.entries.take g.2.1.numentries))

/-- How a run of `send_loop` ends: the loop is left at `break`, or the blocking
dequeue never returns; `unfinished` is a run cut short by its step bound. -/
inductive loop_status where
  | exited
  | blocked
  | unfinished
deriving DecidableEq, Repr

/-- The outcome of a run of `send_loop`. -/
structure loop_result where
  status : loop_status
  view : queue_view
  calls : List io_call
deriving DecidableEq, Repr

/-- The loop `while (1) { ... }` of `send_loop`, for at most `fuel`
iterations. -/
def send_loop_iter (combine_lower_threshold combine_upper_threshold : Nat) :
    Nat → queue_view → loop_result
  | 0, w => ⟨.unfinished, w, []⟩
  | fuel + 1, w =>
    match w.dequeue_and_begin_critical_section_on_success with
    | none => ⟨.blocked, ⟨w.pending.flatten.foldl blocking_queue.apply w.sendqueue, []⟩, []⟩
    | some (none, w1) => ⟨.exited, w1, [io_call.dequeue none]⟩
    | some (some e, w1) =>
      if e.len ≤ combine_lower_threshold then
        let r := write_combining_send combine_upper_threshold e w1
        let rest := send_loop_iter combine_lower_threshold combine_upper_threshold fuel r.1
        ⟨rest.status, rest.view, io_call.dequeue (some e) :: r.2 ++ rest.calls⟩
      else
        let rest := send_loop_iter combine_lower_threshold combine_upper_threshold fuel w1
        ⟨rest.status, rest.view,
          io_call.dequeue (some e) :: io_call.end_critical_section :: io_call.send_entry e ::
            rest.calls⟩

/-- The entries a producer's `enqueue` puts into the queue among the given
operations, in order. -/
def enqueued (ops : List queue_op) : List expqueue_entry :=
  ops.filterMap fun o => match o with
    | .enqueue e => some e
    | .stop_blocking => none

/-- The entries the I/O thread can still dequeue, in queue order: those queued
and those the producers will enqueue. -/
def queue_view.entries (w : queue_view) : List expqueue_entry :=
  w.sendqueue.m_queue ++ enqueued w.pending.flatten

/-- The number of entries the I/O thread can still dequeue. -/
def queue_view.size (w : queue_view) : Nat := w.entries.length

/-- The function `send_loop()`.  Every iteration that does not leave the loop
dequeues an entry, so `size + 1` iterations end it. -/
def send_loop (combine_lower_threshold combine_upper_threshold : Nat) (w : queue_view) :
    loop_result :=
  send_loop_iter combine_lower_threshold combine_upper_threshold (w.size + 1) w

/-- The function `shutdown()`: `sendqueue.stop_blocking()` takes effect after
whatever the other threads still do (`w.pending`, and `meanwhile` in the same
moment as the stop, with no queue call of the I/O thread in between), and
`thr.join()` waits for the end of `send_loop`. -/
def shutdown (combine_lower_threshold combine_upper_threshold : Nat) (w : queue_view)
    (meanwhile : List queue_op) : loop_result :=
  send_loop combine_lower_threshold combine_upper_threshold
    { w with pending := w.pending ++ [meanwhile ++ [queue_op.stop_blocking]] }

/-- The queue once `shutdown` has been called: either `stop_blocking` has
taken effect and no other thread does anything more, or the queue is alive and
what is still to take effect is enqueues of producers, the last of them
followed in the same moment by the `stop_blocking` of `shutdown`. -/
def queue_view.closing (w : queue_view) : Prop :=
  (w.sendqueue.m_alive = false ∧ w.pending = []) ∨
    (w.sendqueue.m_alive = true ∧ ∃ (groups : List (List expqueue_entry))
      (last : List expqueue_entry),
      w.pending = groups.map (List.map queue_op.enqueue) ++
        [last.map queue_op.enqueue ++ [queue_op.stop_blocking]])

/-! ## Reading a run -/

/-- The bytes one call hands to `comm->send` (none for a queue call). -/
def io_call.sent : io_call → List Nat
  | .send_entry e => e.bytes
  | .send_combining buf => buf
  | _ => []

/-- Whether a call is a `comm->send`. -/
def io_call.is_send : io_call → Bool
  | .send_entry _ => true
  | .send_combining _ => true
  | _ => false

/-- The entry a queue call returned, if it returned one. -/
def io_call.dequeued : io_call → Option expqueue_entry
  | .dequeue (some e) => some e
  | .try_dequeue (some e) => some e
  | _ => none

/-- The entry a call sends from its own allocation. -/
def io_call.direct : io_call → Option expqueue_entry
  | .send_entry e => some e
  | _ => none

/-- The bytes a call sends out of the combining buffer. -/
def io_call.combined : io_call → List Nat
  | .send_combining buf => buf
  | _ => []

/-- The bytes sent out of the combining buffer, in call order. -/
def combined_bytes (calls : List io_call) : List Nat := (calls.map io_call.combined).flatten

/-- The entries sent from their own allocation, in call order. -/
def direct_sends (calls : List io_call) : List expqueue_entry := calls.filterMap io_call.direct

/-- The concatenation of the buffers passed to `comm->send`, in call order. -/
def sent_bytes (calls : List io_call) : List Nat := (calls.map io_call.sent).flatten

/-- The buffers passed to `comm->send`, in call order. -/
def send_buffers (calls : List io_call) : List (List Nat) :=
  (calls.filter io_call.is_send).map io_call.sent

/-- The entries the queue handed to the I/O thread, in call order. -/
def dequeued_entries (calls : List io_call) : List expqueue_entry :=
  calls.filterMap io_call.dequeued

/-- The concatenation of the bytes of a list of entries. -/
def entries_bytes (es : List expqueue_entry) : List Nat :=
  (es.map expqueue_entry.bytes).flatten

/-- The critical-section protocol of the queue, followed along a run.  The
state is `some true` inside a critical section, `some false` outside, and
`none` once the protocol is broken: a try-dequeue or an `end_critical_section`
outside a critical section, or a blocking dequeue inside one.  A successful
blocking dequeue opens the critical section, `end_critical_section` closes
it. -/
def critical_section_step : Option Bool → io_call → Option Bool
  | none, _ => none
  | some false, .dequeue (some _) => some true
  | some false, .dequeue none => some false
  | some false, .try_dequeue _ => none
  | some false, .end_critical_section => none
  | some true, .dequeue _ => none
  | some true, .try_dequeue _ => some true
  | some true, .end_critical_section => some false
  | some b, .send_entry _ => some b
  | some b, .send_combining _ => some b

/-- The state of the critical-section protocol after a sequence of calls. -/
def critical_section_run (st : Option Bool) (calls : List io_call) : Option Bool :=
  calls.foldl critical_section_step st

/-! ## The integer codec

The functions `compress_int`, `decompress_int`, `compress_int2` and
`decompress_int2` are declared in `graphlab/serialization/integer.hpp`, which
is not among the sources; only their test `tests/integercompress.cpp` is.  The
spec describes them as a variable-length ("varint") codec of 1 to 10 bytes,
tail-anchored for the first pair and head-anchored for the second, with sign
extension on decode.  They are modelled as the base-128 codec with a
continuation flag that this describes. -/

/-- Modelled from the spec: the conversion of an integer to the signed integer
type of `w` bits (the template parameter of the codec in `integer.hpp`, which
is absent): the value modulo `2 ^ w` in `[-2 ^ (w-1), 2 ^ (w-1))`. -/
def to_signed (w : Nat) (v : Int) : Int := (v + 2 ^ (w - 1)) % 2 ^ w - 2 ^ (w - 1)

/-- Modelled from the spec: the 7-bit groups of `v` that a variable-length
encoder of `integer.hpp` (absent) emits, least significant first: groups are
emitted until the rest is its own sign extension from 7 bits, and at most
`fuel + 1` of them. -/
def varint_digits : Nat → Int → List Nat
  | 0, v => [(v % 128).toNat]
  | fuel + 1, v =>
    if -64 ≤ v ∧ v < 64 then [(v % 128).toNat]
    else (v % 128).toNat :: varint_digits fuel (v / 128)

/-- Modelled from the spec: the continuation flag (bit 7) of the codec of
`integer.hpp` (absent), set on every byte of an encoding but the last. -/
def varint_flag : List Nat → List Nat
  | [] => []
  | [d] => [d]
  | d :: ds => (d + 128) :: varint_flag ds

/-- Modelled from the spec: the bytes `compress_int` (in `integer.hpp`, absent)
produces for `v`: at most 10, most significant group first. -/
def compress_int_bytes (w : Nat) (v : Int) : List Nat :=
  varint_flag (varint_digits 9 (to_signed w v)).reverse

/-- Modelled from the spec: `compress_int(v, out[10])` of `integer.hpp`
(absent) "writes 1-10 bytes of `v` into the TAIL of `out`, returning the number
of bytes written".  The result is that number and the buffer afterwards. -/
def compress_int (w : Nat) (v : Int) (output : List Nat) : Nat × List Nat :=
  ((compress_int_bytes w v).length,
    output.take (10 - (compress_int_bytes w v).length) ++ compress_int_bytes w v)

/-- Modelled from the spec: the read loop of `decompress_int` (in
`integer.hpp`, absent): groups are shifted in, most significant first, up to
and including the first byte without the continuation flag. -/
def decode_tail : Int → List Nat → Int
  | acc, [] => acc
  | acc, b :: rest =>
    if b ≥ 128 then decode_tail (acc * 128 + ((b % 128 : Nat) : Int)) rest
    else acc * 128 + (b : Int)

/-- Modelled from the spec: `decompress_int<T>(ptr, v)` of `integer.hpp`
(absent), `T` a signed type of `w` bits: reads the encoding that starts at
`ptr`; "signed integers are sign-extended on decode", from bit 6 of the first
byte. -/
def decompress_int (w : Nat) (ptr : List Nat) : Int :=
  match ptr with
  | [] => 0
  | b :: _ => to_signed w (decode_tail (if b % 128 ≥ 64 then -1 else 0) ptr)

/-- Modelled from the spec: the bytes `compress_int2` (in `integer.hpp`,
absent) produces for `v`: at most 10, least significant group first. -/
def compress_int2_bytes (w : Nat) (v : Int) : List Nat :=
  varint_flag (varint_digits 9 (to_signed w v))

/-- Modelled from the spec: `compress_int2(v, out)` of `integer.hpp` (absent),
the "head-anchored variant": the bytes are written at the start of `out`.  The
result is their number and the buffer afterwards. -/
def compress_int2 (w : Nat) (v : Int) (output : List Nat) : Nat × List Nat :=
  ((compress_int2_bytes w v).length,
    compress_int2_bytes w v ++ output.drop (compress_int2_bytes w v).length)

/-- Modelled from the spec: the read loop of `decompress_int2` (in
`integer.hpp`, absent): groups are read least significant first, up to and
including the first byte without the continuation flag, whose bit 6 is the
sign. -/
def decode_head : List Nat → Int
  | [] => 0
  | b :: rest =>
    if b ≥ 128 then ((b % 128 : Nat) : Int) + 128 * decode_head rest
    else if b ≥ 64 then (b : Int) - 128 else (b : Int)

/-- Modelled from the spec: `decompress_int2<T>(ptr, v)` of `integer.hpp`
(absent), `T` a signed type of `w` bits. -/
def decompress_int2 (w : Nat) (ptr : List Nat) : Int := to_signed w (decode_head ptr)

/-! ## Sequences of calls and sample values -/

/-- The arguments of one call of the byte-buffer overload of `send_data`. -/
structure send_data_call where
  target : Nat
  packet_type_mask : Nat
  data : List Nat
  len : Nat
deriving DecidableEq, Repr

/-- A sequence of `send_data` calls on a sender, in order. -/
def send_data_calls (F : packet_format) (s : dc_buffered_stream_send_expqueue)
    (calls : List send_data_call) : dc_buffered_stream_send_expqueue :=
  calls.foldl (fun s c => send_data F s c.target c.packet_type_mask c.data c.len) s

/-- The sum of `len` over the calls whose kind lacks the `CONTROL_PACKET` bit. -/
def payload_total (F : packet_format) (calls : List send_data_call) : Nat :=
  ((calls.filter fun c => decide (c.packet_type_mask &&& F.CONTROL_PACKET = 0)).map
    send_data_call.len).sum

/-- A sender of process 0, constructed for peer 1, with an empty queue, the
sequentialization key 7 and all counters at 0. -/
def sample_sender : dc_buffered_stream_send_expqueue :=
  ⟨⟨0, 7, fun _ => 0⟩, 1, ⟨[], true⟩, 0⟩

/-- The payload `"hello"`. -/
def hello : List Nat := [104, 101, 108, 108, 111]

/-- An entry of `n` bytes, all equal to `b`. -/
def sample_entry (n b : Nat) : expqueue_entry := ⟨List.replicate n b, n⟩

/-- The sum of the lengths of a list of entries. -/
def total_len (es : List expqueue_entry) : Nat := (es.map expqueue_entry.len).sum

end dc_impl

/-! ## Threads: `thread::start(cpu_id)` and `launch_in_new_thread` -/

/-- The error codes the pthread library returns to `thread::start`, one for
each call whose result the function looks at. -/
structure pthread_errors where
  attr_init : Int
  attr_setstacksize : Int
  attr_setdetachstate : Int
  create : Int
  attr_destroy : Int
deriving DecidableEq, Repr

/-- How a call of `thread::start` ends: with `exit(EXIT_FAILURE)`, with a
failed `ASSERT_TRUE`, or by returning after `pthread_create` made the thread;
`affinity` is then the CPU set of the attributes the thread was made with, if
one was put there. -/
inductive start_result where
  | exit_failure
  | assert_failed
  | started (affinity : Option (Finset Nat))
deriving DecidableEq

/-- The set `CPU_ZERO` leaves. -/
def CPU_ZERO : Finset Nat := ∅

/-- The effect of `CPU_SET(cpu, &set)` for a set type of `CPU_SETSIZE` bits. -/
def CPU_SET (CPU_SETSIZE cpu : Nat) (set : Finset Nat) : Finset Nat :=
  if cpu < CPU_SETSIZE then insert cpu set else set

/-- The function `thread::start()`. -/
def thread.start (err : pthread_errors) : start_result :=
  if err.attr_init ≠ 0 then .assert_failed
  else if err.attr_setstacksize ≠ 0 then .assert_failed
  else if err.attr_setdetachstate ≠ 0 then .assert_failed
  else if err.create ≠ 0 then .exit_failure
  else if err.attr_destroy ≠ 0 then .assert_failed
  else .started none

/-- The function `thread::start(size_t cpu_id)` in its Linux branch;
`cpu_count` is the value of `thread::cpu_count()`.  The result of
`pthread_attr_setaffinity_np` is not looked at. -/
def thread.start_cpu_id (CPU_SETSIZE cpu_count : Nat) (err : pthread_errors) (cpu_id : Nat) :
    start_result :=
  if cpu_id ≥ cpu_count ∧ cpu_count > 0 then .exit_failure
  else if err.attr_init ≠ 0 then .assert_failed
  else if err.attr_setstacksize ≠ 0 then .assert_failed
  else if err.attr_setdetachstate ≠ 0 then .assert_failed
  else
    let cpu_set := CPU_SET CPU_SETSIZE (cpu_id % CPU_SETSIZE) CPU_ZERO
    if err.create ≠ 0 then .exit_failure
    else if err.attr_destroy ≠ 0 then .assert_failed
    else .started (some cpu_set)

/-- The function `launch_in_new_thread(f, cpuid)`. -/
def launch_in_new_thread (CPU_SETSIZE cpu_count : Nat) (err : pthread_errors) (cpuid : Nat) :
    start_result :=
  if cpuid ≠ dc_impl.SIZE_T_MINUS_ONE then thread.start_cpu_id CPU_SETSIZE cpu_count err cpuid
  else thread.start err

/-! ## The deadline of `conditional::timedwait_ns` -/

/-- The `struct timeval` that `gettimeofday` fills. -/
structure timeval where
  tv_sec : Int
  tv_usec : Int
deriving DecidableEq, Repr

/-- The `struct timespec` passed to `pthread_cond_timedwait`. -/
structure timespec where
  tv_sec : Int
  tv_nsec : Int
deriving DecidableEq, Repr

/-- The `timeout` that `conditional::timedwait_ns(mut, ns)` builds when
`gettimeofday` reports `tv`.  The sum `tv.tv_usec * 1000 + ns` is computed in
the 64-bit `long` of `tv_usec`, which it does not leave for a `tv_usec` below a
million and an `int ns`; `%` is the division of C, which truncates. -/
def conditional.timedwait_ns (tv : timeval) (ns : Int) : timespec :=
  { tv_nsec := (tv.tv_usec * 1000 + ns).tmod 1000000000
    tv_sec := tv.tv_sec + (if tv.tv_usec * 1000 + ns ≥ 1000000000 then 1 else 0) }

/-! ## The barrier of the systems without pthread barriers -/

/-- The data members of the class `barrier` (the second definition, used when
`__linux__` is not defined), without the mutex and the condition variable. -/
structure barrier where
  needed : Int
  called : Int
  barrier_sense : Bool
  barrier_release : Bool
deriving DecidableEq, Repr

/-- The constructor `barrier(size_t numthreads)`; `needed = numthreads`
converts to `int`. -/
def barrier.construct (numthreads : Nat) : barrier :=
  { needed := dc_impl.to_signed 32 numthreads
    called := 0
    barrier_sense := false
    barrier_release := true }

/-- The function `wait()` from `m.lock()` to the choice of its branch, which
the mutex makes one step: the barrier afterwards, the value of `listening_on`,
and whether the call took the branch `called == needed`.  The increment stays
within `int` as long as `called` is below `needed`. -/
def barrier.wait (b : barrier) : barrier × Bool × Bool :=
  let called := b.called + 1
  let listening_on := b.barrier_sense
  if called = b.needed then
    ({ b with called := 0, barrier_release := b.barrier_sense,
              barrier_sense := !b.barrier_sense }, listening_on, true)
  else ({ b with called := called }, listening_on, false)

/-- The condition of `while(barrier_release != listening_on) c.wait(m)`, for a
thread that recorded `listening_on`. -/
def barrier.waiting (b : barrier) (listening_on : Bool) : Bool :=
  b.barrier_release != listening_on

/-- The barrier after `k` further arrivals at `wait()`. -/
def barrier.arrivals (b : barrier) : Nat → barrier
  | 0 => b
  | k + 1 => (b.arrivals k).wait.1

/-! ## The class `synchronized_queue` -/

/-- The data member `_queue` of `synchronized_queue<T>`, oldest element first;
every member function runs under `_queuelock`, as one step. -/
structure synchronized_queue (T : Type) where
  _queue : List T
deriving DecidableEq, Repr

/-- The function `push(item)`. -/
def synchronized_queue.push {T : Type} (q : synchronized_queue T) (item : T) :
    synchronized_queue T :=
  { _queue := q._queue ++ [item] }

/-- The function `safepop(ret)`: the value returned, the value of `*ret`
afterwards, and the queue afterwards. -/
def synchronized_queue.safepop {T : Type} (q : synchronized_queue T) (ret : T) :
    Bool × T × synchronized_queue T :=
  if q._queue.length = 0 then (false, ret, q)
  else
    match q._queue with
    | [] => (false, ret, q)
    | front :: rest => (true, front, { _queue := rest })

/-- The function `pop()`: the value returned and the queue afterwards; on an
empty queue `front()` has no defined result. -/
def synchronized_queue.pop {T : Type} (q : synchronized_queue T) :
    Option (T × synchronized_queue T) :=
  match q._queue with
  | [] => none
  | front :: rest => some (front, { _queue := rest })

/-- The function `size()`. -/
def synchronized_queue.size {T : Type} (q : synchronized_queue T) : Nat := q._queue.length

/-- A call on a queue: `push(item)` or `safepop(&ret)`. -/
inductive queue_call (T : Type) where
  | push (item : T)
  | safepop
deriving DecidableEq, Repr

/-- Whether a call is a `push`. -/
def queue_call.is_push {T : Type} : queue_call T → Bool
  | .push _ => true
  | .safepop => false

/-- A sequence of calls on a queue, `ret` being the variable every `safepop`
stores into: the queue and `ret` afterwards, and what the calls of `safepop`
returned, each with the value of `ret` after it. -/
def synchronized_queue.calls {T : Type} :
    List (queue_call T) → synchronized_queue T → T →
      synchronized_queue T × T × List (Bool × T)
  | [], q, ret => (q, ret, [])
  | .push item :: cs, q, ret => synchronized_queue.calls cs (q.push item) ret
  | .safepop :: cs, q, ret =>
    let r := q.safepop ret
    let rest := synchronized_queue.calls cs r.2.2 r.2.1
    (rest.1, rest.2.1, (r.1, r.2.1) :: rest.2.2)

end graphlab

/-! ## The Matrix Market files of the pmf application -/

namespace pmf

/-- How a loader ends: it returns, it logs at `LOG_FATAL`, which ends the
process, or an `assert` fails. -/
inductive load_status where
  | ok
  | fatal
  | assert_failed
deriving DecidableEq, Repr

/-- A call `_g->add_edge(source, target, edge)`, with `edge.weight`. -/
structure added_edge (α : Type) where
  source : Int
  target : Int
  weight : α
deriving DecidableEq, Repr

/-- The loop `for (i=0; i<nz; i++)` of `load_matrix_market`, with the
iterations still to run.  The data lines still unread are given as `fscanf`
reads them: `none` for a line that does not give the three values; at the end
of the file `fscanf` does not give them either.  `zero` is `ac.zero`, `M` is
also the value of `ps.M`.  The result is the calls of `add_edge` made, in
order, and how the loop ends.  The sums are those of `int`, in whose range
`ps.last_node = M+N` was computed before. -/
def load_matrix_market_loop {α : Type} [DecidableEq α] [Zero α] (zero : Bool) (M N : Int) :
    Nat → List (Option (Int × Int × α)) → List (added_edge α) →
      List (added_edge α) × load_status
  | 0, _, g => (g, .ok)
  | _ + 1, [], g => (g, .fatal)
  | _ + 1, none :: _, g => (g, .fatal)
  | n + 1, some (I, J, val) :: rest, g =>
    if I ≤ 0 ∨ J ≤ 0 then (g, .fatal)
    else
      let I1 := I - 1
      let J1 := J - 1
      if zero = false ∧ ¬ val ≠ 0 then (g, .assert_failed)
      else if ¬ I1 < M then (g, .assert_failed)
      else if ¬ J1 < N then (g, .assert_failed)
      else load_matrix_market_loop zero M N n rest (g ++ [⟨I1, J1 + M, val⟩])

/-- The function `load_matrix_market` from the size line `M N nz` on. -/
def load_matrix_market {α : Type} [DecidableEq α] [Zero α] (zero : Bool) (M N nz : Int)
    (lines : List (Option (Int × Int × α))) : List (added_edge α) × load_status :=
  load_matrix_market_loop zero M N nz.toNat lines []

/-- The dense matrix type `mat` of the linear-algebra library, as far as
`save_matrix_market_matrix` uses it: `val i j` is `get_val(a, i, j)`. -/
structure mat (α : Type) where
  rows : Nat
  cols : Nat
  val : Nat → Nat → α

/-- The member `size()` of `mat`: the number of elements. -/
def mat.size {α : Type} (a : mat α) : Nat := a.rows * a.cols

/-- What one `fprintf` of the loops of `save_matrix_market_matrix` writes: a
line `i j v` of the sparse form, a value of the dense form, or the end of a
dense row.  `integer` tells the conversion of the value: `%d` of `(int)v`, or
`%10.13g` of `v`. -/
inductive mm_item (α : Type) where
  | entry (i j : Nat) (integer : Bool) (v : α)
  | value (integer : Bool) (v : α)
  | newline
deriving DecidableEq, Repr

/-- The file `save_matrix_market_matrix` writes, after the banner and the
comment: the three numbers of the size line, and what follows it. -/
structure mm_file (α : Type) where
  size_line : Nat × Nat × Nat
  body : List (mm_item α)
deriving DecidableEq, Repr

/-- The function `save_matrix_market_matrix(filename, a, comment, integer,
issparse)` from `mm_write_mtx_crd_size` on. -/
def save_matrix_market_matrix {α : Type} [DecidableEq α] [Zero α] (a : mat α)
    (integer issparse : Bool) : mm_file α :=
  { size_line := (a.rows, a.cols, a.size)
    body := ((List.range a.rows).map fun i =>
      ((List.range a.cols).map fun j =>
        if issparse then
          if a.val i j ≠ 0 then [mm_item.entry (i + 1) (j + 1) integer (a.val i j)] else []
        else
          mm_item.value integer (a.val i j) ::
            (if j = a.cols - 1 then [mm_item.newline] else [])).flatten).flatten }

/-- The lines `i j v` among what was written. -/
def mm_file.entry_lines {α : Type} (f : mm_file α) : List (Nat × Nat × α) :=
  f.body.filterMap fun x => match x with
    | .entry i j _ v => some (i, j, v)
    | _ => none

end pmf

/-! ## The readers of the toolkits -/

namespace toolkits

/-- How a function ends: it returns, it logs at `LOG_FATAL`, which ends the
process, or an assertion fails. -/
inductive load_status where
  | ok
  | fatal
  | assert_failed
deriving DecidableEq, Repr

/-- The struct `matrix_entry<Graph>`; the vertex ids are of the unsigned type
`vertex_id_type`. -/
structure matrix_entry (α : Type) where
  source : Nat
  target : Nat
  edata : α
deriving DecidableEq, Repr

/-- The loop `for(size_t i = 0; i < size_t(desc.nonzeros); ++i)` of
`load_matrixmarket`, with the iterations still to run.  The data lines still
unread are given as `fscanf` reads them: `none` for a line that does not give
the three values; at the end of the file `fscanf` does not give them either.
`VERTEX_ID_RANGE` is the number of values of `vertex_id_type`, to which `row`
and `col + desc.rows` convert.  The result is `test_set` and how the loop
ends. -/
def load_matrixmarket_loop {α : Type} (VERTEX_ID_RANGE : Nat) (rows cols : Int) :
    Nat → List (Option (Int × Int × α)) → List (matrix_entry α) →
      List (matrix_entry α) × load_status
  | 0, _, test_set => (test_set, .ok)
  | _ + 1, [], test_set => (test_set, .fatal)
  | _ + 1, none :: _, test_set => (test_set, .fatal)
  | n + 1, some (row0, col0, val) :: rest, test_set =>
    let row := row0 - 1
    let col := col0 - 1
    if ¬ row < rows then (test_set, .assert_failed)
    else if ¬ col < cols then (test_set, .assert_failed)
    else
      let source := (row % (VERTEX_ID_RANGE : Int)).toNat
      let target := ((col + rows) % (VERTEX_ID_RANGE : Int)).toNat
      load_matrixmarket_loop VERTEX_ID_RANGE rows cols n rest
        (test_set ++ [⟨source, target, val⟩])

/-- The function `load_matrixmarket(fname, desc, test_set)` from the size line
`rows cols nonzeros` on, for a `test_set` that is empty at the call. -/
def load_matrixmarket {α : Type} (VERTEX_ID_RANGE : Nat) (rows cols nonzeros : Int)
    (lines : List (Option (Int × Int × α))) : List (matrix_entry α) × load_status :=
  load_matrixmarket_loop VERTEX_ID_RANGE rows cols
    (nonzeros % (graphlab.dc_impl.SIZE_T_RANGE : Int)).toNat lines []

/-- A stream as `fread` and `fwrite` meet it: the elements still unread, the
elements written so far, and for the coming calls the most elements each of
them transfers; a call past the end of `short` transfers all it is asked
for. -/
structure FILE (T : Type) where
  unread : List T
  written : List T
  short : List Nat
deriving DecidableEq, Repr

/-- The number of elements the next call transfers when asked for `n`. -/
def FILE.transfer {T : Type} (f : FILE T) (n : Nat) : Nat :=
  match f.short with
  | [] => n
  | k :: _ => min n k

/-- The call `fread(ptr + off, sizeof(T), n, f)` for an array `ptr`, whose
elements are `none` where nothing was stored yet: the array afterwards, the
value returned, and the stream afterwards. -/
def fread {T : Type} (ptr : List (Option T)) (off n : Nat) (f : FILE T) :
    List (Option T) × Nat × FILE T :=
  let got := f.unread.take (f.transfer n)
  (ptr.take off ++ got.map some ++ ptr.drop (off + got.length), got.length,
    { f with unread := f.unread.drop got.length, short := f.short.tail })

/-- The call `fwrite(array + off, sizeof(T), n, f)`: the value returned and
the stream afterwards. -/
def fwrite {T : Type} (array : List T) (off n : Nat) (f : FILE T) : Nat × FILE T :=
  let put := (array.drop off).take (f.transfer n)
  (put.length, { f with written := f.written ++ put, short := f.short.tail })

/-- How `read_vec` ends: it returns the array, it logs at `LOG_FATAL`, or
`assert(total == (int)len)` fails. -/
inductive read_result (T : Type) where
  | returned (vec : List (Option T))
  | fatal
  | assert_failed
deriving DecidableEq, Repr

/-- The loop `while (total < len)` of `read_vec`, for at most the given number
of iterations: `none` when it logs at `LOG_FATAL`, else the array and
`total`. -/
def read_vec_loop {T : Type} (len : Nat) :
    Nat → List (Option T) → Nat → FILE T → Option (List (Option T) × Nat)
  | 0, vec, total, _ => some (vec, total)
  | fuel + 1, vec, total, f =>
    if total < len then
      let r := fread vec 0 len f
      let rc := r.2.1
      if rc ≤ 0 then none
      else read_vec_loop len fuel r.1 (total + rc) r.2.2
    else some (vec, total)

/-- The function `read_vec<T>(f, len)`.  Every iteration of the loop that does
not end the process adds at least one to `total`, so `len` iterations end
it. -/
def read_vec {T : Type} (f : FILE T) (len : Nat) : read_result T :=
  match read_vec_loop len len (List.replicate len none) 0 f with
  | none => .fatal
  | some (vec, total) => if total = len then .returned vec else .assert_failed

/-- The loop `while(total < len)` of `write_vec`, for at most the given number
of iterations: `none` when it logs at `LOG_FATAL`, else `total` and the
stream. -/
def write_vec_loop {T : Type} (len : Nat) (array : List T) :
    Nat → Nat → FILE T → Option (Nat × FILE T)
  | 0, total, f => some (total, f)
  | fuel + 1, total, f =>
    if total < len then
      let r := fwrite array total (len - total) f
      let rc := r.1
      if rc ≤ 0 then none
      else write_vec_loop len array fuel (total + rc) r.2
    else some (total, f)

/-- The function `write_vec<T>(f, len, array)`: the stream afterwards, or how
the function fails. -/
def write_vec {T : Type} (f : FILE T) (len : Nat) (array : List T) : Except load_status (FILE T) :=
  match write_vec_loop len array len 0 f with
  | none => .error .fatal
  | some (total, f1) => if total = len then .ok f1 else .error .assert_failed

end toolkits

namespace graphlab
namespace dc_impl

/-! ## Lemmas on runs -/

theorem sent_bytes_nil : sent_bytes [] = [] := rfl

theorem sent_bytes_cons (c : io_call) (cs : List io_call) :
    sent_bytes (c :: cs) = c.sent ++ sent_bytes cs := by
  simp [sent_bytes]

theorem sent_bytes_append (a b : List io_call) :
    sent_bytes (a ++ b) = sent_bytes a ++ sent_bytes b := by
  simp [sent_bytes]

theorem dequeued_entries_nil : dequeued_entries [] = [] := rfl

theorem dequeued_entries_append (a b : List io_call) :
    dequeued_entries (a ++ b) = dequeued_entries a ++ dequeued_entries b := by
  simp [dequeued_entries]

theorem entries_bytes_nil : entries_bytes [] = [] := rfl

theorem entries_bytes_cons (e : expqueue_entry) (es : List expqueue_entry) :
    entries_bytes (e :: es) = e.bytes ++ entries_bytes es := by
  simp [entries_bytes]

theorem entries_bytes_append (a b : List expqueue_entry) :
    entries_bytes (a ++ b) = entries_bytes a ++ entries_bytes b := by
  simp [entries_bytes]

/-- One step of the combining loop hands on every byte: what it sends followed
by the content of the combining buffer afterwards is the content before
followed by the entry. -/
theorem combine_step_sent (upper : Nat) (st : combine_state) (e : expqueue_entry) :
    sent_bytes (combine_step upper st e).2 ++
        (combine_step upper st e).1.sendcombining.take (combine_step upper st e).1.length =
      st.sendcombining.take st.length ++ e.bytes := by
  unfold combine_step
  by_cases h1 : st.length + e.len > upper
  · by_cases h2 : e.len ≤ upper
    · simp [h1, h2, sent_bytes, io_call.sent, expqueue_entry.bytes]
    · simp [h1, h2, sent_bytes, io_call.sent, expqueue_entry.bytes]
  · have h2 : st.length + e.len ≤ upper := by omega
    simp only [h1, h2, if_true, if_false, sent_bytes_nil, List.nil_append,
      expqueue_entry.bytes]
    apply List.take_of_length_le
    have a1 := List.length_take_le st.length st.sendcombining
    have a2 := List.length_take_le e.len e.c
    rw [List.length_append]
    omega

theorem combine_loop_sent (upper : Nat) (es : List expqueue_entry) (st : combine_state) :
    sent_bytes (combine_loop upper st es).2 ++
        (combine_loop upper st es).1.sendcombining.take (combine_loop upper st es).1.length =
      st.sendcombining.take st.length ++ entries_bytes es := by
  induction es generalizing st with
  | nil => simp [combine_loop, sent_bytes_nil, entries_bytes_nil]
  | cons e es ih =>
    simp only [combine_loop, sent_bytes_append, entries_bytes_cons, List.append_assoc]
    rw [ih, ← List.append_assoc, combine_step_sent, List.append_assoc]

theorem combine_send_sent (upper : Nat) (es : List expqueue_entry) :
    sent_bytes (combine_send upper es) = entries_bytes es := by
  have h := combine_loop_sent upper es ⟨[], 0⟩
  simp only [List.take_nil, List.nil_append] at h
  unfold combine_send
  by_cases hl : (combine_loop upper ⟨[], 0⟩ es).1.length > 0
  · simp only [hl, if_true, sent_bytes_append, sent_bytes_cons, sent_bytes_nil, io_call.sent,
      List.append_nil]
    exact h
  · have h0 : (combine_loop upper ⟨[], 0⟩ es).1.length = 0 := by omega
    simp only [hl, if_false]
    rw [h0] at h
    simpa using h

theorem combine_step_dequeued (upper : Nat) (st : combine_state) (e : expqueue_entry) :
    dequeued_entries (combine_step upper st e).2 = [] := by
  unfold combine_step
  by_cases h1 : st.length + e.len > upper <;> by_cases h2 : e.len ≤ upper <;>
    by_cases h3 : st.length + e.len ≤ upper <;>
    simp [h1, h2, h3, dequeued_entries, io_call.dequeued]

theorem combine_loop_dequeued (upper : Nat) (es : List expqueue_entry) (st : combine_state) :
    dequeued_entries (combine_loop upper st es).2 = [] := by
  induction es generalizing st with
  | nil => rfl
  | cons e es ih =>
    simp only [combine_loop, dequeued_entries_append, ih, combine_step_dequeued, List.append_nil]

theorem combine_send_dequeued (upper : Nat) (es : List expqueue_entry) :
    dequeued_entries (combine_send upper es) = [] := by
  unfold combine_send
  by_cases hl : (combine_loop upper ⟨[], 0⟩ es).1.length > 0
  · simp only [hl, if_true, dequeued_entries_append, combine_loop_dequeued]
    rfl
  · simp only [hl, if_false, combine_loop_dequeued]

/-- The gathering loop sends nothing, and appends the entries it dequeues to
the filled part of the array. -/
theorem gather_loop_calls (fuel : Nat) (w : queue_view) (g : gather_state) :
    sent_bytes (gather_loop fuel w g).2.2 = [] ∧
      (gather_loop fuel w g).2.1.entries.take (gather_loop fuel w g).2.1.numentries =
        g.entries.take g.numentries ++ dequeued_entries (gather_loop fuel w g).2.2 := by
  induction fuel generalizing w g with
  | zero => simp [gather_loop, sent_bytes_nil, dequeued_entries_nil]
  | succ fuel ih =>
    unfold gather_loop
    cases hd : w.try_dequeue_in_critical_section.1 with
    | none => simp [hd, sent_bytes, io_call.sent, dequeued_entries, io_call.dequeued]
    | some d =>
      simp only [hd]
      have hlen : (g.entries.take g.numentries ++ [d]).take (g.numentries + 1) =
          g.entries.take g.numentries ++ [d] := by
        apply List.take_of_length_le
        have a1 := List.length_take_le g.numentries g.entries
        simp only [List.length_append, List.length_singleton]
        omega
      by_cases h128 : g.numentries + 1 ≥ 128
      · simp only [h128, if_true]
        refine ⟨by simp [sent_bytes, io_call.sent], ?_⟩
        rw [hlen]
        simp [dequeued_entries, io_call.dequeued]
      · simp only [h128, if_false]
        have h := ih w.try_dequeue_in_critical_section.2
          ⟨g.entries.take g.numentries ++ [d], g.numentries + 1,
            (g.accumulated_length + d.len) % SIZE_T_RANGE⟩
        refine ⟨by simp [sent_bytes_cons, io_call.sent, h.1], ?_⟩
        rw [h.2, hlen]
        simp [dequeued_entries, io_call.dequeued]

/-- A call of `write_combining_send` sends the entry it was given followed by
the entries it dequeued. -/
theorem write_combining_send_sent (upper : Nat) (e : expqueue_entry) (w : queue_view) :
    sent_bytes (write_combining_send upper e w).2 =
      entries_bytes (e :: dequeued_entries (write_combining_send upper e w).2) := by
  have h := gather_loop_calls 128 w ⟨[e], 1, e.len⟩
  unfold write_combining_send
  simp only [sent_bytes_append, dequeued_entries_append, combine_send_sent,
    combine_send_dequeued, h.1, h.2, List.nil_append, List.append_nil]
  simp [sent_bytes, io_call.sent, dequeued_entries, io_call.dequeued]

theorem send_loop_iter_sent (lower upper fuel : Nat) (w : queue_view) :
    sent_bytes (send_loop_iter lower upper fuel w).calls =
      entries_bytes (dequeued_entries (send_loop_iter lower upper fuel w).calls) := by
  induction fuel generalizing w with
  | zero => rfl
  | succ fuel ih =>
    unfold send_loop_iter
    cases hd : w.dequeue_and_begin_critical_section_on_success with
    | none => rfl
    | some r =>
      obtain ⟨data, w1⟩ := r
      cases data with
      | none => rfl
      | some e =>
        by_cases hl : e.len ≤ lower
        · simp only [hl, if_true]
          rw [sent_bytes_append, dequeued_entries_append,
            entries_bytes_append, ih, sent_bytes_cons]
          congr 1
          have h := write_combining_send_sent upper e w1
          simp only [io_call.sent, List.nil_append, h]
          simp [dequeued_entries, io_call.dequeued]
        · simp only [hl, if_false]
          simp only [sent_bytes_cons, io_call.sent, List.nil_append, ih]
          simp [dequeued_entries, io_call.dequeued, entries_bytes_cons]

/-! ## Lemmas on the queue -/

theorem enqueued_append (a b : List queue_op) : enqueued (a ++ b) = enqueued a ++ enqueued b := by
  simp [enqueued]

theorem foldl_apply_queue (g : List queue_op) (q : blocking_queue) :
    (g.foldl blocking_queue.apply q).m_queue = q.m_queue ++ enqueued g := by
  induction g generalizing q with
  | nil => simp [enqueued]
  | cons o g ih =>
    cases o with
    | enqueue e =>
      simp [List.foldl_cons, ih, blocking_queue.apply, blocking_queue.enqueue, enqueued]
    | stop_blocking =>
      simp [List.foldl_cons, ih, blocking_queue.apply, blocking_queue.stop_blocking, enqueued]

theorem arrive_entries (w : queue_view) : w.arrive.entries = w.entries := by
  unfold queue_view.arrive
  cases hp : w.pending with
  | nil => rfl
  | cons g gs =>
    simp [queue_view.entries, hp, foldl_apply_queue, enqueued_append]

theorem try_dequeue_nil (w : queue_view) (hq : w.arrive.sendqueue.m_queue = []) :
    w.try_dequeue_in_critical_section = (none, w.arrive) := by
  simp only [queue_view.try_dequeue_in_critical_section, hq]

theorem try_dequeue_cons (w : queue_view) (e : expqueue_entry) (rest : List expqueue_entry)
    (hq : w.arrive.sendqueue.m_queue = e :: rest) :
    w.try_dequeue_in_critical_section =
      (some e, ⟨⟨rest, w.arrive.sendqueue.m_alive⟩, w.arrive.pending⟩) := by
  simp only [queue_view.try_dequeue_in_critical_section, hq]

/-- The non-blocking dequeue takes the oldest entry, or finds the queue empty. -/
theorem try_dequeue_entries (w : queue_view) :
    w.entries = w.try_dequeue_in_critical_section.1.toList ++
      w.try_dequeue_in_critical_section.2.entries := by
  have h := arrive_entries w
  cases hq : w.arrive.sendqueue.m_queue with
  | nil => simp [try_dequeue_nil w hq, h]
  | cons e rest =>
    rw [try_dequeue_cons w e rest hq, ← h]
    simp [queue_view.entries, hq]

theorem gather_loop_none (fuel : Nat) (w : queue_view) (g : gather_state)
    (hd : w.try_dequeue_in_critical_section.1 = none) :
    gather_loop (fuel + 1) w g =
      (w.try_dequeue_in_critical_section.2, g, [io_call.try_dequeue none]) := by
  simp only [gather_loop, hd]

theorem gather_loop_full (fuel : Nat) (w : queue_view) (g : gather_state) (d : expqueue_entry)
    (hd : w.try_dequeue_in_critical_section.1 = some d) (h128 : g.numentries + 1 ≥ 128) :
    gather_loop (fuel + 1) w g =
      (w.try_dequeue_in_critical_section.2,
        ⟨g.entries.take g.numentries ++ [d], g.numentries + 1,
          (g.accumulated_length + d.len) % SIZE_T_RANGE⟩,
        [io_call.try_dequeue (some d)]) := by
  simp only [gather_loop, hd, h128, if_true]

theorem gather_loop_more (fuel : Nat) (w : queue_view) (g : gather_state) (d : expqueue_entry)
    (hd : w.try_dequeue_in_critical_section.1 = some d) (h128 : ¬ g.numentries + 1 ≥ 128) :
    gather_loop (fuel + 1) w g =
      ((gather_loop fuel w.try_dequeue_in_critical_section.2
          ⟨g.entries.take g.numentries ++ [d], g.numentries + 1,
            (g.accumulated_length + d.len) % SIZE_T_RANGE⟩).1,
        (gather_loop fuel w.try_dequeue_in_critical_section.2
          ⟨g.entries.take g.numentries ++ [d], g.numentries + 1,
            (g.accumulated_length + d.len) % SIZE_T_RANGE⟩).2.1,
        io_call.try_dequeue (some d) ::
          (gather_loop fuel w.try_dequeue_in_critical_section.2
            ⟨g.entries.take g.numentries ++ [d], g.numentries + 1,
              (g.accumulated_length + d.len) % SIZE_T_RANGE⟩).2.2) := by
  simp only [gather_loop, hd, h128, if_false]

/-- The step bound of the gathering loop is never reached: from fewer than 128
entries, any bound that allows the array to fill gives the same run. -/
theorem gather_loop_stable (fuel : Nat) (w : queue_view) (g : gather_state)
    (hn : g.numentries < 128) (hf : 128 ≤ g.numentries + fuel) :
    gather_loop (fuel + 1) w g = gather_loop fuel w g := by
  induction fuel generalizing w g with
  | zero => omega
  | succ fuel ih =>
    cases hd : w.try_dequeue_in_critical_section.1 with
    | none => rw [gather_loop_none (fuel + 1) w g hd, gather_loop_none fuel w g hd]
    | some d =>
      by_cases h128 : g.numentries + 1 ≥ 128
      · rw [gather_loop_full (fuel + 1) w g d hd h128, gather_loop_full fuel w g d hd h128]
      · rw [gather_loop_more (fuel + 1) w g d hd h128, gather_loop_more fuel w g d hd h128]
        rw [ih w.try_dequeue_in_critical_section.2
          ⟨g.entries.take g.numentries ++ [d], g.numentries + 1,
            (g.accumulated_length + d.len) % SIZE_T_RANGE⟩
          (by simp only []; omega) (by simp only []; omega)]

theorem gather_loop_entries (fuel : Nat) (w : queue_view) (g : gather_state) :
    w.entries = dequeued_entries (gather_loop fuel w g).2.2 ++ (gather_loop fuel w g).1.entries := by
  induction fuel generalizing w g with
  | zero => simp [gather_loop, dequeued_entries_nil]
  | succ fuel ih =>
    have ht := try_dequeue_entries w
    cases hd : w.try_dequeue_in_critical_section.1 with
    | none =>
      rw [hd] at ht
      rw [gather_loop_none fuel w g hd]
      simpa [dequeued_entries, io_call.dequeued] using ht
    | some d =>
      rw [hd] at ht
      by_cases h128 : g.numentries + 1 ≥ 128
      · rw [gather_loop_full fuel w g d hd h128]
        simpa [dequeued_entries, io_call.dequeued] using ht
      · rw [gather_loop_more fuel w g d hd h128, ht]
        simp only []
        rw [ih w.try_dequeue_in_critical_section.2
          ⟨g.entries.take g.numentries ++ [d], g.numentries + 1,
            (g.accumulated_length + d.len) % SIZE_T_RANGE⟩]
        simp [dequeued_entries, io_call.dequeued]

theorem write_combining_send_entries (upper : Nat) (e : expqueue_entry) (w : queue_view) :
    w.entries = dequeued_entries (write_combining_send upper e w).2 ++
      (write_combining_send upper e w).1.entries := by
  have h := gather_loop_entries 128 w ⟨[e], 1, e.len⟩
  unfold write_combining_send
  simp only [dequeued_entries_append, combine_send_dequeued, List.append_nil]
  rw [h]
  simp [dequeued_entries, io_call.dequeued]

theorem wait_dequeue_nil_cons (q : blocking_queue) (e : expqueue_entry)
    (rest : List expqueue_entry) (hq : q.m_queue = e :: rest) :
    q.wait_dequeue [] = some (some e, ⟨⟨rest, q.m_alive⟩, []⟩) := by
  simp only [blocking_queue.wait_dequeue, hq]

theorem wait_dequeue_nil_nil (q : blocking_queue) (hq : q.m_queue = []) :
    q.wait_dequeue [] = if q.m_alive then none else some (none, ⟨q, []⟩) := by
  simp only [blocking_queue.wait_dequeue, hq]

theorem wait_dequeue_cons_cons (q : blocking_queue) (g : List queue_op)
    (gs : List (List queue_op)) (e : expqueue_entry) (rest : List expqueue_entry)
    (hq : (g.foldl blocking_queue.apply q).m_queue = e :: rest) :
    q.wait_dequeue (g :: gs) =
      some (some e, ⟨⟨rest, (g.foldl blocking_queue.apply q).m_alive⟩, gs⟩) := by
  simp only [blocking_queue.wait_dequeue, hq]

theorem wait_dequeue_cons_nil (q : blocking_queue) (g : List queue_op)
    (gs : List (List queue_op)) (hq : (g.foldl blocking_queue.apply q).m_queue = []) :
    q.wait_dequeue (g :: gs) =
      if (g.foldl blocking_queue.apply q).m_alive then
        (g.foldl blocking_queue.apply q).wait_dequeue gs
      else some (none, ⟨g.foldl blocking_queue.apply q, gs⟩) := by
  simp only [blocking_queue.wait_dequeue, hq]

/-- The blocking dequeue, when it returns, has taken the oldest entry or found
the queue empty and stopped. -/
theorem wait_dequeue_entries (pending : List (List queue_op)) (q : blocking_queue)
    (r : Option expqueue_entry × queue_view) (h : q.wait_dequeue pending = some r) :
    (queue_view.mk q pending).entries = r.1.toList ++ r.2.entries ∧
      (r.1 = none → r.2.sendqueue.m_queue = [] ∧ r.2.sendqueue.m_alive = false) := by
  induction pending generalizing q with
  | nil =>
    cases hq : q.m_queue with
    | nil =>
      rw [wait_dequeue_nil_nil q hq] at h
      by_cases ha : q.m_alive = true
      · simp [ha] at h
      · simp only [ha] at h
        simp only [Bool.false_eq_true, if_false, Option.some.injEq] at h
        subst h
        simp [queue_view.entries, hq, ha]
    | cons e rest =>
      rw [wait_dequeue_nil_cons q e rest hq, Option.some.injEq] at h
      subst h
      simp [queue_view.entries, hq]
  | cons g gs ih =>
    have hq1 := foldl_apply_queue g q
    cases hq : (g.foldl blocking_queue.apply q).m_queue with
    | nil =>
      rw [wait_dequeue_cons_nil q g gs hq] at h
      rw [hq] at hq1
      have hent : (queue_view.mk q (g :: gs)).entries =
          (queue_view.mk (g.foldl blocking_queue.apply q) gs).entries := by
        simp only [queue_view.entries, List.flatten_cons, enqueued_append, hq,
          ← List.append_assoc, ← hq1]
      by_cases ha : (g.foldl blocking_queue.apply q).m_alive = true
      · simp only [ha, if_true] at h
        have h2 := ih _ h
        exact ⟨by rw [hent, h2.1], h2.2⟩
      · simp only [ha] at h
        simp only [Bool.false_eq_true, if_false, Option.some.injEq] at h
        subst h
        refine ⟨by rw [hent]; simp, ?_⟩
        intro _
        exact ⟨hq, by simpa using ha⟩
    | cons e rest =>
      rw [wait_dequeue_cons_cons q g gs e rest hq, Option.some.injEq] at h
      subst h
      rw [hq] at hq1
      simp only [queue_view.entries, List.flatten_cons, enqueued_append, Option.toList,
        ← List.append_assoc, ← hq1]
      simp

/-! ## Lemmas on `send_loop` -/

theorem send_loop_iter_blocked (lower upper fuel : Nat) (w : queue_view)
    (hd : w.dequeue_and_begin_critical_section_on_success = none) :
    send_loop_iter lower upper (fuel + 1) w =
      ⟨.blocked, ⟨w.pending.flatten.foldl blocking_queue.apply w.sendqueue, []⟩, []⟩ := by
  simp only [send_loop_iter, hd]

theorem send_loop_iter_exited (lower upper fuel : Nat) (w w1 : queue_view)
    (hd : w.dequeue_and_begin_critical_section_on_success = some (none, w1)) :
    send_loop_iter lower upper (fuel + 1) w = ⟨.exited, w1, [io_call.dequeue none]⟩ := by
  simp only [send_loop_iter, hd]

theorem send_loop_iter_small (lower upper fuel : Nat) (w w1 : queue_view) (e : expqueue_entry)
    (hd : w.dequeue_and_begin_critical_section_on_success = some (some e, w1))
    (hl : e.len ≤ lower) :
    send_loop_iter lower upper (fuel + 1) w =
      ⟨(send_loop_iter lower upper fuel (write_combining_send upper e w1).1).status,
        (send_loop_iter lower upper fuel (write_combining_send upper e w1).1).view,
        io_call.dequeue (some e) :: (write_combining_send upper e w1).2 ++
          (send_loop_iter lower upper fuel (write_combining_send upper e w1).1).calls⟩ := by
  simp only [send_loop_iter, hd, hl, if_true]

theorem send_loop_iter_large (lower upper fuel : Nat) (w w1 : queue_view) (e : expqueue_entry)
    (hd : w.dequeue_and_begin_critical_section_on_success = some (some e, w1))
    (hl : ¬ e.len ≤ lower) :
    send_loop_iter lower upper (fuel + 1) w =
      ⟨(send_loop_iter lower upper fuel w1).status, (send_loop_iter lower upper fuel w1).view,
        io_call.dequeue (some e) :: io_call.end_critical_section :: io_call.send_entry e ::
          (send_loop_iter lower upper fuel w1).calls⟩ := by
  simp only [send_loop_iter, hd, hl, if_false]

/-- The entries a run dequeues, followed by those still to come, are the
entries there were to dequeue: the queue is emptied in order. -/
theorem send_loop_iter_entries (lower upper fuel : Nat) (w : queue_view) :
    w.entries = dequeued_entries (send_loop_iter lower upper fuel w).calls ++
      (send_loop_iter lower upper fuel w).view.entries := by
  induction fuel generalizing w with
  | zero => simp [send_loop_iter, dequeued_entries_nil]
  | succ fuel ih =>
    cases hd : w.dequeue_and_begin_critical_section_on_success with
    | none =>
      rw [send_loop_iter_blocked lower upper fuel w hd]
      simp [queue_view.entries, dequeued_entries_nil, foldl_apply_queue, enqueued]
    | some r =>
      obtain ⟨data, w1⟩ := r
      have hw := wait_dequeue_entries w.pending w.sendqueue (data, w1) hd
      cases data with
      | none =>
        rw [send_loop_iter_exited lower upper fuel w w1 hd]
        simpa [dequeued_entries, io_call.dequeued] using hw.1
      | some e =>
        have hw1 : w.entries = e :: w1.entries := by simpa using hw.1
        by_cases hl : e.len ≤ lower
        · rw [send_loop_iter_small lower upper fuel w w1 e hd hl, hw1]
          simp only [dequeued_entries_append]
          rw [write_combining_send_entries upper e w1,
            ih (write_combining_send upper e w1).1]
          simp [dequeued_entries, io_call.dequeued]
        · rw [send_loop_iter_large lower upper fuel w w1 e hd hl, hw1, ih w1]
          simp [dequeued_entries, io_call.dequeued]

/-- With at least `size + 1` iterations the run of `send_loop` is complete. -/
theorem send_loop_iter_finished (lower upper fuel : Nat) (w : queue_view)
    (hf : w.size + 1 ≤ fuel) :
    (send_loop_iter lower upper fuel w).status ≠ loop_status.unfinished := by
  induction fuel generalizing w with
  | zero => omega
  | succ fuel ih =>
    cases hd : w.dequeue_and_begin_critical_section_on_success with
    | none =>
      rw [send_loop_iter_blocked lower upper fuel w hd]
      simp
    | some r =>
      obtain ⟨data, w1⟩ := r
      have hw := wait_dequeue_entries w.pending w.sendqueue (data, w1) hd
      cases data with
      | none =>
        rw [send_loop_iter_exited lower upper fuel w w1 hd]
        simp
      | some e =>
        have hw1 : w.entries = e :: w1.entries := by simpa using hw.1
        have hs : w.size = w1.size + 1 := by simp [queue_view.size, hw1]
        by_cases hl : e.len ≤ lower
        · rw [send_loop_iter_small lower upper fuel w w1 e hd hl]
          apply ih
          have h2 := congrArg List.length (write_combining_send_entries upper e w1)
          simp only [List.length_append] at h2
          simp only [queue_view.size] at hs hf ⊢
          omega
        · rw [send_loop_iter_large lower upper fuel w w1 e hd hl]
          apply ih
          omega

theorem send_buffers_flatten (calls : List io_call) :
    (send_buffers calls).flatten = sent_bytes calls := by
  induction calls with
  | nil => rfl
  | cons c cs ih =>
    rw [sent_bytes_cons, ← ih]
    cases c <;> simp [send_buffers, io_call.is_send, io_call.sent]

/-! ## Lemmas on entries too long for the combining buffer -/

theorem direct_sends_append (a b : List io_call) :
    direct_sends (a ++ b) = direct_sends a ++ direct_sends b := by
  simp [direct_sends]

theorem combined_bytes_append (a b : List io_call) :
    combined_bytes (a ++ b) = combined_bytes a ++ combined_bytes b := by
  simp [combined_bytes]

/-- The three cases of the loop body: the entry fits behind the content, or it
fits after a flush, or it is sent on its own after a flush. -/
theorem combine_step_fits (upper : Nat) (st : combine_state) (e : expqueue_entry)
    (h : st.length + e.len ≤ upper) :
    combine_step upper st e =
      (⟨st.sendcombining.take st.length ++ e.c.take e.len, st.length + e.len⟩, []) := by
  have h1 : ¬ st.length + e.len > upper := by omega
  simp only [combine_step, h1, h, if_true, if_false]

theorem combine_step_flush (upper : Nat) (st : combine_state) (e : expqueue_entry)
    (h : st.length + e.len > upper) (h2 : e.len ≤ upper) :
    combine_step upper st e =
      (⟨e.c.take e.len, e.len⟩, [io_call.send_combining (st.sendcombining.take st.length)]) := by
  simp only [combine_step, h, h2, if_true, List.take_zero, List.nil_append, Nat.zero_add]

theorem combine_step_alone (upper : Nat) (st : combine_state) (e : expqueue_entry)
    (h2 : upper < e.len) :
    combine_step upper st e =
      (⟨st.sendcombining, 0⟩,
        [io_call.send_combining (st.sendcombining.take st.length), io_call.send_entry e]) := by
  have h : st.length + e.len > upper := by omega
  have h3 : ¬ e.len ≤ upper := by omega
  simp only [combine_step, h, h3, if_true, if_false, List.singleton_append, Nat.zero_add]

theorem combine_step_direct (upper : Nat) (st : combine_state) (e : expqueue_entry) :
    direct_sends (combine_step upper st e).2 = [e].filter (fun x => decide (upper < x.len)) := by
  by_cases h2 : upper < e.len
  · rw [combine_step_alone upper st e h2]
    simp [direct_sends, io_call.direct, h2]
  · by_cases h : st.length + e.len ≤ upper
    · rw [combine_step_fits upper st e h]
      simp [direct_sends, h2]
    · rw [combine_step_flush upper st e (by omega) (by omega)]
      simp [direct_sends, io_call.direct, h2]

theorem combine_loop_direct (upper : Nat) (es : List expqueue_entry) (st : combine_state) :
    direct_sends (combine_loop upper st es).2 = es.filter (fun x => decide (upper < x.len)) := by
  induction es generalizing st with
  | nil => rfl
  | cons e es ih =>
    simp only [combine_loop, direct_sends_append, ih, combine_step_direct]
    rw [← List.filter_append]
    rfl

theorem combine_send_direct (upper : Nat) (es : List expqueue_entry) :
    direct_sends (combine_send upper es) = es.filter (fun x => decide (upper < x.len)) := by
  unfold combine_send
  by_cases hl : (combine_loop upper ⟨[], 0⟩ es).1.length > 0
  · simp only [hl, if_true, direct_sends_append, combine_loop_direct]
    simp [direct_sends, io_call.direct]
  · simp only [hl, if_false, combine_loop_direct]

theorem gather_loop_direct (fuel : Nat) (w : queue_view) (g : gather_state) :
    direct_sends (gather_loop fuel w g).2.2 = [] := by
  induction fuel generalizing w g with
  | zero => rfl
  | succ fuel ih =>
    cases hd : w.try_dequeue_in_critical_section.1 with
    | none =>
      rw [gather_loop_none fuel w g hd]
      rfl
    | some d =>
      by_cases h128 : g.numentries + 1 ≥ 128
      · rw [gather_loop_full fuel w g d hd h128]
        rfl
      · rw [gather_loop_more fuel w g d hd h128]
        simp only [direct_sends, List.filterMap_cons, io_call.direct]
        exact ih _ _

theorem write_combining_send_batch (upper : Nat) (e : expqueue_entry) (w : queue_view) :
    (write_combining_send upper e w).2 =
      (gather_loop 128 w ⟨[e], 1, e.len⟩).2.2 ++ [io_call.end_critical_section] ++
        combine_send upper (e :: dequeued_entries (write_combining_send upper e w).2) ∧
    dequeued_entries (write_combining_send upper e w).2 =
      dequeued_entries (gather_loop 128 w ⟨[e], 1, e.len⟩).2.2 := by
  have h := gather_loop_calls 128 w ⟨[e], 1, e.len⟩
  have hd : dequeued_entries (write_combining_send upper e w).2 =
      dequeued_entries (gather_loop 128 w ⟨[e], 1, e.len⟩).2.2 := by
    unfold write_combining_send
    simp only [dequeued_entries_append, combine_send_dequeued, List.append_nil]
    simp [dequeued_entries, io_call.dequeued]
  refine ⟨?_, hd⟩
  rw [hd]
  unfold write_combining_send
  simp only [h.2]
  rfl

theorem write_combining_send_direct (upper : Nat) (e : expqueue_entry) (w : queue_view) :
    direct_sends (write_combining_send upper e w).2 =
      (e :: dequeued_entries (write_combining_send upper e w).2).filter
        (fun x => decide (upper < x.len)) := by
  have h := write_combining_send_batch upper e w
  rw [h.1]
  simp only [direct_sends_append, gather_loop_direct, combine_send_direct, List.nil_append]
  rw [← h.1]
  simp [direct_sends, io_call.direct]

theorem send_loop_iter_direct (lower upper fuel : Nat) (w : queue_view) :
    (direct_sends (send_loop_iter lower upper fuel w).calls).filter
        (fun x => decide (upper < x.len)) =
      (dequeued_entries (send_loop_iter lower upper fuel w).calls).filter
        (fun x => decide (upper < x.len)) := by
  induction fuel generalizing w with
  | zero => rfl
  | succ fuel ih =>
    cases hd : w.dequeue_and_begin_critical_section_on_success with
    | none =>
      rw [send_loop_iter_blocked lower upper fuel w hd]
      rfl
    | some r =>
      obtain ⟨data, w1⟩ := r
      cases data with
      | none =>
        rw [send_loop_iter_exited lower upper fuel w w1 hd]
        rfl
      | some e =>
        by_cases hl : e.len ≤ lower
        · rw [send_loop_iter_small lower upper fuel w w1 e hd hl]
          simp only [direct_sends_append, dequeued_entries_append, List.filter_append, ih]
          congr 1
          have h := write_combining_send_direct upper e w1
          simp only [direct_sends, dequeued_entries, List.filterMap_cons, io_call.direct,
            io_call.dequeued] at h ⊢
          rw [h, List.filter_filter]
          simp
        · rw [send_loop_iter_large lower upper fuel w w1 e hd hl]
          simp only [direct_sends, dequeued_entries, List.filterMap_cons, io_call.direct,
            io_call.dequeued, List.filter_cons] at ih ⊢
          rw [ih]

theorem combine_step_combined (upper : Nat) (st : combine_state) (e : expqueue_entry) :
    combined_bytes (combine_step upper st e).2 ++
        (combine_step upper st e).1.sendcombining.take (combine_step upper st e).1.length =
      st.sendcombining.take st.length ++
        entries_bytes ([e].filter (fun x => decide (x.len ≤ upper))) := by
  by_cases h2 : upper < e.len
  · rw [combine_step_alone upper st e h2]
    have h3 : ¬ e.len ≤ upper := by omega
    simp [combined_bytes, io_call.combined, h3, entries_bytes]
  · have h3 : e.len ≤ upper := by omega
    have hb : entries_bytes ([e].filter (fun x => decide (x.len ≤ upper))) = e.c.take e.len := by
      simp [h3, entries_bytes, expqueue_entry.bytes]
    rw [hb]
    by_cases h : st.length + e.len ≤ upper
    · rw [combine_step_fits upper st e h]
      simp only [combined_bytes, List.map_nil, List.flatten_nil, List.nil_append]
      apply List.take_of_length_le
      have a1 := List.length_take_le st.length st.sendcombining
      have a2 := List.length_take_le e.len e.c
      rw [List.length_append]
      omega
    · rw [combine_step_flush upper st e (by omega) h3]
      simp [combined_bytes, io_call.combined]

theorem combine_loop_combined (upper : Nat) (es : List expqueue_entry) (st : combine_state) :
    combined_bytes (combine_loop upper st es).2 ++
        (combine_loop upper st es).1.sendcombining.take (combine_loop upper st es).1.length =
      st.sendcombining.take st.length ++
        entries_bytes (es.filter (fun x => decide (x.len ≤ upper))) := by
  induction es generalizing st with
  | nil => simp [combine_loop, combined_bytes, entries_bytes_nil]
  | cons e es ih =>
    have hf : (e :: es).filter (fun x => decide (x.len ≤ upper)) =
        [e].filter (fun x => decide (x.len ≤ upper)) ++
          es.filter (fun x => decide (x.len ≤ upper)) := by
      rw [← List.filter_append]
      rfl
    simp only [combine_loop, combined_bytes_append, List.append_assoc]
    rw [ih, ← List.append_assoc, combine_step_combined, List.append_assoc, hf,
      entries_bytes_append]

/-- The bytes that pass through the combining buffer are those of the entries
of the batch that are no longer than the buffer. -/
theorem combine_send_combined (upper : Nat) (es : List expqueue_entry) :
    combined_bytes (combine_send upper es) =
      entries_bytes (es.filter (fun x => decide (x.len ≤ upper))) := by
  have h := combine_loop_combined upper es ⟨[], 0⟩
  simp only [List.take_nil, List.nil_append] at h
  unfold combine_send
  by_cases hl : (combine_loop upper ⟨[], 0⟩ es).1.length > 0
  · simp only [hl, if_true, combined_bytes_append]
    rw [← h]
    simp [combined_bytes, io_call.combined]
  · have h0 : (combine_loop upper ⟨[], 0⟩ es).1.length = 0 := by omega
    simp only [hl, if_false]
    rw [h0] at h
    simpa using h

theorem gather_loop_combined (fuel : Nat) (w : queue_view) (g : gather_state) :
    combined_bytes (gather_loop fuel w g).2.2 = [] := by
  induction fuel generalizing w g with
  | zero => rfl
  | succ fuel ih =>
    cases hd : w.try_dequeue_in_critical_section.1 with
    | none =>
      rw [gather_loop_none fuel w g hd]
      rfl
    | some d =>
      by_cases h128 : g.numentries + 1 ≥ 128
      · rw [gather_loop_full fuel w g d hd h128]
        rfl
      · rw [gather_loop_more fuel w g d hd h128]
        simp only [combined_bytes, List.map_cons, io_call.combined, List.flatten_cons,
          List.nil_append]
        exact ih _ _

theorem write_combining_send_combined (upper : Nat) (e : expqueue_entry) (w : queue_view) :
    combined_bytes (write_combining_send upper e w).2 =
      entries_bytes ((e :: dequeued_entries (write_combining_send upper e w).2).filter
        (fun x => decide (x.len ≤ upper))) := by
  have h := write_combining_send_batch upper e w
  rw [h.1]
  simp only [combined_bytes_append, gather_loop_combined, combine_send_combined,
    List.nil_append]
  rw [← h.1]
  simp [combined_bytes, io_call.combined]

theorem combine_loop_append (upper : Nat) (a b : List expqueue_entry) (st : combine_state) :
    combine_loop upper st (a ++ b) =
      ((combine_loop upper (combine_loop upper st a).1 b).1,
        (combine_loop upper st a).2 ++ (combine_loop upper (combine_loop upper st a).1 b).2) := by
  induction a generalizing st with
  | nil => simp [combine_loop]
  | cons e a ih =>
    have h := ih (combine_step upper st e).1
    show combine_loop upper st (e :: (a ++ b)) = _
    simp only [combine_loop, h, List.append_assoc]

/-- The bytes beyond `length` in the combining buffer have no effect on the
loop. -/
theorem combine_loop_reset (upper : Nat) (es : List expqueue_entry) (x y : List Nat) :
    (combine_loop upper ⟨x, 0⟩ es).2 = (combine_loop upper ⟨y, 0⟩ es).2 ∧
      (combine_loop upper ⟨x, 0⟩ es).1.length = (combine_loop upper ⟨y, 0⟩ es).1.length ∧
      (combine_loop upper ⟨x, 0⟩ es).1.sendcombining.take (combine_loop upper ⟨x, 0⟩ es).1.length =
        (combine_loop upper ⟨y, 0⟩ es).1.sendcombining.take
          (combine_loop upper ⟨y, 0⟩ es).1.length := by
  induction es generalizing x y with
  | nil => simp [combine_loop]
  | cons e es ih =>
    by_cases h2 : upper < e.len
    · simp only [combine_loop, combine_step_alone upper _ e h2, List.take_zero]
      have h := ih x y
      exact ⟨by rw [h.1], h.2.1, h.2.2⟩
    · have hx : combine_step upper ⟨x, 0⟩ e = (⟨e.c.take e.len, e.len⟩, []) := by
        rw [combine_step_fits upper ⟨x, 0⟩ e (by simp only [Nat.zero_add]; omega)]
        simp
      have hy : combine_step upper ⟨y, 0⟩ e = (⟨e.c.take e.len, e.len⟩, []) := by
        rw [combine_step_fits upper ⟨y, 0⟩ e (by simp only [Nat.zero_add]; omega)]
        simp
      simp only [combine_loop, hx, hy]
      exact ⟨trivial, trivial, trivial⟩

/-- A batch with an entry too long for the combining buffer: the content
gathered before it is flushed, the entry is sent from its own allocation, and
the entries after it are combined as a batch of their own. -/
theorem combine_send_split (upper : Nat) (pre post : List expqueue_entry) (big : expqueue_entry)
    (hbig : upper < big.len) :
    combine_send upper (pre ++ big :: post) =
      (combine_loop upper ⟨[], 0⟩ pre).2 ++
        [io_call.send_combining
            ((combine_loop upper ⟨[], 0⟩ pre).1.sendcombining.take
              (combine_loop upper ⟨[], 0⟩ pre).1.length),
          io_call.send_entry big] ++
        combine_send upper post := by
  have hr := combine_loop_reset upper post (combine_loop upper ⟨[], 0⟩ pre).1.sendcombining []
  unfold combine_send
  simp only [combine_loop_append, combine_loop, combine_step_alone upper _ big hbig]
  rw [hr.1, hr.2.2, hr.2.1]
  by_cases hl : (combine_loop upper ⟨[], 0⟩ post).1.length > 0
  · simp only [hl, if_true, List.append_assoc]
  · simp only [hl, if_false, List.append_assoc]

/-! ## Lemmas on a queue that no other thread touches -/

theorem try_dequeue_static_nil (a : Bool) :
    (queue_view.mk ⟨[], a⟩ []).try_dequeue_in_critical_section = (none, ⟨⟨[], a⟩, []⟩) := rfl

theorem try_dequeue_static_cons (a : Bool) (d : expqueue_entry) (rest : List expqueue_entry) :
    (queue_view.mk ⟨d :: rest, a⟩ []).try_dequeue_in_critical_section =
      (some d, ⟨⟨rest, a⟩, []⟩) := rfl

/-- On a queue that no other thread touches the gathering loop takes entries
until the array holds 128 or the queue is empty. -/
theorem gather_loop_static (fuel : Nat) (q : List expqueue_entry) (a : Bool) (g : gather_state)
    (hn : g.numentries < 128) (hf : 128 ≤ g.numentries + fuel) :
    (gather_loop fuel ⟨⟨q, a⟩, []⟩ g).1 = ⟨⟨q.drop (min (128 - g.numentries) q.length), a⟩, []⟩ ∧
      dequeued_entries (gather_loop fuel ⟨⟨q, a⟩, []⟩ g).2.2 =
        q.take (min (128 - g.numentries) q.length) := by
  induction fuel generalizing q g with
  | zero => omega
  | succ fuel ih =>
    cases q with
    | nil =>
      rw [gather_loop_none fuel _ g (by rw [try_dequeue_static_nil])]
      simp [try_dequeue_static_nil, dequeued_entries, io_call.dequeued]
    | cons d rest =>
      have hd : (queue_view.mk ⟨d :: rest, a⟩ []).try_dequeue_in_critical_section.1 = some d := by
        rw [try_dequeue_static_cons]
      by_cases h128 : g.numentries + 1 ≥ 128
      · rw [gather_loop_full fuel _ g d hd h128, try_dequeue_static_cons]
        have hk : min (128 - g.numentries) (d :: rest).length = 1 := by
          simp only [List.length_cons]
          omega
        rw [hk]
        simp [dequeued_entries, io_call.dequeued]
      · rw [gather_loop_more fuel _ g d hd h128, try_dequeue_static_cons]
        have h := ih rest ⟨g.entries.take g.numentries ++ [d], g.numentries + 1,
          (g.accumulated_length + d.len) % SIZE_T_RANGE⟩ (by simp only []; omega)
          (by simp only []; omega)
        simp only [] at h
        have hk : min (128 - g.numentries) (d :: rest).length =
            min (128 - (g.numentries + 1)) rest.length + 1 := by
          simp only [List.length_cons]
          omega
        rw [hk]
        simp only [h.1, List.drop_succ_cons, List.take_succ_cons, true_and]
        simp only [dequeued_entries, List.filterMap_cons, io_call.dequeued] at h ⊢
        rw [h.2]

/-- While everything fits, the combining loop sends nothing. -/
theorem combine_loop_fits (upper : Nat) (es : List expqueue_entry) (st : combine_state)
    (h : st.length + total_len es ≤ upper) :
    (combine_loop upper st es).2 = [] ∧
      (combine_loop upper st es).1.length = st.length + total_len es := by
  induction es generalizing st with
  | nil => simp [combine_loop, total_len]
  | cons e es ih =>
    have ht : total_len (e :: es) = e.len + total_len es := by simp [total_len]
    rw [ht] at h
    rw [ht]
    have h1 := combine_step_fits upper st e (by omega)
    have h2 := ih (combine_step upper st e).1 (by rw [h1]; simp only []; omega)
    rw [h1] at h2
    simp only [combine_loop, h1]
    refine ⟨by rw [h2.1]; rfl, ?_⟩
    rw [h2.2]
    simp only []
    omega

/-- A batch whose lengths sum to a positive total of at most
`combine_upper_threshold` is sent by one `comm->send` from the combining
buffer. -/
theorem combine_send_fits (upper : Nat) (es : List expqueue_entry)
    (h : total_len es ≤ upper) (hpos : 0 < total_len es) :
    combine_send upper es = [io_call.send_combining (entries_bytes es)] := by
  have h1 := combine_loop_fits upper es ⟨[], 0⟩ (by simp only [Nat.zero_add]; exact h)
  have h2 := combine_loop_sent upper es ⟨[], 0⟩
  simp only [h1.1, sent_bytes_nil, List.nil_append, List.take_nil] at h2
  have hl : (combine_loop upper ⟨[], 0⟩ es).1.length > 0 := by
    rw [h1.2]
    simp only [Nat.zero_add]
    exact hpos
  unfold combine_send
  simp only [hl, if_true, h1.1, List.nil_append, h2]

theorem send_buffers_append (a b : List io_call) :
    send_buffers (a ++ b) = send_buffers a ++ send_buffers b := by
  simp [send_buffers]

theorem gather_loop_send_buffers (fuel : Nat) (w : queue_view) (g : gather_state) :
    send_buffers (gather_loop fuel w g).2.2 = [] := by
  induction fuel generalizing w g with
  | zero => rfl
  | succ fuel ih =>
    cases hd : w.try_dequeue_in_critical_section.1 with
    | none =>
      rw [gather_loop_none fuel w g hd]
      rfl
    | some d =>
      by_cases h128 : g.numentries + 1 ≥ 128
      · rw [gather_loop_full fuel w g d hd h128]
        rfl
      · rw [gather_loop_more fuel w g d hd h128]
        have h := ih w.try_dequeue_in_critical_section.2
          ⟨g.entries.take g.numentries ++ [d], g.numentries + 1,
            (g.accumulated_length + d.len) % SIZE_T_RANGE⟩
        simp only [send_buffers, List.filter_cons, io_call.is_send] at h ⊢
        simpa using h

theorem dequeue_static_cons (a : Bool) (e : expqueue_entry) (rest : List expqueue_entry) :
    (queue_view.mk ⟨e :: rest, a⟩ []).dequeue_and_begin_critical_section_on_success =
      some (some e, ⟨⟨rest, a⟩, []⟩) := rfl

theorem dequeue_static_nil_alive :
    (queue_view.mk ⟨[], true⟩ []).dequeue_and_begin_critical_section_on_success = none := rfl

theorem dequeue_static_nil_stopped :
    (queue_view.mk ⟨[], false⟩ []).dequeue_and_begin_critical_section_on_success =
      some (none, ⟨⟨[], false⟩, []⟩) := rfl

theorem total_len_const (s : Nat) (es : List expqueue_entry) (h : ∀ x ∈ es, x.len = s) :
    total_len es = es.length * s := by
  induction es with
  | nil => simp [total_len]
  | cons e es ih =>
    have h1 : total_len (e :: es) = e.len + total_len es := by simp [total_len]
    rw [h1, ih (fun x hx => h x (List.mem_cons_of_mem _ hx)), h e (List.mem_cons_self _ _),
      List.length_cons, Nat.succ_mul]
    omega

/-- One call of `write_combining_send` on a queue of small entries of one
length `s` that no other thread touches: it takes up to 127 further entries
and sends the batch by one `comm->send`. -/
theorem write_combining_send_static (upper s : Nat) (q : List expqueue_entry) (a : Bool)
    (e : expqueue_entry) (he : e.len = s) (hq : ∀ x ∈ q, x.len = s)
    (hpos : 0 < s) (hfit : 128 * s ≤ upper) :
    (write_combining_send upper e ⟨⟨q, a⟩, []⟩).1 = ⟨⟨q.drop (min 127 q.length), a⟩, []⟩ ∧
      (send_buffers (write_combining_send upper e ⟨⟨q, a⟩, []⟩).2).length = 1 := by
  have hg := gather_loop_static 128 q a ⟨[e], 1, e.len⟩
    (by show 1 < 128; decide) (by show 128 ≤ 1 + 128; decide)
  simp only [show (128 - 1 : Nat) = 127 from rfl] at hg
  have hb := write_combining_send_batch upper e ⟨⟨q, a⟩, []⟩
  constructor
  · have h1 : (write_combining_send upper e ⟨⟨q, a⟩, []⟩).1 =
        (gather_loop 128 ⟨⟨q, a⟩, []⟩ ⟨[e], 1, e.len⟩).1 := rfl
    rw [h1, hg.1]
  · rw [hb.1, hb.2, hg.2]
    have hall : ∀ x ∈ e :: q.take (min 127 q.length), x.len = s := by
      intro x hx
      rcases List.mem_cons.mp hx with h | h
      · rw [h]
        exact he
      · exact hq x (List.mem_of_mem_take h)
    have htot := total_len_const s _ hall
    have hlen : (e :: q.take (min 127 q.length)).length = min 127 q.length + 1 := by
      rw [List.length_cons, List.length_take]
      omega
    rw [hlen] at htot
    have hmul : (min 127 q.length + 1) * s ≤ 128 * s := Nat.mul_le_mul_right _ (by omega)
    have hmul2 : 0 < (min 127 q.length + 1) * s := Nat.mul_pos (by omega) hpos
    rw [combine_send_fits upper _ (by rw [htot]; omega) (by rw [htot]; exact hmul2)]
    simp only [send_buffers_append, gather_loop_send_buffers, List.nil_append]
    rfl

/-- The number of `comm->send` calls for small entries of one length `s`, all
queued before the first dequeue: one per batch of up to 128 entries. -/
theorem send_loop_iter_static_count (lower upper s : Nat) (a : Bool)
    (hsmall : s ≤ lower) (hpos : 0 < s) (hfit : 128 * s ≤ upper) (n : Nat) :
    ∀ (q : List expqueue_entry), q.length = n → (∀ x ∈ q, x.len = s) →
      ∀ fuel, n + 1 ≤ fuel →
        (send_buffers (send_loop_iter lower upper fuel ⟨⟨q, a⟩, []⟩).calls).length =
          (n + 127) / 128 := by
  induction n using Nat.strong_induction_on with
  | _ n ih =>
    intro q hn hq fuel hfuel
    obtain ⟨f, rfl⟩ : ∃ f, fuel = f + 1 := ⟨fuel - 1, by omega⟩
    cases q with
    | nil =>
      simp only [List.length_nil] at hn
      subst hn
      cases a with
      | true =>
        rw [send_loop_iter_blocked lower upper f _ dequeue_static_nil_alive]
        rfl
      | false =>
        rw [send_loop_iter_exited lower upper f _ _ dequeue_static_nil_stopped]
        rfl
    | cons e rest =>
      simp only [List.length_cons] at hn
      have he : e.len = s := hq e (List.mem_cons_self _ _)
      have hrest : ∀ x ∈ rest, x.len = s := fun x hx => hq x (List.mem_cons_of_mem _ hx)
      have hw := write_combining_send_static upper s rest a e he hrest hpos hfit
      rw [send_loop_iter_small lower upper f _ _ e (dequeue_static_cons a e _)
        (by rw [he]; exact hsmall)]
      simp only []
      rw [hw.1]
      have hrec := ih (rest.length - min 127 rest.length) (by omega)
        (rest.drop (min 127 rest.length)) (by rw [List.length_drop])
        (fun x hx => hrest x (List.mem_of_mem_drop hx)) f (by omega)
      have hcons : ∀ (x y : List io_call),
          send_buffers (io_call.dequeue (some e) :: x ++ y) = send_buffers x ++ send_buffers y := by
        intro x y
        simp [send_buffers, io_call.is_send]
      rw [hcons, List.length_append, hw.2, hrec]
      omega

theorem queue_view_static_size (q : List expqueue_entry) (a : Bool) :
    (queue_view.mk ⟨q, a⟩ []).size = q.length := by
  simp [queue_view.size, queue_view.entries, enqueued]

/-! ## Lemmas on shutdown -/

theorem foldl_apply_enqueues_alive (g : List expqueue_entry) (q : blocking_queue) :
    ((g.map queue_op.enqueue).foldl blocking_queue.apply q).m_alive = q.m_alive := by
  induction g generalizing q with
  | nil => rfl
  | cons e g ih =>
    simp only [List.map_cons, List.foldl_cons, ih]
    rfl

theorem enqueued_map_enqueue (g : List expqueue_entry) :
    enqueued (g.map queue_op.enqueue) = g := by
  induction g with
  | nil => rfl
  | cons e g ih => simp [enqueued] at ih ⊢; exact ih

theorem enqueued_groups (groups : List (List expqueue_entry)) (last : List expqueue_entry) :
    enqueued (groups.map (List.map queue_op.enqueue) ++
        [last.map queue_op.enqueue ++ [queue_op.stop_blocking]]).flatten =
      groups.flatten ++ last := by
  induction groups with
  | nil =>
    simp only [List.map_nil, List.nil_append, List.flatten_cons, List.flatten_nil,
      List.append_nil, enqueued_append, enqueued_map_enqueue]
    exact List.append_nil last
  | cons g gs ih =>
    simp only [List.map_cons, List.cons_append, List.flatten_cons, enqueued_append, ih,
      enqueued_map_enqueue, List.append_assoc]

theorem closing_pop (q : blocking_queue) (pending : List (List queue_op))
    (rest : List expqueue_entry) (h : (queue_view.mk q pending).closing) :
    (queue_view.mk ⟨rest, q.m_alive⟩ pending).closing := h

theorem closing_nil (q : blocking_queue) (h : (queue_view.mk q []).closing) :
    q.m_alive = false := by
  rcases h with h | h
  · exact h.1
  · obtain ⟨_, groups, last, hg⟩ := h
    simp at hg

/-- What the first group of a closing queue does. -/
theorem closing_cons (q : blocking_queue) (g : List queue_op) (gs : List (List queue_op))
    (h : (queue_view.mk q (g :: gs)).closing) :
    (queue_view.mk (g.foldl blocking_queue.apply q) gs).closing ∧
      ((g.foldl blocking_queue.apply q).m_alive = false → gs = []) := by
  rcases h with h | h
  · simp at h
  · obtain ⟨ha, groups, last, hg⟩ := h
    simp only [] at ha hg
    cases groups with
    | nil =>
      simp only [List.map_nil, List.nil_append, List.cons.injEq] at hg
      obtain ⟨rfl, rfl⟩ := hg
      refine ⟨Or.inl ⟨?_, rfl⟩, fun _ => rfl⟩
      simp only [List.foldl_append, List.foldl_cons, List.foldl_nil]
      rfl
    | cons g1 gs1 =>
      simp only [List.map_cons, List.cons_append, List.cons.injEq] at hg
      obtain ⟨rfl, rfl⟩ := hg
      have hal := foldl_apply_enqueues_alive g1 q
      refine ⟨Or.inr ⟨by simp only []; rw [hal, ha], gs1, last, rfl⟩, ?_⟩
      intro hf
      rw [hal, ha] at hf
      exact absurd hf (by decide)

theorem closing_arrive (w : queue_view) (h : w.closing) : w.arrive.closing := by
  obtain ⟨q, pending⟩ := w
  cases pending with
  | nil => exact h
  | cons g gs => exact (closing_cons q g gs h).1

theorem closing_try_dequeue (w : queue_view) (h : w.closing) :
    w.try_dequeue_in_critical_section.2.closing := by
  have ha := closing_arrive w h
  cases hq : w.arrive.sendqueue.m_queue with
  | nil =>
    rw [try_dequeue_nil w hq]
    exact ha
  | cons e rest =>
    rw [try_dequeue_cons w e rest hq]
    exact closing_pop w.arrive.sendqueue w.arrive.pending rest ha

theorem closing_gather_loop (fuel : Nat) (w : queue_view) (g : gather_state) (h : w.closing) :
    (gather_loop fuel w g).1.closing := by
  induction fuel generalizing w g with
  | zero => exact h
  | succ fuel ih =>
    have ht := closing_try_dequeue w h
    cases hd : w.try_dequeue_in_critical_section.1 with
    | none =>
      rw [gather_loop_none fuel w g hd]
      exact ht
    | some d =>
      by_cases h128 : g.numentries + 1 ≥ 128
      · rw [gather_loop_full fuel w g d hd h128]
        exact ht
      · rw [gather_loop_more fuel w g d hd h128]
        exact ih _ _ ht

theorem closing_write_combining_send (upper : Nat) (e : expqueue_entry) (w : queue_view)
    (h : w.closing) : (write_combining_send upper e w).1.closing :=
  closing_gather_loop 128 w ⟨[e], 1, e.len⟩ h

/-- On a closing queue the blocking dequeue returns; when it reports the
drained and stopped queue, nothing is left to happen. -/
theorem closing_wait_dequeue (pending : List (List queue_op)) (q : blocking_queue)
    (h : (queue_view.mk q pending).closing) :
    ∃ r, q.wait_dequeue pending = some r ∧ r.2.closing ∧ (r.1 = none → r.2.pending = []) := by
  induction pending generalizing q with
  | nil =>
    have ha := closing_nil q h
    cases hq : q.m_queue with
    | nil =>
      rw [wait_dequeue_nil_nil q hq, ha]
      exact ⟨_, rfl, h, fun _ => rfl⟩
    | cons e rest =>
      rw [wait_dequeue_nil_cons q e rest hq]
      exact ⟨_, rfl, closing_pop q [] rest h, fun hn => by simp at hn⟩
  | cons g gs ih =>
    have hc := closing_cons q g gs h
    cases hq : (g.foldl blocking_queue.apply q).m_queue with
    | nil =>
      rw [wait_dequeue_cons_nil q g gs hq]
      by_cases ha : (g.foldl blocking_queue.apply q).m_alive = true
      · rw [if_pos ha]
        exact ih _ hc.1
      · rw [if_neg ha]
        exact ⟨_, rfl, hc.1, fun _ => hc.2 (by simpa using ha)⟩
    | cons e rest =>
      rw [wait_dequeue_cons_cons q g gs e rest hq]
      exact ⟨_, rfl, closing_pop _ gs rest hc.1, fun hn => by simp at hn⟩

/-- On a closing queue `send_loop` leaves its loop, with the queue empty and
nothing left to happen. -/
theorem send_loop_iter_closing (lower upper fuel : Nat) (w : queue_view) (h : w.closing)
    (hf : w.size + 1 ≤ fuel) :
    (send_loop_iter lower upper fuel w).status = loop_status.exited ∧
      (send_loop_iter lower upper fuel w).view.sendqueue.m_queue = [] ∧
      (send_loop_iter lower upper fuel w).view.pending = [] := by
  induction fuel generalizing w with
  | zero => omega
  | succ fuel ih =>
    obtain ⟨r, hd, hc, hnone⟩ := closing_wait_dequeue w.pending w.sendqueue h
    obtain ⟨data, w1⟩ := r
    have hd1 : w.dequeue_and_begin_critical_section_on_success = some (data, w1) := hd
    have hw := wait_dequeue_entries w.pending w.sendqueue (data, w1) hd
    cases data with
    | none =>
      rw [send_loop_iter_exited lower upper fuel w w1 hd1]
      exact ⟨rfl, (hw.2 rfl).1, hnone rfl⟩
    | some e =>
      have hw1 : w.entries = e :: w1.entries := by simpa using hw.1
      have hs : w.size = w1.size + 1 := by simp [queue_view.size, hw1]
      by_cases hl : e.len ≤ lower
      · rw [send_loop_iter_small lower upper fuel w w1 e hd1 hl]
        apply ih _ (closing_write_combining_send upper e w1 hc)
        have h2 := congrArg List.length (write_combining_send_entries upper e w1)
        simp only [List.length_append] at h2
        simp only [queue_view.size] at hs hf ⊢
        omega
      · rw [send_loop_iter_large lower upper fuel w w1 e hd1 hl]
        exact ih w1 hc (by omega)

/-! ## Lemmas on `send_data` -/

theorem nat_lor_eq_zero (a b : Nat) : a ||| b = 0 ↔ a = 0 ∧ b = 0 := by
  constructor
  · intro h
    have key : ∀ i, a.testBit i = false ∧ b.testBit i = false := by
      intro i
      have := congrArg (fun n => Nat.testBit n i) h
      simpa [Nat.testBit_or] using this
    exact ⟨Nat.eq_of_testBit_eq (by intro i; simp [(key i).1]),
      Nat.eq_of_testBit_eq (by intro i; simp [(key i).2])⟩
  · rintro ⟨rfl, rfl⟩
    rfl

/-- The guard `packet_type_mask & (FAST_CALL | STANDARD_CALL)` holds exactly
when the kind has one of the two bits. -/
theorem call_bits_iff (kind fast standard : Nat) :
    kind &&& (fast ||| standard) ≠ 0 ↔ (kind &&& standard ≠ 0 ∨ kind &&& fast ≠ 0) := by
  rw [Nat.and_or_distrib_left, Ne, nat_lor_eq_zero]
  tauto

theorem send_data_bytessent (F : packet_format) (s : dc_buffered_stream_send_expqueue)
    (target kind : Nat) (data : List Nat) (len : Nat) :
    (send_data F s target kind data len).bytessent =
      if kind &&& F.CONTROL_PACKET = 0 then (s.bytessent + len) % SIZE_T_RANGE
      else s.bytessent := rfl

theorem send_data_dc (F : packet_format) (s : dc_buffered_stream_send_expqueue)
    (target kind : Nat) (data : List Nat) (len : Nat) :
    (send_data F s target kind data len).dc =
      if kind &&& F.CONTROL_PACKET = 0 then
        if kind &&& (F.FAST_CALL ||| F.STANDARD_CALL) ≠ 0 then s.dc.inc_calls_sent target
        else s.dc
      else s.dc := rfl

/-- The counter `bytessent` after a sequence of calls, modulo the range of a
`size_t`. -/
theorem send_data_calls_bytessent (F : packet_format) (calls : List send_data_call)
    (s : dc_buffered_stream_send_expqueue) (hs : s.bytessent < SIZE_T_RANGE) :
    (send_data_calls F s calls).bytessent =
      (s.bytessent + payload_total F calls) % SIZE_T_RANGE := by
  induction calls generalizing s with
  | nil =>
    simp only [send_data_calls, payload_total, List.foldl_nil, List.filter_nil, List.map_nil,
      List.sum_nil, Nat.add_zero]
    exact (Nat.mod_eq_of_lt hs).symm
  | cons c cs ih =>
    have hstep : send_data_calls F s (c :: cs) =
        send_data_calls F (send_data F s c.target c.packet_type_mask c.data c.len) cs := rfl
    have hpos : 0 < SIZE_T_RANGE := by decide
    rw [hstep]
    by_cases hc : c.packet_type_mask &&& F.CONTROL_PACKET = 0
    · have htot : payload_total F (c :: cs) = c.len + payload_total F cs := by
        simp [payload_total, hc]
      rw [ih _ (by rw [send_data_bytessent]; simp only [hc, if_true]; exact Nat.mod_lt _ hpos),
        send_data_bytessent, htot]
      simp only [hc, if_true]
      rw [Nat.mod_add_mod, Nat.add_assoc]
    · have htot : payload_total F (c :: cs) = payload_total F cs := by
        simp [payload_total, hc]
      rw [ih _ (by rw [send_data_bytessent]; simp only [hc, if_false]; exact hs),
        send_data_bytessent, htot]
      simp only [hc, if_false]

/-! ## Lemmas on the stream overload -/

theorem read_len_loop_zero (fuel : Nat) (istrm : istream) (cbuffer : List Nat) :
    read_len_loop fuel istrm cbuffer 0 = (istrm, cbuffer, 0) := by
  cases fuel with
  | zero => rfl
  | succ fuel => simp [read_len_loop]

/-- When the stream holds at least `len` bytes, the read loop of the stream
overload ends with `len` counted down to 0. -/
theorem read_len_loop_counts_down (fuel : Nat) (istrm : istream) (cbuffer : List Nat) (len : Nat)
    (hf : istrm.chunks.length + 1 ≤ fuel)
    (hbytes : len ≤ (istrm.chunks.map List.length).sum) :
    (read_len_loop fuel istrm cbuffer len).2.2 = 0 := by
  induction fuel generalizing istrm cbuffer len with
  | zero => omega
  | succ fuel ih =>
    by_cases hl : len = 0
    · rw [hl, read_len_loop_zero]
    · obtain ⟨chunks⟩ := istrm
      cases chunks with
      | nil =>
        simp only [List.map_nil, List.sum_nil] at hbytes
        omega
      | cons c rest =>
        have hgood : (istream.mk (c :: rest)).good = true := rfl
        have hcond : 0 < len ∧ (istream.mk (c :: rest)).good = true := ⟨by omega, hgood⟩
        simp only [List.map_cons, List.sum_cons, List.length_cons] at hbytes hf
        unfold read_len_loop
        rw [if_pos hcond]
        by_cases hc : c.length ≤ len
        · have hr : (istream.mk (c :: rest)).readsome len = (c, ⟨rest⟩) := by
            simp only [istream.readsome, hc, if_true]
          simp only [hr]
          exact ih ⟨rest⟩ _ _ (by simp only []; omega) (by simp only []; omega)
        · have hr : (istream.mk (c :: rest)).readsome len = (c.take len, ⟨c.drop len :: rest⟩) := by
            simp only [istream.readsome, hc, if_false]
          simp only [hr]
          have h0 : len - (c.take len).length = 0 := by
            rw [List.length_take]
            omega
          rw [h0, read_len_loop_zero]

/-- The stream overload with an explicit `len` on a stream that holds at least
`len` bytes: the byte-buffer overload is called with length 0. -/
theorem send_data_stream_explicit_len (F : packet_format) (s : dc_buffered_stream_send_expqueue)
    (kind : Nat) (istrm : istream) (len : Nat) (cbuffer : List Nat)
    (hlen : len ≠ SIZE_T_MINUS_ONE) (hbytes : len ≤ (istrm.chunks.map List.length).sum) :
    send_data_stream F s s.target kind istrm len cbuffer =
      some (send_data F s s.target kind (read_len_loop istrm.fuel istrm cbuffer len).2.1 0,
        (read_len_loop istrm.fuel istrm cbuffer len).1) := by
  have h0 := read_len_loop_counts_down istrm.fuel istrm cbuffer len
    (by unfold istream.fuel; omega) hbytes
  unfold send_data_stream
  simp only [ne_eq, not_true_eq_false, if_false, hlen, not_false_eq_true, if_true, h0]

/-! ## The claims -/

/-- C1: for every state of the send queue, whatever the other threads still
do to it, and every pair of thresholds, the run of `send_loop` is complete and
the concatenation of the buffers it passes to `comm->send`, in call order, is
the concatenation of the entries it dequeued (by the blocking dequeue or by a
try-dequeue of `write_combining_send`), in dequeue order. -/
theorem send_loop_sends_dequeued_bytes (combine_lower_threshold combine_upper_threshold : Nat)
    (w : queue_view) :
    (send_loop combine_lower_threshold combine_upper_threshold w).status ≠
        loop_status.unfinished ∧
      (send_buffers (send_loop combine_lower_threshold combine_upper_threshold w).calls).flatten =
        entries_bytes
          (dequeued_entries (send_loop combine_lower_threshold combine_upper_threshold w).calls) := by
  refine ⟨send_loop_iter_finished _ _ _ w (Nat.le_refl _), ?_⟩
  rw [send_buffers_flatten]
  exact send_loop_iter_sent _ _ _ w

/-- C2: for every kind, payload and `len` (the payload holds `len` bytes and
`sizeof(packet_hdr) + len` is a `size_t`), `send_data` appends exactly one
entry to the tail of the send queue and leaves the queued entries unchanged;
the entry's length is `sizeof(packet_hdr) + len`, and its bytes are the image
of a header with `src` the control's procid, `sequentialization_key` the
control's key, `packet_type_mask` the kind and zero reserved bytes, followed at
offset `sizeof(packet_hdr)` by the `len` payload bytes and nothing more. -/
theorem send_data_enqueues_one_framed_entry (F : packet_format)
    (s : dc_buffered_stream_send_expqueue) (target kind : Nat) (data : List Nat) (len : Nat)
    (hdata : len ≤ data.length) (hfit : F.sizeof_packet_hdr + len < SIZE_T_RANGE) :
    ∃ (e : expqueue_entry) (hdr : packet_hdr),
      (send_data F s target kind data len).sendqueue.m_queue = s.sendqueue.m_queue ++ [e] ∧
      (send_data F s target kind data len).sendqueue.m_alive = s.sendqueue.m_alive ∧
      e.len = F.sizeof_packet_hdr + len ∧
      e.c.length = F.sizeof_packet_hdr + len ∧
      e.c = F.hdr_image hdr ++ data.take len ∧
      e.c.take F.sizeof_packet_hdr = F.hdr_image hdr ∧
      e.c.drop F.sizeof_packet_hdr = data.take len ∧
      (data.take len).length = len ∧
      hdr.src = s.dc.procid ∧
      hdr.sequentialization_key = s.dc.get_sequentialization_key ∧
      hdr.packet_type_mask = kind ∧
      hdr.reserved = 0 := by
  have hdc : ∀ dc1 : distributed_control,
      (dc1 = s.dc.inc_calls_sent target ∨ dc1 = s.dc) →
        dc1.procid = s.dc.procid ∧
          dc1.get_sequentialization_key = s.dc.get_sequentialization_key := by
    intro dc1 h
    rcases h with h | h <;> subst h <;> exact ⟨rfl, rfl⟩
  have hsel : ∀ (c1 c2 : Prop) [Decidable c1] [Decidable c2],
      ((if c1 then (if c2 then s.dc.inc_calls_sent target else s.dc) else s.dc) =
          s.dc.inc_calls_sent target ∨
        (if c1 then (if c2 then s.dc.inc_calls_sent target else s.dc) else s.dc) = s.dc) := by
    intro c1 c2 _ _
    by_cases h1 : c1 <;> by_cases h2 : c2 <;> simp [h1, h2]
  have htake : (data.take len).length = len := by
    rw [List.length_take]
    omega
  refine ⟨_, ⟨len % 2 ^ 32, _, _, kind, 0⟩, rfl, rfl, ?_, ?_, rfl, ?_, ?_, htake, ?_, ?_, rfl, rfl⟩
  · exact Nat.mod_eq_of_lt hfit
  · simp only [List.length_append, F.hdr_image_length, htake]
  · rw [List.take_append_of_le_length (by rw [F.hdr_image_length])]
    apply List.take_of_length_le
    rw [F.hdr_image_length]
  · rw [List.drop_append_of_le_length (by rw [F.hdr_image_length])]
    rw [List.drop_of_length_le (by rw [F.hdr_image_length])]
    rfl
  · exact (hdc _ (hsel _ _)).1
  · exact (hdc _ (hsel _ _)).2

/-- C2, at a concrete call: `"hello"` sent as a standard call to peer 1. -/
theorem send_data_enqueues_one_framed_entry_witness :
    (5 ≤ hello.length ∧ native_format.sizeof_packet_hdr + 5 < SIZE_T_RANGE) ∧
    ∃ (e : expqueue_entry) (hdr : packet_hdr),
      (send_data native_format sample_sender 1 1 hello 5).sendqueue.m_queue =
        sample_sender.sendqueue.m_queue ++ [e] ∧
      (send_data native_format sample_sender 1 1 hello 5).sendqueue.m_alive =
        sample_sender.sendqueue.m_alive ∧
      e.len = native_format.sizeof_packet_hdr + 5 ∧
      e.c.length = native_format.sizeof_packet_hdr + 5 ∧
      e.c = native_format.hdr_image hdr ++ hello.take 5 ∧
      e.c.take native_format.sizeof_packet_hdr = native_format.hdr_image hdr ∧
      e.c.drop native_format.sizeof_packet_hdr = hello.take 5 ∧
      (hello.take 5).length = 5 ∧
      hdr.src = sample_sender.dc.procid ∧
      hdr.sequentialization_key = sample_sender.dc.get_sequentialization_key ∧
      hdr.packet_type_mask = 1 ∧
      hdr.reserved = 0 :=
  ⟨⟨by decide, by decide⟩,
    send_data_enqueues_one_framed_entry native_format sample_sender 1 1 hello 5
      (by decide) (by decide)⟩

/-- C3, at `len = 2 ^ 32`, whatever the payload: the entry `send_data` enqueues
has `sizeof(packet_hdr) + 2 ^ 32` bytes, the `2 ^ 32` payload bytes behind a
header whose `len` field is 0. -/
theorem send_data_hdr_len_wraps (data : List Nat) :
    (send_data native_format sample_sender 1 1 data 4294967296).sendqueue.m_queue =
      [⟨native_format.hdr_image ⟨0, 0, 7, 1, 0⟩ ++ data.take 4294967296,
        24 + 4294967296⟩] := by
  have h1 : (4294967296 : Nat) % 2 ^ 32 = 0 := by norm_num
  have h2 : (24 + 4294967296 : Nat) % 2 ^ 64 = 24 + 4294967296 := by norm_num
  simp only [send_data, sample_sender, blocking_queue.enqueue, SIZE_T_RANGE, List.nil_append, h1]
  rw [show native_format.sizeof_packet_hdr = 24 from rfl, h2]
  rfl

/-- C4: after any sequence of `send_data` calls on a sender whose `bytessent`
started at 0, `bytessent` is the sum of `len` over the calls whose kind lacks
the `CONTROL_PACKET` bit (the sum being a `size_t`); a call whose kind has the
`CONTROL_PACKET` bit leaves `bytessent` unchanged, whatever its other bits. -/
theorem bytes_sent_counts_non_control (F : packet_format)
    (s : dc_buffered_stream_send_expqueue) (calls : List send_data_call)
    (h0 : s.bytessent = 0) (hfit : payload_total F calls < SIZE_T_RANGE) :
    (send_data_calls F s calls).bytessent = payload_total F calls ∧
      ∀ (s1 : dc_buffered_stream_send_expqueue) (target kind : Nat) (data : List Nat)
        (len : Nat), kind &&& F.CONTROL_PACKET ≠ 0 →
          (send_data F s1 target kind data len).bytessent = s1.bytessent := by
  constructor
  · rw [send_data_calls_bytessent F calls s (by rw [h0]; decide), h0, Nat.zero_add]
    exact Nat.mod_eq_of_lt hfit
  · intro s1 target kind data len hk
    rw [send_data_bytessent]
    simp only [hk, if_false]

/-- C4, at a concrete sequence: a standard call of 5 bytes, a control packet
of 5 bytes with the standard bit also set, and a fast call of 3 bytes. -/
theorem bytes_sent_counts_non_control_witness :
    (sample_sender.bytessent = 0 ∧
      payload_total native_format
        [⟨1, 1, hello, 5⟩, ⟨1, 17, hello, 5⟩, ⟨1, 2, hello, 3⟩] < SIZE_T_RANGE) ∧
    ((send_data_calls native_format sample_sender
        [⟨1, 1, hello, 5⟩, ⟨1, 17, hello, 5⟩, ⟨1, 2, hello, 3⟩]).bytessent =
      payload_total native_format [⟨1, 1, hello, 5⟩, ⟨1, 17, hello, 5⟩, ⟨1, 2, hello, 3⟩] ∧
      ∀ (s1 : dc_buffered_stream_send_expqueue) (target kind : Nat) (data : List Nat)
        (len : Nat), kind &&& native_format.CONTROL_PACKET ≠ 0 →
          (send_data native_format s1 target kind data len).bytessent = s1.bytessent) :=
  ⟨⟨rfl, by decide⟩,
    bytes_sent_counts_non_control native_format sample_sender
      [⟨1, 1, hello, 5⟩, ⟨1, 17, hello, 5⟩, ⟨1, 2, hello, 3⟩] rfl (by decide)⟩

/-- C5: one `send_data(target, kind, data, len)` call makes exactly one
`inc_calls_sent(target)` call, which raises the counter of `target` by one and
no other counter, when the kind lacks the `CONTROL_PACKET` bit and has the
`STANDARD_CALL` or the `FAST_CALL` bit; in every other case it leaves the
control as it was. -/
theorem send_data_counts_calls (F : packet_format) (s : dc_buffered_stream_send_expqueue)
    (target kind : Nat) (data : List Nat) (len : Nat) :
    ((kind &&& F.CONTROL_PACKET = 0 ∧
        (kind &&& F.STANDARD_CALL ≠ 0 ∨ kind &&& F.FAST_CALL ≠ 0)) →
      (send_data F s target kind data len).dc = s.dc.inc_calls_sent target ∧
        (send_data F s target kind data len).dc.calls_sent target =
          s.dc.calls_sent target + 1 ∧
        ∀ p, p ≠ target →
          (send_data F s target kind data len).dc.calls_sent p = s.dc.calls_sent p) ∧
    (¬ (kind &&& F.CONTROL_PACKET = 0 ∧
        (kind &&& F.STANDARD_CALL ≠ 0 ∨ kind &&& F.FAST_CALL ≠ 0)) →
      (send_data F s target kind data len).dc = s.dc) := by
  rw [send_data_dc]
  constructor
  · rintro ⟨hc, hb⟩
    have hb2 := (call_bits_iff kind F.FAST_CALL F.STANDARD_CALL).mpr hb
    rw [if_pos hc, if_pos hb2]
    refine ⟨rfl, by simp [distributed_control.inc_calls_sent], ?_⟩
    intro p hp
    simp [distributed_control.inc_calls_sent, hp]
  · intro h
    by_cases hc : kind &&& F.CONTROL_PACKET = 0
    · have hb : ¬ (kind &&& (F.FAST_CALL ||| F.STANDARD_CALL) ≠ 0) := by
        intro hb
        exact h ⟨hc, (call_bits_iff kind F.FAST_CALL F.STANDARD_CALL).mp hb⟩
      rw [if_pos hc, if_neg hb]
    · rw [if_neg hc]

/-- C5, at concrete calls: a fast call to peer 1 is counted, a control packet
with the standard bit set is not. -/
theorem send_data_counts_calls_witness :
    (send_data native_format sample_sender 1 2 hello 5).dc.calls_sent 1 =
        sample_sender.dc.calls_sent 1 + 1 ∧
      (send_data native_format sample_sender 1 17 hello 5).dc = sample_sender.dc :=
  ⟨((send_data_counts_calls native_format sample_sender 1 2 hello 5).1
      ⟨by decide, Or.inr (by decide)⟩).2.1,
    (send_data_counts_calls native_format sample_sender 1 17 hello 5).2
      (fun h => absurd h.1 (by decide))⟩

/-- C6, at a call for peer 2 on the sender constructed for peer 1: the stream
overload stops at its assertion, the byte-buffer overload enqueues the packet
on the queue of peer 1, adds 5 to `bytessent` and counts a call to peer 2. -/
theorem send_data_accepts_foreign_target :
    sample_sender.target = 1 ∧
      send_data_stream native_format sample_sender 2 1 ⟨[hello]⟩ 5 hello = none ∧
      (send_data native_format sample_sender 2 1 hello 5).sendqueue.m_queue =
        [⟨native_format.hdr_image ⟨5, 0, 7, 1, 0⟩ ++ hello, 29⟩] ∧
      (send_data native_format sample_sender 2 1 hello 5).bytessent = 5 ∧
      (send_data native_format sample_sender 2 1 hello 5).dc.calls_sent 2 = 1 := by
  refine ⟨rfl, rfl, rfl, rfl, rfl⟩

/-- C7, at a stream that delivers `"hello"` at once, read with `len = 5`: the
packet enqueued has a header whose `len` field is 0 and no payload, and
`bytessent` stays 0. -/
theorem send_data_stream_explicit_len_sends_nothing :
    (send_data_stream native_format sample_sender 1 1 ⟨[hello]⟩ 5 [0, 0, 0, 0, 0]).map
        (fun r => (r.1.sendqueue.m_queue, r.1.bytessent, r.2)) =
      some ([⟨native_format.hdr_image ⟨0, 0, 7, 1, 0⟩, 24⟩], 0, ⟨[]⟩) := by
  rfl

/-- C8: entries longer than `combine_upper_threshold`.  In every run of
`send_loop` the entries of that length sent by a `comm->send` on their own
allocation are exactly the dequeued entries of that length, each once and in
dequeue order, whichever dequeue returned them; in every call of
`write_combining_send` the bytes that pass through the combining buffer are
those of the entries of the batch no longer than the buffer, and no others;
and in a batch `pre ++ big :: post` the entries after the long entry `big` are
combined as a batch of their own. -/
theorem long_entry_sent_alone (combine_lower_threshold combine_upper_threshold : Nat)
    (w w1 : queue_view) (e big : expqueue_entry) (pre post : List expqueue_entry)
    (hbig : combine_upper_threshold < big.len) :
    ((direct_sends (send_loop combine_lower_threshold combine_upper_threshold w).calls).filter
        (fun x => decide (combine_upper_threshold < x.len)) =
      (dequeued_entries
          (send_loop combine_lower_threshold combine_upper_threshold w).calls).filter
        (fun x => decide (combine_upper_threshold < x.len))) ∧
    (combined_bytes (write_combining_send combine_upper_threshold e w1).2 =
      entries_bytes
        ((e :: dequeued_entries (write_combining_send combine_upper_threshold e w1).2).filter
          (fun x => decide (x.len ≤ combine_upper_threshold)))) ∧
    (combine_send combine_upper_threshold (pre ++ big :: post) =
      (combine_loop combine_upper_threshold ⟨[], 0⟩ pre).2 ++
        [io_call.send_combining
            ((combine_loop combine_upper_threshold ⟨[], 0⟩ pre).1.sendcombining.take
              (combine_loop combine_upper_threshold ⟨[], 0⟩ pre).1.length),
          io_call.send_entry big] ++
        combine_send combine_upper_threshold post) :=
  ⟨send_loop_iter_direct _ _ _ w, write_combining_send_combined _ e w1,
    combine_send_split _ pre post big hbig⟩

/-- C8, at a concrete batch with the combining buffer of 10 bytes: two entries
of 3 bytes, one of 12 bytes, then entries of 5 and 2 bytes. -/
theorem long_entry_sent_alone_witness :
    10 < (sample_entry 12 3).len ∧
      combine_send 10
          ([sample_entry 3 1, sample_entry 3 2] ++
            sample_entry 12 3 :: [sample_entry 5 5, sample_entry 2 6]) =
        (combine_loop 10 ⟨[], 0⟩ [sample_entry 3 1, sample_entry 3 2]).2 ++
          [io_call.send_combining
              ((combine_loop 10 ⟨[], 0⟩
                  [sample_entry 3 1, sample_entry 3 2]).1.sendcombining.take
                (combine_loop 10 ⟨[], 0⟩ [sample_entry 3 1, sample_entry 3 2]).1.length),
            io_call.send_entry (sample_entry 12 3)] ++
          combine_send 10 [sample_entry 5 5, sample_entry 2 6] :=
  ⟨by decide,
    (long_entry_sent_alone 4 10 ⟨⟨[], true⟩, []⟩ ⟨⟨[], true⟩, []⟩ (sample_entry 3 1)
      (sample_entry 12 3) [sample_entry 3 1, sample_entry 3 2]
      [sample_entry 5 5, sample_entry 2 6] (by decide)).2.2⟩

/-- C9, as the code has it: with `combine_lower_threshold = 1024` and
`combine_upper_threshold = 65536`, when `n >= 1` entries of
`sizeof(header) + 16 <= 512` bytes each are all in the queue before
`send_loop` makes its first dequeue and no other thread touches the queue,
`send_loop` issues exactly `ceil(n / 128)` `comm->send` calls, one per batch
of at most 128 entries, which is at most `n`. -/
theorem send_count_one_per_batch (sizeof_hdr n : Nat) (q : List expqueue_entry) (alive : Bool)
    (hn : 1 ≤ n) (hq : q.length = n) (hlen : ∀ e ∈ q, e.len = sizeof_hdr + 16)
    (hsize : sizeof_hdr + 16 ≤ 512) :
    (send_buffers (send_loop 1024 65536 ⟨⟨q, alive⟩, []⟩).calls).length = (n + 127) / 128 ∧
      (n + 127) / 128 ≤ n := by
  refine ⟨?_, by omega⟩
  unfold send_loop
  rw [queue_view_static_size, hq]
  exact send_loop_iter_static_count 1024 65536 (sizeof_hdr + 16) alive (by omega) (by omega)
    (by omega) n q hq hlen (n + 1) (Nat.le_refl _)

/-- C9, at the spec's instance: 1000 packets with a 24-byte header and 16
bytes of payload are sent by 8 calls. -/
theorem send_count_one_per_batch_witness :
    (1 ≤ 1000 ∧ (List.replicate 1000 (sample_entry 40 0)).length = 1000 ∧
      (∀ e ∈ List.replicate 1000 (sample_entry 40 0), e.len = 24 + 16) ∧ 24 + 16 ≤ 512) ∧
    ((send_buffers
        (send_loop 1024 65536
          ⟨⟨List.replicate 1000 (sample_entry 40 0), true⟩, []⟩).calls).length =
        (1000 + 127) / 128 ∧ (1000 + 127) / 128 ≤ 1000) :=
  ⟨⟨by decide, List.length_replicate _ _,
      fun e he => by rw [List.eq_of_mem_replicate he]; rfl, by decide⟩,
    send_count_one_per_batch 24 1000 (List.replicate 1000 (sample_entry 40 0)) true (by decide)
      (List.length_replicate _ _) (fun e he => by rw [List.eq_of_mem_replicate he]; rfl)
      (by decide)⟩

/-- C9 as stated fails: with 24-byte headers, no constant `c` bounds the
number of `comm->send` calls for `n` queued packets of `24 + 16` bytes by
`ceil(n * (24 + 16) / 65536) + c` for every `n >= 1`. -/
theorem send_count_exceeds_byte_bound :
    ¬ ∃ c : Nat, ∀ n : Nat, 1 ≤ n →
      (send_buffers
        (send_loop 1024 65536
          ⟨⟨List.replicate n (sample_entry (native_format.sizeof_packet_hdr + 16) 0), true⟩,
            []⟩).calls).length ≤
        (n * (native_format.sizeof_packet_hdr + 16) + 65535) / 65536 + c := by
  rintro ⟨c, h⟩
  have h1 := h (128 * (2 * c + 4)) (by omega)
  unfold send_loop at h1
  rw [queue_view_static_size, List.length_replicate] at h1
  rw [send_loop_iter_static_count 1024 65536 (native_format.sizeof_packet_hdr + 16) true
    (by decide) (by decide) (by decide) (128 * (2 * c + 4)) _ (List.length_replicate _ _)
    (fun e he => by rw [List.eq_of_mem_replicate he]; rfl) _ (Nat.le_refl _)] at h1
  have h2 : native_format.sizeof_packet_hdr + 16 = 40 := rfl
  rw [h2] at h1
  omega

/-- C10: for every queue content `q` and every sequence of entries the
producers enqueue before `shutdown()` calls `stop_blocking` (`groups` at
successive moments between the queue calls of the I/O thread, `last` in the
moment of the stop itself), `send_loop` leaves its loop, the queue is then
empty with nothing left to happen, the entries it dequeued are exactly those
entries in order, and the buffers it passed to `comm->send` carry exactly
their bytes. -/
theorem shutdown_drains (combine_lower_threshold combine_upper_threshold : Nat)
    (q : List expqueue_entry) (groups : List (List expqueue_entry))
    (last : List expqueue_entry) :
    (shutdown combine_lower_threshold combine_upper_threshold
        ⟨⟨q, true⟩, groups.map (List.map queue_op.enqueue)⟩
        (last.map queue_op.enqueue)).status = loop_status.exited ∧
      (shutdown combine_lower_threshold combine_upper_threshold
        ⟨⟨q, true⟩, groups.map (List.map queue_op.enqueue)⟩
        (last.map queue_op.enqueue)).view.sendqueue.m_queue = [] ∧
      (shutdown combine_lower_threshold combine_upper_threshold
        ⟨⟨q, true⟩, groups.map (List.map queue_op.enqueue)⟩
        (last.map queue_op.enqueue)).view.pending = [] ∧
      dequeued_entries (shutdown combine_lower_threshold combine_upper_threshold
        ⟨⟨q, true⟩, groups.map (List.map queue_op.enqueue)⟩
        (last.map queue_op.enqueue)).calls = q ++ (groups.flatten ++ last) ∧
      (send_buffers (shutdown combine_lower_threshold combine_upper_threshold
        ⟨⟨q, true⟩, groups.map (List.map queue_op.enqueue)⟩
        (last.map queue_op.enqueue)).calls).flatten =
          entries_bytes (q ++ (groups.flatten ++ last)) := by
  have hc : (queue_view.mk ⟨q, true⟩
      (groups.map (List.map queue_op.enqueue) ++
        [last.map queue_op.enqueue ++ [queue_op.stop_blocking]])).closing :=
    Or.inr ⟨rfl, groups, last, rfl⟩
  have h1 := send_loop_iter_closing combine_lower_threshold combine_upper_threshold _ _ hc
    (Nat.le_refl _)
  have h2 := send_loop_iter_entries combine_lower_threshold combine_upper_threshold
    ((queue_view.mk ⟨q, true⟩
      (groups.map (List.map queue_op.enqueue) ++
        [last.map queue_op.enqueue ++ [queue_op.stop_blocking]])).size + 1)
    ⟨⟨q, true⟩, groups.map (List.map queue_op.enqueue) ++
      [last.map queue_op.enqueue ++ [queue_op.stop_blocking]]⟩
  have h3 := send_loop_iter_sent combine_lower_threshold combine_upper_threshold
    ((queue_view.mk ⟨q, true⟩
      (groups.map (List.map queue_op.enqueue) ++
        [last.map queue_op.enqueue ++ [queue_op.stop_blocking]])).size + 1)
    ⟨⟨q, true⟩, groups.map (List.map queue_op.enqueue) ++
      [last.map queue_op.enqueue ++ [queue_op.stop_blocking]]⟩
  have hd : dequeued_entries (shutdown combine_lower_threshold combine_upper_threshold
      ⟨⟨q, true⟩, groups.map (List.map queue_op.enqueue)⟩
      (last.map queue_op.enqueue)).calls = q ++ (groups.flatten ++ last) := by
    have h4 : (send_loop_iter combine_lower_threshold combine_upper_threshold
        ((queue_view.mk ⟨q, true⟩
          (groups.map (List.map queue_op.enqueue) ++
            [last.map queue_op.enqueue ++ [queue_op.stop_blocking]])).size + 1)
        ⟨⟨q, true⟩, groups.map (List.map queue_op.enqueue) ++
          [last.map queue_op.enqueue ++ [queue_op.stop_blocking]]⟩).view.entries = [] := by
      simp [queue_view.entries, h1.2.1, h1.2.2, enqueued]
    rw [h4, List.append_nil] at h2
    simp only [queue_view.entries, enqueued_groups] at h2
    exact h2.symm
  refine ⟨h1.1, h1.2.1, h1.2.2, hd, ?_⟩
  rw [send_buffers_flatten, ← hd]
  exact h3

/-! ## Lemmas on the critical-section protocol -/

theorem critical_section_run_append (st : Option Bool) (a b : List io_call) :
    critical_section_run st (a ++ b) = critical_section_run (critical_section_run st a) b := by
  simp [critical_section_run]

theorem critical_section_run_cons (st : Option Bool) (c : io_call) (cs : List io_call) :
    critical_section_run st (c :: cs) = critical_section_run (critical_section_step st c) cs :=
  rfl

/-- Calls of `comm->send` leave the state of the protocol as it is. -/
theorem critical_section_run_sends (b : Bool) (calls : List io_call)
    (h : ∀ c ∈ calls, c.is_send = true) :
    critical_section_run (some b) calls = some b := by
  induction calls with
  | nil => rfl
  | cons c cs ih =>
    have hc := h c (List.mem_cons_self _ _)
    rw [critical_section_run_cons]
    have hstep : critical_section_step (some b) c = some b := by
      cases c <;> cases b <;> simp_all [critical_section_step, io_call.is_send]
    rw [hstep]
    exact ih (fun x hx => h x (List.mem_cons_of_mem _ hx))

theorem combine_step_all_sends (upper : Nat) (st : combine_state) (e : expqueue_entry) :
    ∀ c ∈ (combine_step upper st e).2, c.is_send = true := by
  intro c hc
  by_cases h2 : upper < e.len
  · rw [combine_step_alone upper st e h2] at hc
    simp only [List.mem_cons, List.mem_singleton, List.not_mem_nil, or_false] at hc
    rcases hc with h | h <;> rw [h] <;> rfl
  · by_cases h : st.length + e.len ≤ upper
    · rw [combine_step_fits upper st e h] at hc
      simp at hc
    · rw [combine_step_flush upper st e (by omega) (by omega)] at hc
      simp only [List.mem_singleton] at hc
      rw [hc]
      rfl

theorem combine_loop_all_sends (upper : Nat) (es : List expqueue_entry) (st : combine_state) :
    ∀ c ∈ (combine_loop upper st es).2, c.is_send = true := by
  induction es generalizing st with
  | nil =>
    intro c hc
    simp [combine_loop] at hc
  | cons e es ih =>
    intro c hc
    simp only [combine_loop, List.mem_append] at hc
    rcases hc with h | h
    · exact combine_step_all_sends upper st e c h
    · exact ih _ c h

theorem combine_send_all_sends (upper : Nat) (es : List expqueue_entry) :
    ∀ c ∈ combine_send upper es, c.is_send = true := by
  intro c hc
  unfold combine_send at hc
  by_cases hl : (combine_loop upper ⟨[], 0⟩ es).1.length > 0
  · simp only [hl, if_true, List.mem_append, List.mem_singleton] at hc
    rcases hc with h | h
    · exact combine_loop_all_sends upper es _ c h
    · rw [h]
      rfl
  · simp only [hl, if_false] at hc
    exact combine_loop_all_sends upper es _ c hc

/-- The gathering loop stays inside the critical section. -/
theorem gather_loop_critical_section (fuel : Nat) (w : queue_view) (g : gather_state) :
    critical_section_run (some true) (gather_loop fuel w g).2.2 = some true := by
  induction fuel generalizing w g with
  | zero => rfl
  | succ fuel ih =>
    cases hd : w.try_dequeue_in_critical_section.1 with
    | none =>
      rw [gather_loop_none fuel w g hd]
      rfl
    | some d =>
      by_cases h128 : g.numentries + 1 ≥ 128
      · rw [gather_loop_full fuel w g d hd h128]
        rfl
      · rw [gather_loop_more fuel w g d hd h128]
        simp only [critical_section_run_cons, critical_section_step]
        exact ih _ _

/-- A call of `write_combining_send`, entered inside the critical section,
leaves it closed. -/
theorem write_combining_send_critical_section (upper : Nat) (e : expqueue_entry)
    (w : queue_view) :
    critical_section_run (some true) (write_combining_send upper e w).2 = some false := by
  unfold write_combining_send
  simp only [critical_section_run_append, gather_loop_critical_section]
  rw [critical_section_run_cons]
  exact critical_section_run_sends false _ (combine_send_all_sends upper _)

theorem send_loop_iter_critical_section (lower upper fuel : Nat) (w : queue_view) :
    critical_section_run (some false) (send_loop_iter lower upper fuel w).calls = some false := by
  induction fuel generalizing w with
  | zero => rfl
  | succ fuel ih =>
    cases hd : w.dequeue_and_begin_critical_section_on_success with
    | none =>
      rw [send_loop_iter_blocked lower upper fuel w hd]
      rfl
    | some r =>
      obtain ⟨data, w1⟩ := r
      cases data with
      | none =>
        rw [send_loop_iter_exited lower upper fuel w w1 hd]
        rfl
      | some e =>
        by_cases hl : e.len ≤ lower
        · rw [send_loop_iter_small lower upper fuel w w1 e hd hl]
          simp only []
          rw [critical_section_run_append, critical_section_run_cons]
          simp only [critical_section_step]
          rw [write_combining_send_critical_section]
          exact ih _
        · rw [send_loop_iter_large lower upper fuel w w1 e hd hl]
          simp only [critical_section_run_cons, critical_section_step]
          exact ih _

/-- The protocol check is not vacuous: a try-dequeue outside a critical
section, an `end_critical_section` after a blocking dequeue that returned
false, a second blocking dequeue inside a critical section, and a critical
section left open are all rejected. -/
theorem critical_section_run_rejects (e : expqueue_entry) :
    critical_section_run (some false) [io_call.try_dequeue none] = none ∧
      critical_section_run (some false)
        [io_call.dequeue none, io_call.end_critical_section] = none ∧
      critical_section_run (some false)
        [io_call.dequeue (some e), io_call.dequeue (some e)] = none ∧
      critical_section_run (some false)
        [io_call.dequeue (some e), io_call.end_critical_section,
          io_call.end_critical_section] = none ∧
      critical_section_run (some false) [io_call.dequeue (some e)] = some true :=
  ⟨rfl, rfl, rfl, rfl, rfl⟩

/-- C11: in every run of `send_loop` the critical-section protocol of the queue
is respected: followed from outside a critical section, the calls never break
it (no try-dequeue and no `end_critical_section` outside a critical section,
among them none after a blocking dequeue that returned false; no blocking
dequeue before the `end_critical_section` that matches the previous successful
one), and the run ends outside a critical section. -/
theorem send_loop_respects_critical_section
    (combine_lower_threshold combine_upper_threshold : Nat) (w : queue_view) :
    critical_section_run (some false)
      (send_loop combine_lower_threshold combine_upper_threshold w).calls = some false :=
  send_loop_iter_critical_section _ _ _ w

/-! ## Lemmas on the integer codec -/

theorem varint_digit_cast (v : Int) : (((v % 128).toNat : Nat) : Int) = v % 128 :=
  Int.toNat_of_nonneg (Int.emod_nonneg v (by decide))

theorem varint_digit_lt (v : Int) : (v % 128).toNat < 128 := by
  have h := varint_digit_cast v
  have h2 := Int.emod_lt_of_pos v (show (0 : Int) < 128 by decide)
  omega

theorem varint_digits_small (fuel : Nat) (v : Int) (h : -64 ≤ v ∧ v < 64) :
    varint_digits fuel v = [(v % 128).toNat] := by
  cases fuel with
  | zero => rfl
  | succ fuel => simp only [varint_digits, h, and_self, if_true]

theorem varint_digits_more (fuel : Nat) (v : Int) (h : ¬ (-64 ≤ v ∧ v < 64)) :
    varint_digits (fuel + 1) v = (v % 128).toNat :: varint_digits fuel (v / 128) := by
  simp only [varint_digits, h, if_false]

theorem varint_digits_ne_nil (fuel : Nat) (v : Int) : varint_digits fuel v ≠ [] := by
  cases fuel with
  | zero => simp [varint_digits]
  | succ fuel =>
    by_cases h : -64 ≤ v ∧ v < 64
    · rw [varint_digits_small _ v h]; simp
    · rw [varint_digits_more _ v h]; simp

theorem varint_digits_length (fuel : Nat) (v : Int) :
    1 ≤ (varint_digits fuel v).length ∧ (varint_digits fuel v).length ≤ fuel + 1 := by
  induction fuel generalizing v with
  | zero => simp [varint_digits]
  | succ fuel ih =>
    by_cases h : -64 ≤ v ∧ v < 64
    · rw [varint_digits_small _ v h]; simp
    · rw [varint_digits_more _ v h]
      have := ih (v / 128)
      simp only [List.length_cons]
      omega

theorem varint_flag_cons_cons (d d1 : Nat) (ds : List Nat) :
    varint_flag (d :: d1 :: ds) = (d + 128) :: varint_flag (d1 :: ds) := rfl

theorem varint_flag_length (l : List Nat) : (varint_flag l).length = l.length := by
  induction l with
  | nil => rfl
  | cons d ds ih =>
    cases ds with
    | nil => rfl
    | cons d1 ds => simp only [varint_flag_cons_cons, List.length_cons, ih]

theorem decode_head_digits (fuel : Nat) (v : Int) (junk : List Nat)
    (hlo : -(2 ^ (7 * fuel + 6) : Int) ≤ v) (hhi : v < 2 ^ (7 * fuel + 6)) :
    decode_head (varint_flag (varint_digits fuel v) ++ junk) = v := by
  induction fuel generalizing v with
  | zero =>
    have hs : -64 ≤ v ∧ v < 64 := by
      norm_num at hlo hhi
      exact ⟨hlo, hhi⟩
    rw [varint_digits_small _ v hs]
    have hc := varint_digit_cast v
    have hl := varint_digit_lt v
    simp only [varint_flag, List.singleton_append, decode_head]
    split_ifs <;> omega
  | succ fuel ih =>
    by_cases hs : -64 ≤ v ∧ v < 64
    · rw [varint_digits_small _ v hs]
      have hc := varint_digit_cast v
      have hl := varint_digit_lt v
      simp only [varint_flag, List.singleton_append, decode_head]
      split_ifs <;> omega
    · rw [varint_digits_more _ v hs]
      have hpow : (2 : Int) ^ (7 * (fuel + 1) + 6) = 128 * 2 ^ (7 * fuel + 6) := by
        rw [show 7 * (fuel + 1) + 6 = (7 * fuel + 6) + 7 by ring, pow_add]
        norm_num
        ring
      rw [hpow] at hlo hhi
      have hrec := ih (v / 128) (by omega) (by omega)
      obtain ⟨t0, tl, htl⟩ := List.exists_cons_of_ne_nil (varint_digits_ne_nil fuel (v / 128))
      rw [htl] at hrec ⊢
      rw [varint_flag_cons_cons, List.cons_append, decode_head]
      have hc := varint_digit_cast v
      have hl := varint_digit_lt v
      have hmod : ((v % 128).toNat + 128) % 128 = (v % 128).toNat := by omega
      rw [if_pos (by omega), hmod, hrec, hc]
      omega
/-- The tail decoder on a flagged encoding: every group is shifted in. -/
theorem decode_tail_flag (be : List Nat) (acc : Int) (hne : be ≠ [])
    (hlt : ∀ d ∈ be, d < 128) :
    decode_tail acc (varint_flag be) = be.foldl (fun (a : Int) (d : Nat) => a * 128 + (d : Int)) acc := by
  induction be generalizing acc with
  | nil => exact absurd rfl hne
  | cons d ds ih =>
    have hd := hlt d (List.mem_cons_self _ _)
    cases ds with
    | nil =>
      simp only [varint_flag, decode_tail, List.foldl_cons, List.foldl_nil]
      rw [if_neg (by omega)]
    | cons d1 ds =>
      rw [varint_flag_cons_cons, decode_tail, if_pos (by omega)]
      have hmod : (d + 128) % 128 = d := by omega
      rw [hmod, ih _ (by simp) (fun x hx => hlt x (List.mem_cons_of_mem _ hx))]
      rfl

/-- The groups of `v`, most significant first: the first one carries the
sign, and shifting the others into its sign extension gives `v` back. -/
theorem varint_digits_reverse (fuel : Nat) (v : Int)
    (hlo : -(2 ^ (7 * fuel + 6) : Int) ≤ v) (hhi : v < 2 ^ (7 * fuel + 6)) :
    ∃ x xs, (varint_digits fuel v).reverse = x :: xs ∧ x < 128 ∧ (∀ d ∈ xs, d < 128) ∧
      xs.foldl (fun (a : Int) (d : Nat) => a * 128 + (d : Int))
        ((if x ≥ 64 then -1 else 0) * 128 + (x : Int)) = v := by
  induction fuel generalizing v with
  | zero =>
    have hs : -64 ≤ v ∧ v < 64 := by
      norm_num at hlo hhi
      exact ⟨hlo, hhi⟩
    rw [varint_digits_small _ v hs]
    have hc := varint_digit_cast v
    have hl := varint_digit_lt v
    refine ⟨_, [], rfl, hl, by simp, ?_⟩
    simp only [List.foldl_nil]
    split_ifs <;> omega
  | succ fuel ih =>
    by_cases hs : -64 ≤ v ∧ v < 64
    · rw [varint_digits_small _ v hs]
      have hc := varint_digit_cast v
      have hl := varint_digit_lt v
      refine ⟨_, [], rfl, hl, by simp, ?_⟩
      simp only [List.foldl_nil]
      split_ifs <;> omega
    · rw [varint_digits_more _ v hs]
      have hpow : (2 : Int) ^ (7 * (fuel + 1) + 6) = 128 * 2 ^ (7 * fuel + 6) := by
        rw [show 7 * (fuel + 1) + 6 = (7 * fuel + 6) + 7 by ring, pow_add]
        norm_num
        ring
      rw [hpow] at hlo hhi
      obtain ⟨x, xs, hrev, hx, hxs, hval⟩ := ih (v / 128) (by omega) (by omega)
      have hc := varint_digit_cast v
      have hl := varint_digit_lt v
      refine ⟨x, xs ++ [(v % 128).toNat], ?_, hx, ?_, ?_⟩
      · rw [List.reverse_cons, hrev, List.cons_append]
      · intro d hd
        rcases List.mem_append.mp hd with h | h
        · exact hxs d h
        · rw [List.mem_singleton.mp h]
          exact hl
      · rw [List.foldl_append, hval]
        simp only [List.foldl_cons, List.foldl_nil]
        rw [hc]
        omega

theorem varint_flag_head (x : Nat) (xs : List Nat) :
    ∃ b rest, varint_flag (x :: xs) = b :: rest ∧ (b = x ∨ b = x + 128) := by
  cases xs with
  | nil => exact ⟨x, [], rfl, Or.inl rfl⟩
  | cons d ds => exact ⟨x + 128, varint_flag (d :: ds), rfl, Or.inr rfl⟩

/-- Decoding the tail-anchored encoding of `v` gives `v` converted to the
target type. -/
theorem decompress_int_digits (w fuel : Nat) (v : Int)
    (hlo : -(2 ^ (7 * fuel + 6) : Int) ≤ v) (hhi : v < 2 ^ (7 * fuel + 6)) :
    decompress_int w (varint_flag (varint_digits fuel v).reverse) = to_signed w v := by
  obtain ⟨x, xs, hrev, hx, hxs, hval⟩ := varint_digits_reverse fuel v hlo hhi
  rw [hrev]
  obtain ⟨b, rest, hb, hbx⟩ := varint_flag_head x xs
  have hmod : b % 128 = x := by
    rcases hbx with h | h <;> omega
  have hall : ∀ d ∈ x :: xs, d < 128 := by
    intro d hd
    rcases List.mem_cons.mp hd with h | h
    · rw [h]
      exact hx
    · exact hxs d h
  have hdec := decode_tail_flag (x :: xs) (if x ≥ 64 then -1 else 0) (by simp) hall
  rw [hb] at hdec ⊢
  simp only [decompress_int, hmod, hdec, List.foldl_cons, hval]

theorem to_signed_64 (v : Int) (hlo : -(2 ^ 63 : Int) ≤ v) (hhi : v < 2 ^ 63) :
    to_signed 64 v = v := by
  unfold to_signed
  norm_num at hlo hhi ⊢
  omega

theorem to_signed_32 (v : Int) (hlo : -(2 ^ 31 : Int) ≤ v) (hhi : v < 2 ^ 31) :
    to_signed 32 v = v := by
  unfold to_signed
  norm_num at hlo hhi ⊢
  omega

theorem set_append_length (a b : List Nat) (x : Nat) :
    (a ++ b).set a.length x = a ++ b.set 0 x := by
  induction a with
  | nil => rfl
  | cons d ds ih => simp only [List.cons_append, List.length_cons, List.set_cons_succ, ih]

/-- The tail-anchored round trip, for a value of at most 64 bits. -/
theorem compress_int_round_trip (w : Nat) (v : Int) (output : List Nat)
    (hlo : -(2 ^ 63 : Int) ≤ to_signed w v) (hhi : to_signed w v < 2 ^ 63)
    (hout : output.length = 10) :
    decompress_int 64 ((compress_int w v output).2.drop (10 - (compress_int w v output).1)) =
      to_signed w v := by
  have hlen := varint_digits_length 9 (to_signed w v)
  have hbytes : (compress_int_bytes w v).length = (varint_digits 9 (to_signed w v)).length := by
    unfold compress_int_bytes
    rw [varint_flag_length, List.length_reverse]
  have htake : (output.take (10 - (compress_int_bytes w v).length)).length =
      10 - (compress_int_bytes w v).length := by
    rw [List.length_take]
    omega
  simp only [compress_int]
  rw [List.drop_append_of_le_length (by rw [htake]), List.drop_of_length_le (by rw [htake]),
    List.nil_append]
  unfold compress_int_bytes
  rw [decompress_int_digits 64 9 (to_signed w v) (by norm_num at hlo ⊢; omega)
    (by norm_num at hhi ⊢; omega)]
  exact to_signed_64 _ hlo hhi

/-- The head-anchored round trip, for a value of at most 64 bits and whatever
follows the encoding in memory. -/
theorem compress_int2_round_trip (w : Nat) (v : Int) (junk : List Nat)
    (hlo : -(2 ^ 63 : Int) ≤ to_signed w v) (hhi : to_signed w v < 2 ^ 63) :
    decompress_int2 64 (compress_int2_bytes w v ++ junk) = to_signed w v := by
  unfold decompress_int2 compress_int2_bytes
  rw [decode_head_digits 9 (to_signed w v) junk (by norm_num at hlo ⊢; omega)
    (by norm_num at hhi ⊢; omega)]
  exact to_signed_64 _ hlo hhi

theorem compress_int2_set_terminator (w : Nat) (v : Int) (buf : List Nat) :
    (compress_int2 w v buf).2.set (compress_int2 w v buf).1 0 =
      compress_int2_bytes w v ++ (buf.drop (compress_int2_bytes w v).length).set 0 0 := by
  simp only [compress_int2]
  exact set_append_length _ _ 0

theorem compress_int_length (w : Nat) (v : Int) (output : List Nat) :
    1 ≤ (compress_int w v output).1 ∧ (compress_int w v output).1 ≤ 10 := by
  have hlen := varint_digits_length 9 (to_signed w v)
  simp only [compress_int, compress_int_bytes, varint_flag_length, List.length_reverse]
  omega

theorem compress_int2_length (w : Nat) (v : Int) (output : List Nat) :
    1 ≤ (compress_int2 w v output).1 ∧ (compress_int2 w v output).1 ≤ 10 := by
  have hlen := varint_digits_length 9 (to_signed w v)
  simp only [compress_int2, compress_int2_bytes, varint_flag_length]
  omega

/-- C12: for every signed 64-bit `v` and every 10-byte buffer, if
`len = compress_int(v, buf)`, then `decompress_int<int64_t>` reading from
`buf + 10 - len` yields exactly `v`. -/
theorem compress_int_decompress_int_round_trip (v : Int) (buf : List Nat)
    (hlo : -(2 ^ 63 : Int) ≤ v) (hhi : v < 2 ^ 63) (hbuf : buf.length = 10) :
    decompress_int 64 ((compress_int 64 v buf).2.drop (10 - (compress_int 64 v buf).1)) = v := by
  have hs := to_signed_64 v hlo hhi
  have h := compress_int_round_trip 64 v buf (by rw [hs]; exact hlo) (by rw [hs]; exact hhi) hbuf
  rw [hs] at h
  exact h

/-- C12, at the least 64-bit value, encoded into a buffer of ten bytes 255. -/
theorem compress_int_decompress_int_round_trip_witness :
    (-(2 ^ 63 : Int) ≤ -9223372036854775808 ∧ (-9223372036854775808 : Int) < 2 ^ 63 ∧
      (List.replicate 10 255).length = 10) ∧
    decompress_int 64
      ((compress_int 64 (-9223372036854775808) (List.replicate 10 255)).2.drop
        (10 - (compress_int 64 (-9223372036854775808) (List.replicate 10 255)).1)) =
      -9223372036854775808 :=
  ⟨⟨by norm_num, by norm_num, rfl⟩,
    compress_int_decompress_int_round_trip (-9223372036854775808) (List.replicate 10 255)
      (by norm_num) (by norm_num) rfl⟩

/-- C13: for every signed 64-bit `v` and every buffer, if
`len = compress_int2(v, buf)` writes its bytes at the head of `buf` and
`buf[len]` is then set to 0, `decompress_int2<int64_t>` reading from `buf`
yields exactly `v`; so it does when `buf[len]` is left as it was. -/
theorem compress_int2_decompress_int2_round_trip (v : Int) (buf : List Nat)
    (hlo : -(2 ^ 63 : Int) ≤ v) (hhi : v < 2 ^ 63) :
    decompress_int2 64 ((compress_int2 64 v buf).2.set (compress_int2 64 v buf).1 0) = v ∧
      decompress_int2 64 (compress_int2 64 v buf).2 = v := by
  have hs := to_signed_64 v hlo hhi
  have h := fun junk => compress_int2_round_trip 64 v junk (by rw [hs]; exact hlo)
    (by rw [hs]; exact hhi)
  rw [hs] at h
  constructor
  · rw [compress_int2_set_terminator]
    exact h _
  · exact h _

/-- C13, at the greatest 64-bit value, encoded into a buffer of eleven bytes
255. -/
theorem compress_int2_decompress_int2_round_trip_witness :
    (-(2 ^ 63 : Int) ≤ 9223372036854775807 ∧ (9223372036854775807 : Int) < 2 ^ 63) ∧
    (decompress_int2 64
        ((compress_int2 64 9223372036854775807 (List.replicate 11 255)).2.set
          (compress_int2 64 9223372036854775807 (List.replicate 11 255)).1 0) =
        9223372036854775807 ∧
      decompress_int2 64 (compress_int2 64 9223372036854775807 (List.replicate 11 255)).2 =
        9223372036854775807) :=
  ⟨⟨by norm_num, by norm_num⟩,
    compress_int2_decompress_int2_round_trip 9223372036854775807 (List.replicate 11 255)
      (by norm_num) (by norm_num)⟩

/-- C14: for every value `v` of a signed type of `w` bits (64 among them) the
lengths returned by `compress_int(v, buf)` and by `compress_int2(v, buf)` are
at least 1 and at most 10; on a 10-byte buffer both leave a 10-byte buffer,
`compress_int` with the bytes before its encoding unchanged and `compress_int2`
with the bytes after its encoding unchanged. -/
theorem compress_int_length_bounds (w : Nat) (v : Int) (buf : List Nat)
    (hbuf : buf.length = 10) :
    (1 ≤ (compress_int w v buf).1 ∧ (compress_int w v buf).1 ≤ 10) ∧
    (1 ≤ (compress_int2 w v buf).1 ∧ (compress_int2 w v buf).1 ≤ 10) ∧
    (compress_int w v buf).2.length = 10 ∧
    (compress_int w v buf).2.take (10 - (compress_int w v buf).1) =
      buf.take (10 - (compress_int w v buf).1) ∧
    (compress_int2 w v buf).2.length = 10 ∧
    (compress_int2 w v buf).2.drop (compress_int2 w v buf).1 =
      buf.drop (compress_int2 w v buf).1 := by
  have h1 := compress_int_length w v buf
  have h2 := compress_int2_length w v buf
  refine ⟨h1, h2, ?_, ?_, ?_, ?_⟩
  · simp only [compress_int] at h1 ⊢
    rw [List.length_append, List.length_take]
    omega
  · simp only [compress_int] at h1 ⊢
    have htake : (buf.take (10 - (compress_int_bytes w v).length)).length =
        10 - (compress_int_bytes w v).length := by
      rw [List.length_take]
      omega
    rw [List.take_append_of_le_length (by rw [htake])]
    exact List.take_of_length_le (by rw [htake])
  · simp only [compress_int2] at h2 ⊢
    rw [List.length_append, List.length_drop]
    omega
  · simp only [compress_int2]
    rw [List.drop_append_of_le_length (Nat.le_refl _), List.drop_of_length_le (Nat.le_refl _),
      List.nil_append]

/-- C14, at the least 64-bit value and a buffer of ten bytes 255. -/
theorem compress_int_length_bounds_witness :
    (List.replicate 10 255).length = 10 ∧
    (1 ≤ (compress_int 64 (-9223372036854775808) (List.replicate 10 255)).1 ∧
      (compress_int 64 (-9223372036854775808) (List.replicate 10 255)).1 ≤ 10) ∧
    (1 ≤ (compress_int2 64 (-9223372036854775808) (List.replicate 10 255)).1 ∧
      (compress_int2 64 (-9223372036854775808) (List.replicate 10 255)).1 ≤ 10) :=
  ⟨rfl,
    (compress_int_length_bounds 64 (-9223372036854775808) (List.replicate 10 255) rfl).1,
    (compress_int_length_bounds 64 (-9223372036854775808) (List.replicate 10 255) rfl).2.1⟩

/-- C15: for every signed 32-bit `u` and every 10-byte buffer, encoding `u`
with the 32-bit instantiation of `compress_int` (of `compress_int2`) and
decoding with `decompress_int<int64_t>` (with `decompress_int2<int64_t>`)
yields the 64-bit integer of the same value, negative values included. -/
theorem decode_sign_extends_across_widths (u : Int) (buf : List Nat)
    (hlo : -(2 ^ 31 : Int) ≤ u) (hhi : u < 2 ^ 31) (hbuf : buf.length = 10) :
    decompress_int 64 ((compress_int 32 u buf).2.drop (10 - (compress_int 32 u buf).1)) = u ∧
      decompress_int2 64 ((compress_int2 32 u buf).2.set (compress_int2 32 u buf).1 0) = u ∧
      decompress_int2 64 (compress_int2 32 u buf).2 = u := by
  have hs := to_signed_32 u hlo hhi
  have hlo64 : -(2 ^ 63 : Int) ≤ to_signed 32 u := by
    rw [hs]
    norm_num at hlo ⊢
    omega
  have hhi64 : to_signed 32 u < 2 ^ 63 := by
    rw [hs]
    norm_num at hhi ⊢
    omega
  have h1 := compress_int_round_trip 32 u buf hlo64 hhi64 hbuf
  have h2 := fun junk => compress_int2_round_trip 32 u junk hlo64 hhi64
  rw [hs] at h1 h2
  refine ⟨h1, ?_, h2 _⟩
  rw [compress_int2_set_terminator]
  exact h2 _

/-- C15, at `-5`, encoded into a buffer of ten bytes 255. -/
theorem decode_sign_extends_across_widths_witness :
    (-(2 ^ 31 : Int) ≤ -5 ∧ (-5 : Int) < 2 ^ 31 ∧ (List.replicate 10 255).length = 10) ∧
    (decompress_int 64
        ((compress_int 32 (-5) (List.replicate 10 255)).2.drop
          (10 - (compress_int 32 (-5) (List.replicate 10 255)).1)) = -5 ∧
      decompress_int2 64
        ((compress_int2 32 (-5) (List.replicate 10 255)).2.set
          (compress_int2 32 (-5) (List.replicate 10 255)).1 0) = -5 ∧
      decompress_int2 64 (compress_int2 32 (-5) (List.replicate 10 255)).2 = -5) :=
  ⟨⟨by norm_num, by norm_num, rfl⟩,
    decode_sign_extends_across_widths (-5) (List.replicate 10 255) (by norm_num) (by norm_num)
      rfl⟩

/-! ## Lemmas on the dispatch of `send_loop` -/

/-- The step bound of `send_loop` is never reached: one more iteration than
`size + 1` gives the same run. -/
theorem send_loop_iter_stable (lower upper fuel : Nat) (w : queue_view)
    (hf : w.size + 1 ≤ fuel) :
    send_loop_iter lower upper (fuel + 1) w = send_loop_iter lower upper fuel w := by
  induction fuel generalizing w with
  | zero => omega
  | succ fuel ih =>
    cases hd : w.dequeue_and_begin_critical_section_on_success with
    | none =>
      rw [send_loop_iter_blocked lower upper (fuel + 1) w hd,
        send_loop_iter_blocked lower upper fuel w hd]
    | some r =>
      obtain ⟨data, w1⟩ := r
      have hw := wait_dequeue_entries w.pending w.sendqueue (data, w1) hd
      cases data with
      | none =>
        rw [send_loop_iter_exited lower upper (fuel + 1) w w1 hd,
          send_loop_iter_exited lower upper fuel w w1 hd]
      | some e =>
        have hw1 : w.entries = e :: w1.entries := by simpa using hw.1
        have hs : w.size = w1.size + 1 := by simp [queue_view.size, hw1]
        by_cases hl : e.len ≤ lower
        · rw [send_loop_iter_small lower upper (fuel + 1) w w1 e hd hl,
            send_loop_iter_small lower upper fuel w w1 e hd hl]
          have h2 := congrArg List.length (write_combining_send_entries upper e w1)
          simp only [List.length_append] at h2
          rw [ih (write_combining_send upper e w1).1
            (by simp only [queue_view.size] at hs hf ⊢; omega)]
        · rw [send_loop_iter_large lower upper (fuel + 1) w w1 e hd hl,
            send_loop_iter_large lower upper fuel w w1 e hd hl]
          rw [ih w1 (by omega)]

/-- Every sufficient step bound gives the run of `send_loop`. -/
theorem send_loop_iter_eq_send_loop (lower upper : Nat) (w : queue_view) (k : Nat) :
    send_loop_iter lower upper (w.size + 1 + k) w = send_loop lower upper w := by
  induction k with
  | zero => rfl
  | succ k ih =>
    rw [← ih]
    exact send_loop_iter_stable lower upper (w.size + 1 + k) w (by omega)

theorem send_loop_iter_enough (lower upper fuel : Nat) (w : queue_view)
    (hf : w.size + 1 ≤ fuel) :
    send_loop_iter lower upper fuel w = send_loop lower upper w := by
  obtain ⟨k, rfl⟩ : ∃ k, fuel = w.size + 1 + k := ⟨fuel - (w.size + 1), by omega⟩
  exact send_loop_iter_eq_send_loop lower upper w k

/-- The first iteration of `send_loop` on an entry within the lower threshold:
`write_combining_send`, then the rest of the run. -/
theorem send_loop_small (lower upper : Nat) (w w1 : queue_view) (e : expqueue_entry)
    (hd : w.dequeue_and_begin_critical_section_on_success = some (some e, w1))
    (hl : e.len ≤ lower) :
    send_loop lower upper w =
      ⟨(send_loop lower upper (write_combining_send upper e w1).1).status,
        (send_loop lower upper (write_combining_send upper e w1).1).view,
        io_call.dequeue (some e) :: (write_combining_send upper e w1).2 ++
          (send_loop lower upper (write_combining_send upper e w1).1).calls⟩ := by
  have hw := wait_dequeue_entries w.pending w.sendqueue (some e, w1) hd
  have hw1 : w.entries = e :: w1.entries := by simpa using hw.1
  have hs : w.size = w1.size + 1 := by simp [queue_view.size, hw1]
  have h2 := congrArg List.length (write_combining_send_entries upper e w1)
  simp only [List.length_append] at h2
  have hen := send_loop_iter_enough lower upper w.size (write_combining_send upper e w1).1
    (by simp only [queue_view.size] at hs ⊢; omega)
  unfold send_loop
  rw [send_loop_iter_small lower upper w.size w w1 e hd hl]
  unfold send_loop at hen
  rw [hen]

/-- The first iteration of `send_loop` on an entry beyond the lower threshold:
the critical section ends, the entry is sent, and the run goes on from the
queue as the blocking dequeue left it. -/
theorem send_loop_large (lower upper : Nat) (w w1 : queue_view) (e : expqueue_entry)
    (hd : w.dequeue_and_begin_critical_section_on_success = some (some e, w1))
    (hl : ¬ e.len ≤ lower) :
    send_loop lower upper w =
      ⟨(send_loop lower upper w1).status, (send_loop lower upper w1).view,
        io_call.dequeue (some e) :: io_call.end_critical_section :: io_call.send_entry e ::
          (send_loop lower upper w1).calls⟩ := by
  have hw := wait_dequeue_entries w.pending w.sendqueue (some e, w1) hd
  have hw1 : w.entries = e :: w1.entries := by simpa using hw.1
  have hs : w.size = w1.size + 1 := by simp [queue_view.size, hw1]
  have hen := send_loop_iter_enough lower upper w.size w1 (by omega)
  unfold send_loop
  rw [send_loop_iter_large lower upper w.size w w1 e hd hl]
  unfold send_loop at hen
  rw [hen]

/-- The entry `send_data` enqueues has the framed length. -/
theorem send_data_entry_len (F : packet_format) (s : dc_buffered_stream_send_expqueue)
    (target kind : Nat) (data : List Nat) (len : Nat) :
    (send_data F s target kind data len).sendqueue.m_queue.getLast?.map expqueue_entry.len =
      some ((F.sizeof_packet_hdr + len) % SIZE_T_RANGE) := by
  simp [send_data, blocking_queue.enqueue]

/-- C16: the dispatch of `send_loop` on the entry `e` its blocking dequeue
returned.  When `e.len <= combine_lower_threshold` (the bound included) the
iteration is the call `write_combining_send(e)`; otherwise it is
`end_critical_section`, then one `comm->send` of `e` from its own allocation,
and the run goes on from the queue as the blocking dequeue left it, without a
further dequeue in that iteration.  The length compared is the framed length:
the entry `send_data` enqueues for a payload of `len` bytes has length
`sizeof(packet_hdr) + len`. -/
theorem send_loop_dispatch (combine_lower_threshold combine_upper_threshold : Nat)
    (w w1 : queue_view) (e : expqueue_entry)
    (hd : w.dequeue_and_begin_critical_section_on_success = some (some e, w1)) :
    (e.len ≤ combine_lower_threshold →
      send_loop combine_lower_threshold combine_upper_threshold w =
        ⟨(send_loop combine_lower_threshold combine_upper_threshold
            (write_combining_send combine_upper_threshold e w1).1).status,
          (send_loop combine_lower_threshold combine_upper_threshold
            (write_combining_send combine_upper_threshold e w1).1).view,
          io_call.dequeue (some e) :: (write_combining_send combine_upper_threshold e w1).2 ++
            (send_loop combine_lower_threshold combine_upper_threshold
              (write_combining_send combine_upper_threshold e w1).1).calls⟩) ∧
    (¬ e.len ≤ combine_lower_threshold →
      send_loop combine_lower_threshold combine_upper_threshold w =
        ⟨(send_loop combine_lower_threshold combine_upper_threshold w1).status,
          (send_loop combine_lower_threshold combine_upper_threshold w1).view,
          io_call.dequeue (some e) :: io_call.end_critical_section :: io_call.send_entry e ::
            (send_loop combine_lower_threshold combine_upper_threshold w1).calls⟩) ∧
    (∀ (F : packet_format) (s : dc_buffered_stream_send_expqueue) (target kind : Nat)
      (data : List Nat) (len : Nat), F.sizeof_packet_hdr + len < SIZE_T_RANGE →
        (send_data F s target kind data len).sendqueue.m_queue.getLast?.map expqueue_entry.len =
          some (F.sizeof_packet_hdr + len)) := by
  refine ⟨send_loop_small _ _ w w1 e hd, send_loop_large _ _ w w1 e hd, ?_⟩
  intro F s target kind data len hfit
  rw [send_data_entry_len, Nat.mod_eq_of_lt hfit]

/-- C16, at the bound: with `combine_lower_threshold = 3` an entry of 3 bytes
enters `write_combining_send` (and is combined with the entry of 5 bytes
queued behind it); an entry of 4 bytes is sent at once and the entry behind it
stays queued for the next iteration. -/
theorem send_loop_dispatch_witness :
    (queue_view.mk ⟨[sample_entry 3 1, sample_entry 5 2], false⟩
        []).dequeue_and_begin_critical_section_on_success =
      some (some (sample_entry 3 1), ⟨⟨[sample_entry 5 2], false⟩, []⟩) ∧
    (send_loop 3 10 ⟨⟨[sample_entry 3 1, sample_entry 5 2], false⟩, []⟩).calls =
      [io_call.dequeue (some (sample_entry 3 1)), io_call.try_dequeue (some (sample_entry 5 2)),
        io_call.try_dequeue none, io_call.end_critical_section,
        io_call.send_combining [1, 1, 1, 2, 2, 2, 2, 2], io_call.dequeue none] ∧
    (send_loop 3 10 ⟨⟨[sample_entry 4 1, sample_entry 5 2], false⟩, []⟩).calls =
      [io_call.dequeue (some (sample_entry 4 1)), io_call.end_critical_section,
        io_call.send_entry (sample_entry 4 1), io_call.dequeue (some (sample_entry 5 2)),
        io_call.end_critical_section, io_call.send_entry (sample_entry 5 2),
        io_call.dequeue none] := by
  refine ⟨rfl, ?_, ?_⟩
  · have h := (send_loop_dispatch 3 10 ⟨⟨[sample_entry 3 1, sample_entry 5 2], false⟩, []⟩
      ⟨⟨[sample_entry 5 2], false⟩, []⟩ (sample_entry 3 1) rfl).1 (by decide)
    rw [h]
    decide
  · have h := (send_loop_dispatch 3 10 ⟨⟨[sample_entry 4 1, sample_entry 5 2], false⟩, []⟩
      ⟨⟨[sample_entry 5 2], false⟩, []⟩ (sample_entry 4 1) rfl).2.1 (by decide)
    rw [h]
    decide

/-! ## Lemmas on the bounds of the combining buffer and of the entry array -/

theorem combine_step_length_le (upper : Nat) (st : combine_state) (e : expqueue_entry) :
    (combine_step upper st e).1.length ≤ upper := by
  by_cases h2 : upper < e.len
  · rw [combine_step_alone upper st e h2]
    exact Nat.zero_le _
  · by_cases hf : st.length + e.len ≤ upper
    · rw [combine_step_fits upper st e hf]
      exact hf
    · rw [combine_step_flush upper st e (by omega) (by omega)]
      show e.len ≤ upper
      omega

theorem combine_loop_length_le (upper : Nat) (es : List expqueue_entry) (st : combine_state)
    (h : st.length ≤ upper) : (combine_loop upper st es).1.length ≤ upper := by
  induction es generalizing st with
  | nil => exact h
  | cons e es ih =>
    simp only [combine_loop]
    exact ih _ (combine_step_length_le upper st e)

theorem combine_step_buffers (upper : Nat) (st : combine_state) (e : expqueue_entry)
    (h : st.length ≤ upper) :
    ∀ buf, io_call.send_combining buf ∈ (combine_step upper st e).2 → buf.length ≤ upper := by
  intro buf hb
  have hlen := List.length_take_le st.length st.sendcombining
  by_cases h2 : upper < e.len
  · rw [combine_step_alone upper st e h2] at hb
    simp only [List.mem_cons, io_call.send_combining.injEq, List.mem_singleton,
      List.not_mem_nil, or_false] at hb
    rcases hb with hb | hb
    · rw [hb]
      omega
    · simp at hb
  · by_cases hf : st.length + e.len ≤ upper
    · rw [combine_step_fits upper st e hf] at hb
      simp at hb
    · rw [combine_step_flush upper st e (by omega) (by omega)] at hb
      simp only [List.mem_singleton, io_call.send_combining.injEq] at hb
      rw [hb]
      omega

theorem combine_loop_buffers (upper : Nat) (es : List expqueue_entry) (st : combine_state)
    (h : st.length ≤ upper) :
    ∀ buf, io_call.send_combining buf ∈ (combine_loop upper st es).2 → buf.length ≤ upper := by
  induction es generalizing st with
  | nil =>
    intro buf hb
    simp [combine_loop] at hb
  | cons e es ih =>
    intro buf hb
    simp only [combine_loop, List.mem_append] at hb
    rcases hb with hb | hb
    · exact combine_step_buffers upper st e h buf hb
    · exact ih _ (combine_step_length_le upper st e) buf hb

theorem combine_send_buffers (upper : Nat) (es : List expqueue_entry) :
    ∀ buf, io_call.send_combining buf ∈ combine_send upper es → buf.length ≤ upper := by
  intro buf hb
  have h0 : (combine_state.mk [] 0).length ≤ upper := Nat.zero_le _
  have hl := combine_loop_length_le upper es ⟨[], 0⟩ h0
  unfold combine_send at hb
  by_cases hpos : (combine_loop upper ⟨[], 0⟩ es).1.length > 0
  · simp only [hpos, if_true, List.mem_append, List.mem_singleton,
      io_call.send_combining.injEq] at hb
    rcases hb with hb | hb
    · exact combine_loop_buffers upper es _ h0 buf hb
    · rw [hb]
      have := List.length_take_le (combine_loop upper ⟨[], 0⟩ es).1.length
        (combine_loop upper ⟨[], 0⟩ es).1.sendcombining
      omega
  · simp only [hpos, if_false] at hb
    exact combine_loop_buffers upper es _ h0 buf hb

theorem gather_loop_no_send_combining (fuel : Nat) (w : queue_view) (g : gather_state) :
    ∀ buf, io_call.send_combining buf ∉ (gather_loop fuel w g).2.2 := by
  induction fuel generalizing w g with
  | zero =>
    intro buf hb
    simp [gather_loop] at hb
  | succ fuel ih =>
    intro buf hb
    cases hd : w.try_dequeue_in_critical_section.1 with
    | none =>
      rw [gather_loop_none fuel w g hd] at hb
      simp at hb
    | some d =>
      by_cases h128 : g.numentries + 1 ≥ 128
      · rw [gather_loop_full fuel w g d hd h128] at hb
        simp at hb
      · rw [gather_loop_more fuel w g d hd h128] at hb
        simp only [List.mem_cons] at hb
        rcases hb with hb | hb
        · simp at hb
        · exact ih _ _ buf hb

theorem write_combining_send_buffers (upper : Nat) (e : expqueue_entry) (w : queue_view) :
    ∀ buf, io_call.send_combining buf ∈ (write_combining_send upper e w).2 →
      buf.length ≤ upper := by
  intro buf hb
  unfold write_combining_send at hb
  simp only [List.mem_append, List.mem_singleton] at hb
  rcases hb with (hb | hb) | hb
  · exact absurd hb (gather_loop_no_send_combining 128 w _ buf)
  · simp at hb
  · exact combine_send_buffers upper _ buf hb

theorem send_loop_iter_buffers (lower upper fuel : Nat) (w : queue_view) :
    ∀ buf, io_call.send_combining buf ∈ (send_loop_iter lower upper fuel w).calls →
      buf.length ≤ upper := by
  induction fuel generalizing w with
  | zero =>
    intro buf hb
    simp [send_loop_iter] at hb
  | succ fuel ih =>
    intro buf hb
    cases hd : w.dequeue_and_begin_critical_section_on_success with
    | none =>
      rw [send_loop_iter_blocked lower upper fuel w hd] at hb
      simp at hb
    | some r =>
      obtain ⟨data, w1⟩ := r
      cases data with
      | none =>
        rw [send_loop_iter_exited lower upper fuel w w1 hd] at hb
        simp at hb
      | some e =>
        by_cases hl : e.len ≤ lower
        · rw [send_loop_iter_small lower upper fuel w w1 e hd hl] at hb
          simp only [List.mem_append, List.mem_cons] at hb
          rcases hb with (hb | hb) | hb
          · simp at hb
          · exact write_combining_send_buffers upper e w1 buf hb
          · exact ih _ buf hb
        · rw [send_loop_iter_large lower upper fuel w w1 e hd hl] at hb
          simp only [List.mem_cons] at hb
          rcases hb with hb | hb | hb | hb
          · simp at hb
          · simp at hb
          · simp at hb
          · exact ih _ buf hb

/-- The body of the combining loop either copies the entry into the buffer, at
the end of the content or at the start after a flush, within the size of the
buffer, or sends the entry from its own allocation and copies nothing. -/
theorem combine_step_copy_or_direct (upper : Nat) (st : combine_state) (e : expqueue_entry) :
    (∃ offset, (offset = st.length ∨ offset = 0) ∧ offset + e.len ≤ upper ∧
        (combine_step upper st e).1 =
          ⟨st.sendcombining.take offset ++ e.c.take e.len, offset + e.len⟩ ∧
        (st.sendcombining.take offset ++ e.c.take e.len).length ≤ upper ∧
        io_call.send_entry e ∉ (combine_step upper st e).2) ∨
      (upper < e.len ∧ (combine_step upper st e).1 = ⟨st.sendcombining, 0⟩ ∧
        io_call.send_entry e ∈ (combine_step upper st e).2) := by
  by_cases h2 : upper < e.len
  · right
    rw [combine_step_alone upper st e h2]
    exact ⟨h2, rfl, by simp⟩
  · left
    have a2 := List.length_take_le e.len e.c
    by_cases hf : st.length + e.len ≤ upper
    · have a1 := List.length_take_le st.length st.sendcombining
      rw [combine_step_fits upper st e hf]
      refine ⟨st.length, Or.inl rfl, hf, rfl, ?_, by simp⟩
      rw [List.length_append]
      omega
    · rw [combine_step_flush upper st e (by omega) (by omega)]
      refine ⟨0, Or.inr rfl, by omega, by simp, ?_, by simp⟩
      simp only [List.take_zero, List.nil_append]
      omega

/-- The gathering loop counts what it dequeues, and stops at 128 entries. -/
theorem gather_loop_numentries (fuel : Nat) (w : queue_view) (g : gather_state)
    (hn : g.numentries < 128) :
    (gather_loop fuel w g).2.1.numentries =
        g.numentries + (dequeued_entries (gather_loop fuel w g).2.2).length ∧
      (gather_loop fuel w g).2.1.numentries ≤ 128 := by
  induction fuel generalizing w g with
  | zero =>
    simp only [gather_loop, dequeued_entries_nil, List.length_nil, Nat.add_zero, true_and]
    omega
  | succ fuel ih =>
    cases hd : w.try_dequeue_in_critical_section.1 with
    | none =>
      rw [gather_loop_none fuel w g hd]
      simp only [dequeued_entries, List.filterMap_cons, io_call.dequeued, List.filterMap_nil,
        List.length_nil, Nat.add_zero, true_and]
      omega
    | some d =>
      by_cases h128 : g.numentries + 1 ≥ 128
      · rw [gather_loop_full fuel w g d hd h128]
        simp only [dequeued_entries, List.filterMap_cons, io_call.dequeued, List.filterMap_nil,
          List.length_cons, List.length_nil, true_and]
        omega
      · rw [gather_loop_more fuel w g d hd h128]
        have h := ih w.try_dequeue_in_critical_section.2
          ⟨g.entries.take g.numentries ++ [d], g.numentries + 1,
            (g.accumulated_length + d.len) % SIZE_T_RANGE⟩ (by simp only []; omega)
        simp only [dequeued_entries, List.filterMap_cons, io_call.dequeued,
          List.length_cons] at h ⊢
        omega

/-- C17: the combining buffer never overflows.  For every batch, every entry
`e` of it and both thresholds: at the state the loop of `write_combining_send`
has reached before `e`, `length` is at most `combine_upper_threshold`, and the
loop body either copies `e` at a write offset with
`offset + e.len <= combine_upper_threshold` or copies nothing; and every
buffer that a run of `send_loop` sends from the combining buffer has at most
`combine_upper_threshold` bytes. -/
theorem combining_buffer_never_overflows (combine_lower_threshold combine_upper_threshold : Nat)
    (pre : List expqueue_entry) (e : expqueue_entry) (w : queue_view) :
    (combine_loop combine_upper_threshold ⟨[], 0⟩ pre).1.length ≤ combine_upper_threshold ∧
    ((∃ offset,
        (offset = (combine_loop combine_upper_threshold ⟨[], 0⟩ pre).1.length ∨ offset = 0) ∧
        offset + e.len ≤ combine_upper_threshold ∧
        (combine_step combine_upper_threshold
            (combine_loop combine_upper_threshold ⟨[], 0⟩ pre).1 e).1 =
          ⟨(combine_loop combine_upper_threshold ⟨[], 0⟩ pre).1.sendcombining.take offset ++
            e.c.take e.len, offset + e.len⟩ ∧
        ((combine_loop combine_upper_threshold ⟨[], 0⟩ pre).1.sendcombining.take offset ++
          e.c.take e.len).length ≤ combine_upper_threshold ∧
        io_call.send_entry e ∉
          (combine_step combine_upper_threshold
            (combine_loop combine_upper_threshold ⟨[], 0⟩ pre).1 e).2) ∨
      (combine_upper_threshold < e.len ∧
        (combine_step combine_upper_threshold
            (combine_loop combine_upper_threshold ⟨[], 0⟩ pre).1 e).1 =
          ⟨(combine_loop combine_upper_threshold ⟨[], 0⟩ pre).1.sendcombining, 0⟩ ∧
        io_call.send_entry e ∈
          (combine_step combine_upper_threshold
            (combine_loop combine_upper_threshold ⟨[], 0⟩ pre).1 e).2)) ∧
    (∀ buf, io_call.send_combining buf ∈
        (send_loop combine_lower_threshold combine_upper_threshold w).calls →
      buf.length ≤ combine_upper_threshold) :=
  ⟨combine_loop_length_le _ pre ⟨[], 0⟩ (Nat.zero_le _),
    combine_step_copy_or_direct _ _ e,
    send_loop_iter_buffers _ _ _ w⟩

/-- C18: `write_combining_send` gathers at most 128 entries and writes no slot
beyond the 128th: whatever the queue does, the gathering loop ends with
`numentries <= 128`, one more than the number of entries it dequeued; and on a
queue holding `q` that no other thread touches it takes the first
`min(127, |q|)` entries of `q`, in order, behind the entry it was given, and
leaves the others queued in order. -/
theorem gather_takes_at_most_127 (combine_upper_threshold : Nat) (e : expqueue_entry)
    (w : queue_view) (q : List expqueue_entry) (alive : Bool) :
    ((gather_loop 128 w ⟨[e], 1, e.len⟩).2.1.numentries ≤ 128 ∧
      (gather_loop 128 w ⟨[e], 1, e.len⟩).2.1.numentries =
        1 + (dequeued_entries (write_combining_send combine_upper_threshold e w).2).length ∧
      (gather_loop 128 w ⟨[e], 1, e.len⟩).2.1.entries.take
          (gather_loop 128 w ⟨[e], 1, e.len⟩).2.1.numentries =
        e :: dequeued_entries (write_combining_send combine_upper_threshold e w).2) ∧
    ((write_combining_send combine_upper_threshold e ⟨⟨q, alive⟩, []⟩).1 =
        ⟨⟨q.drop (min 127 q.length), alive⟩, []⟩ ∧
      dequeued_entries (write_combining_send combine_upper_threshold e ⟨⟨q, alive⟩, []⟩).2 =
        q.take (min 127 q.length) ∧
      (gather_loop 128 ⟨⟨q, alive⟩, []⟩ ⟨[e], 1, e.len⟩).2.1.numentries =
        1 + min 127 q.length) := by
  have hn := gather_loop_numentries 128 w ⟨[e], 1, e.len⟩ (by show 1 < 128; decide)
  have hc := gather_loop_calls 128 w ⟨[e], 1, e.len⟩
  have hb := write_combining_send_batch combine_upper_threshold e w
  have hg := gather_loop_static 128 q alive ⟨[e], 1, e.len⟩
    (by show 1 < 128; decide) (by show 128 ≤ 1 + 128; decide)
  simp only [show (128 - 1 : Nat) = 127 from rfl] at hg
  have hn2 := gather_loop_numentries 128 ⟨⟨q, alive⟩, []⟩ ⟨[e], 1, e.len⟩
    (by show 1 < 128; decide)
  have hb2 := write_combining_send_batch combine_upper_threshold e ⟨⟨q, alive⟩, []⟩
  refine ⟨⟨hn.2, ?_, ?_⟩, ?_, ?_, ?_⟩
  · rw [hb.2]
    exact hn.1
  · rw [hb.2, hc.2]
    rfl
  · exact hg.1
  · rw [hb2.2]
    exact hg.2
  · rw [hn2.1, hg.2, List.length_take]
    simp only []
    omega

/-- C19: when the lengths of the entries of one batch of
`write_combining_send` (the entry given and those gathered) sum to a positive
total of at most `combine_upper_threshold`, the loop over the entries sends
nothing and the call issues exactly one `comm->send`, the flush after the
loop, whose buffer is the concatenation of all the entries of the batch in
order. -/
theorem small_batch_sent_by_one_flush (combine_upper_threshold : Nat) (e : expqueue_entry)
    (w : queue_view)
    (hfit : total_len (e ::
      dequeued_entries (write_combining_send combine_upper_threshold e w).2) ≤
        combine_upper_threshold)
    (hpos : 0 < total_len (e ::
      dequeued_entries (write_combining_send combine_upper_threshold e w).2)) :
    send_buffers (write_combining_send combine_upper_threshold e w).2 =
        [entries_bytes (e ::
          dequeued_entries (write_combining_send combine_upper_threshold e w).2)] ∧
      (combine_loop combine_upper_threshold ⟨[], 0⟩
        (e :: dequeued_entries (write_combining_send combine_upper_threshold e w).2)).2 = [] ∧
      combine_send combine_upper_threshold
          (e :: dequeued_entries (write_combining_send combine_upper_threshold e w).2) =
        [io_call.send_combining (entries_bytes (e ::
          dequeued_entries (write_combining_send combine_upper_threshold e w).2))] := by
  have hb := write_combining_send_batch combine_upper_threshold e w
  have hs := combine_send_fits combine_upper_threshold _ hfit hpos
  have hl := combine_loop_fits combine_upper_threshold
    (e :: dequeued_entries (write_combining_send combine_upper_threshold e w).2) ⟨[], 0⟩
    (by simp only [Nat.zero_add]; exact hfit)
  refine ⟨?_, hl.1, hs⟩
  have hsb := congrArg send_buffers hb.1
  rw [hs] at hsb
  rw [hsb]
  simp only [send_buffers_append, gather_loop_send_buffers, List.nil_append]
  rfl

/-- C19, at a batch of entries of 3, 5 and 2 bytes with a combining buffer of
10 bytes. -/
theorem small_batch_sent_by_one_flush_witness :
    (total_len (sample_entry 3 1 :: dequeued_entries (write_combining_send 10 (sample_entry 3 1)
        ⟨⟨[sample_entry 5 2, sample_entry 2 3], true⟩, []⟩).2) ≤ 10 ∧
      0 < total_len (sample_entry 3 1 :: dequeued_entries
        (write_combining_send 10 (sample_entry 3 1)
          ⟨⟨[sample_entry 5 2, sample_entry 2 3], true⟩, []⟩).2)) ∧
    send_buffers (write_combining_send 10 (sample_entry 3 1)
        ⟨⟨[sample_entry 5 2, sample_entry 2 3], true⟩, []⟩).2 =
      [entries_bytes (sample_entry 3 1 :: dequeued_entries
        (write_combining_send 10 (sample_entry 3 1)
          ⟨⟨[sample_entry 5 2, sample_entry 2 3], true⟩, []⟩).2)] :=
  ⟨⟨by decide, by decide⟩,
    (small_batch_sent_by_one_flush 10 (sample_entry 3 1)
      ⟨⟨[sample_entry 5 2, sample_entry 2 3], true⟩, []⟩ (by decide) (by decide)).1⟩

/-! ## Lemmas on the stream overload without a length -/

theorem readsome_nil (n : Nat) : (istream.mk []).readsome n = ([], ⟨[]⟩) := rfl

theorem readsome_whole (c : List Nat) (rest : List (List Nat)) (n : Nat) (h : c.length ≤ n) :
    (istream.mk (c :: rest)).readsome n = (c, ⟨rest⟩) := by
  simp only [istream.readsome, h, if_true]

theorem readsome_part (c : List Nat) (rest : List (List Nat)) (n : Nat) (h : ¬ c.length ≤ n) :
    (istream.mk (c :: rest)).readsome n = (c.take n, ⟨c.drop n :: rest⟩) := by
  simp only [istream.readsome, h, if_false]

/-- A call of `readsome(buf, n)` stores at most `n` bytes. -/
theorem readsome_length_le (istrm : istream) (n : Nat) : (istrm.readsome n).1.length ≤ n := by
  obtain ⟨chunks⟩ := istrm
  cases chunks with
  | nil => simp [readsome_nil]
  | cons c rest =>
    by_cases h : c.length ≤ n
    · rw [readsome_whole c rest n h]
      exact h
    · rw [readsome_part c rest n h, List.length_take]
      omega

theorem read_all_loop_step (fuel : Nat) (istrm : istream) (data : List Nat) (len cursize : Nat)
    (hgood : istrm.good = true) :
    read_all_loop (fuel + 1) istrm data len cursize =
      read_all_loop fuel (istrm.readsome (cursize - len)).2
        (data.take len ++ (istrm.readsome (cursize - len)).1)
        (len + (istrm.readsome (cursize - len)).1.length)
        (if cursize - (len + (istrm.readsome (cursize - len)).1.length) = 0 then cursize * 2
          else cursize) := by
  simp only [read_all_loop, hgood, if_true]

theorem read_all_loop_end (fuel : Nat) (data : List Nat) (len cursize : Nat) :
    read_all_loop fuel ⟨[]⟩ data len cursize = (⟨[]⟩, data, len, cursize) := by
  cases fuel with
  | zero => rfl
  | succ fuel => simp [read_all_loop, istream.good]

/-- One iteration of the read loop keeps the bytes read within the capacity:
with `len < cursize` before the call, `readsome` stores its bytes inside the
allocation (`len1 <= cursize`), and after the doubling `len1 < cursize1`. -/
theorem read_all_loop_in_bounds (istrm : istream) (len cursize : Nat) (h : len < cursize) :
    len + (istrm.readsome (cursize - len)).1.length ≤ cursize ∧
      len + (istrm.readsome (cursize - len)).1.length <
        (if cursize - (len + (istrm.readsome (cursize - len)).1.length) = 0 then cursize * 2
          else cursize) := by
  have hr := readsome_length_le istrm (cursize - len)
  refine ⟨by omega, ?_⟩
  split_ifs <;> omega

/-- The read loop of the stream overload without a length reads the whole
stream: it ends with the stream used up, `data` extended by all the chunks in
order, `len` raised by their total size, and `len < cursize`. -/
theorem read_all_loop_spec (fuel : Nat) (istrm : istream) (data : List Nat) (len cursize : Nat)
    (hf : istrm.fuel ≤ fuel) (hdata : data.length = len) (h : len < cursize) :
    (read_all_loop fuel istrm data len cursize).1 = ⟨[]⟩ ∧
      (read_all_loop fuel istrm data len cursize).2.1 = data ++ istrm.chunks.flatten ∧
      (read_all_loop fuel istrm data len cursize).2.2.1 = len + istrm.chunks.flatten.length ∧
      (read_all_loop fuel istrm data len cursize).2.2.1 <
        (read_all_loop fuel istrm data len cursize).2.2.2 := by
  induction fuel generalizing istrm data len cursize with
  | zero =>
    unfold istream.fuel at hf
    omega
  | succ fuel ih =>
    obtain ⟨chunks⟩ := istrm
    cases chunks with
    | nil =>
      rw [read_all_loop_end]
      simp only [List.flatten_nil, List.append_nil, List.length_nil, Nat.add_zero, true_and]
      exact h
    | cons c rest =>
      have hb := read_all_loop_in_bounds ⟨c :: rest⟩ len cursize h
      rw [read_all_loop_step fuel ⟨c :: rest⟩ data len cursize rfl]
      have htake : data.take len = data := List.take_of_length_le (by omega)
      simp only [istream.fuel, List.length_cons, List.map_cons, List.sum_cons] at hf
      by_cases hc : c.length ≤ cursize - len
      · rw [readsome_whole c rest _ hc] at hb ⊢
        simp only [] at hb ⊢
        have hrec := ih ⟨rest⟩ (data.take len ++ c) (len + c.length)
          (if cursize - (len + c.length) = 0 then cursize * 2 else cursize)
          (by simp only [istream.fuel]; omega)
          (by rw [List.length_append, htake, hdata]) hb.2
        refine ⟨hrec.1, ?_, ?_, hrec.2.2.2⟩
        · rw [hrec.2.1, htake]
          simp
        · rw [hrec.2.2.1]
          simp only [List.flatten_cons, List.length_append]
          omega
      · rw [readsome_part c rest _ hc] at hb ⊢
        simp only [] at hb ⊢
        have hlt : (c.take (cursize - len)).length = cursize - len := by
          rw [List.length_take]
          omega
        have hrec := ih ⟨c.drop (cursize - len) :: rest⟩
          (data.take len ++ c.take (cursize - len)) (len + (c.take (cursize - len)).length)
          (if cursize - (len + (c.take (cursize - len)).length) = 0 then cursize * 2
            else cursize)
          (by
            simp only [istream.fuel, List.length_cons, List.map_cons, List.sum_cons,
              List.length_drop]
            omega)
          (by rw [List.length_append, htake, hdata]) hb.2
        refine ⟨hrec.1, ?_, ?_, hrec.2.2.2⟩
        · rw [hrec.2.1, htake]
          simp only [List.flatten_cons, List.append_assoc]
          rw [← List.append_assoc (c.take (cursize - len)), List.take_append_drop]
        · rw [hrec.2.2.1, hlt]
          simp only [List.flatten_cons, List.length_append, List.length_drop]
          omega

/-- The stream overload without a length calls the byte-buffer overload with
all the bytes of the stream and their number. -/
theorem send_data_stream_all (F : packet_format) (s : dc_buffered_stream_send_expqueue)
    (kind : Nat) (istrm : istream) (cbuffer : List Nat) :
    send_data_stream F s s.target kind istrm SIZE_T_MINUS_ONE cbuffer =
      some (send_data F s s.target kind istrm.chunks.flatten istrm.chunks.flatten.length,
        ⟨[]⟩) := by
  have h := read_all_loop_spec istrm.fuel istrm [] 0 128 (Nat.le_refl _) rfl (by decide)
  unfold send_data_stream
  simp only [ne_eq, not_true_eq_false, if_false, h.1, h.2.1, h.2.2.1, List.nil_append,
    Nat.zero_add]

/-- The queue after a call of the byte-buffer overload. -/
theorem send_data_queue (F : packet_format) (s : dc_buffered_stream_send_expqueue)
    (target kind : Nat) (data : List Nat) (len : Nat) :
    (send_data F s target kind data len).sendqueue.m_queue =
      s.sendqueue.m_queue ++
        [⟨F.hdr_image ⟨len % 2 ^ 32, s.dc.procid, s.dc.sequentialization_key, kind, 0⟩ ++
          data.take len, (F.sizeof_packet_hdr + len) % SIZE_T_RANGE⟩] := by
  unfold send_data
  split_ifs <;> rfl

/-- C20, at a stream that delivers `2 ^ 32` bytes in one chunk, read without a
length: the stream is used up and the one packet enqueued carries all
`2 ^ 32` bytes as its payload, behind a header whose `len` field is 0. -/
theorem send_data_stream_hdr_len_wraps :
    (send_data_stream native_format sample_sender 1 1 ⟨[List.replicate 4294967296 0]⟩
        SIZE_T_MINUS_ONE []).map (fun r => (r.1.sendqueue.m_queue, r.2)) =
      some ([⟨native_format.hdr_image ⟨0, 0, 7, 1, 0⟩ ++ List.replicate 4294967296 0,
        24 + 4294967296⟩], ⟨[]⟩) := by
  have h := send_data_stream_all native_format sample_sender 1
    ⟨[List.replicate 4294967296 0]⟩ []
  have ht : sample_sender.target = 1 := rfl
  rw [ht] at h
  rw [h]
  simp only [Option.map_some', List.flatten_cons, List.flatten_nil, List.append_nil,
    List.length_replicate]
  rw [send_data_queue]
  have h1 : (4294967296 : Nat) % 2 ^ 32 = 0 := by norm_num
  have h2 : (native_format.sizeof_packet_hdr + 4294967296) % SIZE_T_RANGE = 24 + 4294967296 := by
    rw [show native_format.sizeof_packet_hdr = 24 from rfl]
    unfold SIZE_T_RANGE
    norm_num
  have h3 : (List.replicate 4294967296 0).take 4294967296 = List.replicate 4294967296 (0 : Nat) :=
    List.take_of_length_le (by rw [List.length_replicate])
  rw [h1, h2, h3]
  rfl

/-! ## Lemmas on the boundaries of the send buffers -/

theorem send_buffers_nil : send_buffers [] = [] := rfl

theorem send_buffers_send_combining (buf : List Nat) (cs : List io_call) :
    send_buffers (io_call.send_combining buf :: cs) = buf :: send_buffers cs := by
  simp [send_buffers, io_call.is_send, io_call.sent]

theorem send_buffers_send_entry (e : expqueue_entry) (cs : List io_call) :
    send_buffers (io_call.send_entry e :: cs) = e.bytes :: send_buffers cs := by
  simp [send_buffers, io_call.is_send, io_call.sent]

theorem send_buffers_dequeue (d : Option expqueue_entry) (cs : List io_call) :
    send_buffers (io_call.dequeue d :: cs) = send_buffers cs := by
  simp [send_buffers, io_call.is_send]

theorem send_buffers_end_critical_section (cs : List io_call) :
    send_buffers (io_call.end_critical_section :: cs) = send_buffers cs := by
  simp [send_buffers, io_call.is_send]

theorem entries_bytes_singleton (e : expqueue_entry) : entries_bytes [e] = e.bytes := by
  simp [entries_bytes]

/-- One step of the combining loop, the content of the combining buffer being
the bytes of the entries `cur`: every buffer sent is the bytes of a group of
whole entries, and so is the content afterwards. -/
theorem combine_step_groups (upper : Nat) (st : combine_state) (e : expqueue_entry)
    (cur : List expqueue_entry) (h : st.sendcombining.take st.length = entries_bytes cur) :
    ∃ (groups : List (List expqueue_entry)) (cur1 : List expqueue_entry),
      groups.flatten ++ cur1 = cur ++ [e] ∧
      send_buffers (combine_step upper st e).2 = groups.map entries_bytes ∧
      (combine_step upper st e).1.sendcombining.take (combine_step upper st e).1.length =
        entries_bytes cur1 := by
  have hs := combine_step_sent upper st e
  by_cases h2 : upper < e.len
  · rw [combine_step_alone upper st e h2]
    refine ⟨[cur, [e]], [], by simp, ?_, by simp [entries_bytes_nil]⟩
    rw [send_buffers_send_combining, send_buffers_send_entry, send_buffers_nil, h]
    simp [entries_bytes_singleton]
  · by_cases h1 : st.length + e.len ≤ upper
    · rw [combine_step_fits upper st e h1] at hs ⊢
      refine ⟨[], cur ++ [e], by simp, rfl, ?_⟩
      simp only [sent_bytes_nil, List.nil_append] at hs
      rw [hs, h, entries_bytes_append, entries_bytes_singleton]
    · rw [combine_step_flush upper st e (by omega) (by omega)]
      refine ⟨[cur], [e], by simp, ?_, ?_⟩
      · rw [send_buffers_send_combining, send_buffers_nil, h]
        rfl
      · simp only [entries_bytes_singleton, expqueue_entry.bytes, List.take_take, min_self]

theorem combine_loop_groups (upper : Nat) (es : List expqueue_entry) (st : combine_state)
    (cur : List expqueue_entry) (h : st.sendcombining.take st.length = entries_bytes cur) :
    ∃ (groups : List (List expqueue_entry)) (cur1 : List expqueue_entry),
      groups.flatten ++ cur1 = cur ++ es ∧
      send_buffers (combine_loop upper st es).2 = groups.map entries_bytes ∧
      (combine_loop upper st es).1.sendcombining.take (combine_loop upper st es).1.length =
        entries_bytes cur1 := by
  induction es generalizing st cur with
  | nil => exact ⟨[], cur, by simp, rfl, h⟩
  | cons e es ih =>
    obtain ⟨g1, c1, hf1, hb1, hc1⟩ := combine_step_groups upper st e cur h
    obtain ⟨g2, c2, hf2, hb2, hc2⟩ := ih (combine_step upper st e).1 c1 hc1
    refine ⟨g1 ++ g2, c2, ?_, ?_, hc2⟩
    · rw [List.flatten_append, List.append_assoc, hf2, ← List.append_assoc, hf1]
      simp
    · simp only [combine_loop, send_buffers_append, hb1, hb2, List.map_append]

/-- The second half of `write_combining_send`: the buffers sent are the bytes
of consecutive groups of whole entries; entries left over after the last group
have no bytes. -/
theorem combine_send_groups (upper : Nat) (es : List expqueue_entry) :
    ∃ (groups : List (List expqueue_entry)) (rest : List expqueue_entry),
      groups.flatten ++ rest = es ∧
      send_buffers (combine_send upper es) = groups.map entries_bytes ∧
      entries_bytes rest = [] := by
  obtain ⟨g, c, hf, hb, hc⟩ := combine_loop_groups upper es ⟨[], 0⟩ [] rfl
  simp only [List.nil_append] at hf
  unfold combine_send
  by_cases hl : (combine_loop upper ⟨[], 0⟩ es).1.length > 0
  · refine ⟨g ++ [c], [], by simp [hf], ?_, rfl⟩
    simp only [hl, if_true, send_buffers_append, hb, send_buffers_send_combining,
      send_buffers_nil, hc, List.map_append, List.map_cons, List.map_nil]
  · have h0 : (combine_loop upper ⟨[], 0⟩ es).1.length = 0 := by omega
    refine ⟨g, c, hf, ?_, ?_⟩
    · simp only [hl, if_false, hb]
    · rw [← hc, h0, List.take_zero]

theorem write_combining_send_groups (upper : Nat) (e : expqueue_entry) (w : queue_view) :
    ∃ (groups : List (List expqueue_entry)) (rest : List expqueue_entry),
      groups.flatten ++ rest = e :: dequeued_entries (write_combining_send upper e w).2 ∧
      send_buffers (write_combining_send upper e w).2 = groups.map entries_bytes ∧
      entries_bytes rest = [] := by
  have hg := gather_loop_calls 128 w ⟨[e], 1, e.len⟩
  have hgb := gather_loop_send_buffers 128 w ⟨[e], 1, e.len⟩
  obtain ⟨g, r, hf, hb, hr⟩ := combine_send_groups upper
    ((gather_loop 128 w ⟨[e], 1, e.len⟩).2.1.entries.take
      (gather_loop 128 w ⟨[e], 1, e.len⟩).2.1.numentries)
  refine ⟨g, r, ?_, ?_, hr⟩
  · rw [hf, hg.2]
    unfold write_combining_send
    simp only [dequeued_entries_append, combine_send_dequeued, List.append_nil]
    simp [dequeued_entries, io_call.dequeued]
  · unfold write_combining_send
    simp only [send_buffers_append, hgb, hb, List.nil_append]
    rfl

/-- Entries without bytes in front of a grouping join its first group, or the
entries left over when there is no group. -/
theorem groups_absorb (p : List expqueue_entry) (hp : entries_bytes p = [])
    (groups : List (List expqueue_entry)) (rest : List expqueue_entry)
    (hr : entries_bytes rest = []) :
    ∃ (groups1 : List (List expqueue_entry)) (rest1 : List expqueue_entry),
      groups1.flatten ++ rest1 = p ++ (groups.flatten ++ rest) ∧
      groups1.map entries_bytes = groups.map entries_bytes ∧
      entries_bytes rest1 = [] := by
  cases groups with
  | nil =>
    refine ⟨[], p ++ rest, by simp, rfl, ?_⟩
    rw [entries_bytes_append, hp, hr]
    rfl
  | cons g gs =>
    refine ⟨(p ++ g) :: gs, rest, by simp, ?_, hr⟩
    simp only [List.map_cons, entries_bytes_append, hp, List.nil_append]

theorem send_loop_iter_groups (lower upper fuel : Nat) (w : queue_view) :
    ∃ (groups : List (List expqueue_entry)) (rest : List expqueue_entry),
      groups.flatten ++ rest = dequeued_entries (send_loop_iter lower upper fuel w).calls ∧
      send_buffers (send_loop_iter lower upper fuel w).calls = groups.map entries_bytes ∧
      entries_bytes rest = [] := by
  induction fuel generalizing w with
  | zero => exact ⟨[], [], rfl, rfl, rfl⟩
  | succ fuel ih =>
    cases hd : w.dequeue_and_begin_critical_section_on_success with
    | none =>
      rw [send_loop_iter_blocked lower upper fuel w hd]
      exact ⟨[], [], rfl, rfl, rfl⟩
    | some r =>
      obtain ⟨data, w1⟩ := r
      cases data with
      | none =>
        rw [send_loop_iter_exited lower upper fuel w w1 hd]
        exact ⟨[], [], rfl, rfl, rfl⟩
      | some e =>
        by_cases hl : e.len ≤ lower
        · rw [send_loop_iter_small lower upper fuel w w1 e hd hl]
          obtain ⟨gb, rb, hfb, hbb, hrb⟩ := write_combining_send_groups upper e w1
          obtain ⟨gr, rr, hfr, hbr, hrr⟩ := ih (write_combining_send upper e w1).1
          obtain ⟨g1, r1, hf1, hb1, hr1⟩ := groups_absorb rb hrb gr rr hrr
          refine ⟨gb ++ g1, r1, ?_, ?_, hr1⟩
          · rw [List.flatten_append, List.append_assoc, hf1, hfr, ← List.append_assoc, hfb]
            simp only []
            rw [dequeued_entries_append]
            simp [dequeued_entries, io_call.dequeued]
          · simp only []
            rw [send_buffers_append, send_buffers_dequeue, hbb, hbr,
              List.map_append, hb1]
        · rw [send_loop_iter_large lower upper fuel w w1 e hd hl]
          obtain ⟨gr, rr, hfr, hbr, hrr⟩ := ih w1
          refine ⟨[e] :: gr, rr, ?_, ?_, hrr⟩
          · simp only [List.flatten_cons, List.append_assoc, hfr]
            simp [dequeued_entries, io_call.dequeued]
          · simp only []
            rw [send_buffers_dequeue, send_buffers_end_critical_section,
              send_buffers_send_entry, hbr, List.map_cons, entries_bytes_singleton]

/-- C23: no packet is split across socket writes.  The buffers `send_loop`
passes to `comm->send` are, in order, the bytes of consecutive groups of whole
dequeued entries: every dequeued entry lies in one group, so its bytes lie
contiguously inside the buffer of a single send, and no buffer starts or ends
in the middle of an entry.  Only entries without bytes can be left outside a
group, behind the last buffer. -/
theorem send_loop_never_splits_entry (lower upper : Nat) (w : queue_view) :
    ∃ (groups : List (List expqueue_entry)) (rest : List expqueue_entry),
      groups.flatten ++ rest = dequeued_entries (send_loop lower upper w).calls ∧
      send_buffers (send_loop lower upper w).calls = groups.map entries_bytes ∧
      entries_bytes rest = [] :=
  send_loop_iter_groups lower upper (w.size + 1) w

/-- C24: an empty write.  With `combine_lower_threshold = 40` and
`combine_upper_threshold = 50`, a queue holding an entry of 30 bytes followed
by two entries of 60 bytes (each longer than the 24 bytes of a header): the
first entry is flushed when the second does not fit, the second is sent from
its own allocation, and the third makes the loop body flush again, the
combining buffer being empty: `comm->send(target, sendcombining, 0)`. -/
theorem in_loop_flush_sends_empty_buffer :
    (∀ e ∈ [sample_entry 30 1, sample_entry 60 2, sample_entry 60 3],
      native_format.sizeof_packet_hdr ≤ e.len ∧ e.wf) ∧
    send_buffers (send_loop 40 50
        ⟨⟨[sample_entry 30 1, sample_entry 60 2, sample_entry 60 3], true⟩, []⟩).calls =
      [List.replicate 30 1, List.replicate 60 2, [], List.replicate 60 3] := by
  decide

end dc_impl

/-! ## Lemmas on `thread::start` -/

theorem CPU_SET_single (CPU_SETSIZE cpu_id : Nat) (h : 0 < CPU_SETSIZE) :
    CPU_SET CPU_SETSIZE (cpu_id % CPU_SETSIZE) CPU_ZERO = {cpu_id % CPU_SETSIZE} := by
  unfold CPU_SET CPU_ZERO
  rw [if_pos (Nat.mod_lt _ h)]
  rfl

theorem start_cpu_id_refused (CPU_SETSIZE cpu_count : Nat) (err : pthread_errors) (cpu_id : Nat)
    (h : cpu_id ≥ cpu_count ∧ cpu_count > 0) :
    thread.start_cpu_id CPU_SETSIZE cpu_count err cpu_id = .exit_failure := by
  unfold thread.start_cpu_id
  rw [if_pos h]

theorem start_cpu_id_accepted (CPU_SETSIZE cpu_count : Nat) (err : pthread_errors) (cpu_id : Nat)
    (hset : 0 < CPU_SETSIZE) (h : ¬ (cpu_id ≥ cpu_count ∧ cpu_count > 0)) :
    thread.start_cpu_id CPU_SETSIZE cpu_count err cpu_id =
      if err.attr_init ≠ 0 then .assert_failed
      else if err.attr_setstacksize ≠ 0 then .assert_failed
      else if err.attr_setdetachstate ≠ 0 then .assert_failed
      else if err.create ≠ 0 then .exit_failure
      else if err.attr_destroy ≠ 0 then .assert_failed
      else .started (some {cpu_id % CPU_SETSIZE}) := by
  unfold thread.start_cpu_id
  rw [if_neg h, CPU_SET_single CPU_SETSIZE cpu_id hset]

/-- C21, the claim as stated fails: with 4 CPUs and `cpu_id = 0` the check of
`cpu_id` passes, and when `pthread_create` returns the error 11 (`EAGAIN`) the
call still ends the process with `exit(EXIT_FAILURE)`. -/
theorem start_cpu_id_exits_when_create_fails :
    ¬ (4 > 0 ∧ 0 ≥ 4) ∧
    thread.start_cpu_id 1024 4 ⟨0, 0, 0, 11, 0⟩ 0 = .exit_failure := by
  decide

/-- C21, amended: `thread::start(cpu_id)` on Linux ends the process with a
failure exit when `cpu_count() > 0` and `cpu_id >= cpu_count()`, and otherwise
exactly when `pthread_create` returns an error after the three attribute calls
succeeded (an attribute call that fails ends it by a failed `ASSERT_TRUE`).
When no pthread call fails and the check passes, the thread is created with
the affinity set that holds the one CPU `cpu_id mod CPU_SETSIZE`, and no thread
is created with any other set; that CPU is `cpu_id` when
`cpu_id < CPU_SETSIZE`.  `launch_in_new_thread` calls `start(cpuid)` when
`cpuid` is not `size_t(-1)` and else the `start()` that sets no affinity. -/
theorem start_cpu_id_outcomes (CPU_SETSIZE cpu_count : Nat) (err : pthread_errors)
    (cpu_id : Nat) (hset : 0 < CPU_SETSIZE) :
    (thread.start_cpu_id CPU_SETSIZE cpu_count err cpu_id = .exit_failure ↔
      (cpu_count > 0 ∧ cpu_id ≥ cpu_count) ∨
        (err.attr_init = 0 ∧ err.attr_setstacksize = 0 ∧ err.attr_setdetachstate = 0 ∧
          err.create ≠ 0)) ∧
    (¬ (cpu_count > 0 ∧ cpu_id ≥ cpu_count) →
      err.attr_init = 0 → err.attr_setstacksize = 0 → err.attr_setdetachstate = 0 →
      err.create = 0 → err.attr_destroy = 0 →
      thread.start_cpu_id CPU_SETSIZE cpu_count err cpu_id =
        .started (some {cpu_id % CPU_SETSIZE})) ∧
    (∀ a, thread.start_cpu_id CPU_SETSIZE cpu_count err cpu_id = .started a →
      a = some {cpu_id % CPU_SETSIZE}) ∧
    (cpu_id < CPU_SETSIZE → cpu_id % CPU_SETSIZE = cpu_id) ∧
    (cpu_id ≠ dc_impl.SIZE_T_MINUS_ONE →
      launch_in_new_thread CPU_SETSIZE cpu_count err cpu_id =
        thread.start_cpu_id CPU_SETSIZE cpu_count err cpu_id) ∧
    launch_in_new_thread CPU_SETSIZE cpu_count err dc_impl.SIZE_T_MINUS_ONE = thread.start err ∧
    (∀ a, thread.start err = .started a → a = none) := by
  refine ⟨?_, ?_, ?_, Nat.mod_eq_of_lt, ?_, ?_, ?_⟩
  · by_cases h : cpu_id ≥ cpu_count ∧ cpu_count > 0
    · rw [start_cpu_id_refused CPU_SETSIZE cpu_count err cpu_id h]
      exact ⟨fun _ => Or.inl ⟨h.2, h.1⟩, fun _ => rfl⟩
    · rw [start_cpu_id_accepted CPU_SETSIZE cpu_count err cpu_id hset h]
      have h1 : ¬ (cpu_count > 0 ∧ cpu_id ≥ cpu_count) := fun x => h ⟨x.2, x.1⟩
      by_cases a1 : err.attr_init = 0 <;> by_cases a2 : err.attr_setstacksize = 0 <;>
        by_cases a3 : err.attr_setdetachstate = 0 <;> by_cases a4 : err.create = 0 <;>
        by_cases a5 : err.attr_destroy = 0 <;> simp [a1, a2, a3, a4, a5, h1]
  · intro h a1 a2 a3 a4 a5
    rw [start_cpu_id_accepted CPU_SETSIZE cpu_count err cpu_id hset (fun x => h ⟨x.2, x.1⟩)]
    simp [a1, a2, a3, a4, a5]
  · intro a ha
    by_cases h : cpu_id ≥ cpu_count ∧ cpu_count > 0
    · rw [start_cpu_id_refused CPU_SETSIZE cpu_count err cpu_id h] at ha
      cases ha
    · rw [start_cpu_id_accepted CPU_SETSIZE cpu_count err cpu_id hset h] at ha
      split_ifs at ha
      injection ha with ha
      exact ha.symm
  · intro h
    unfold launch_in_new_thread
    rw [if_pos h]
  · unfold launch_in_new_thread
    rw [if_neg (fun h => h rfl)]
  · intro a ha
    unfold thread.start at ha
    split_ifs at ha
    injection ha with ha
    exact ha.symm

theorem start_cpu_id_outcomes_witness :
    0 < 1024 ∧
    thread.start_cpu_id 1024 4 ⟨0, 0, 0, 0, 0⟩ 2 = .started (some {2 % 1024}) ∧
    launch_in_new_thread 1024 4 ⟨0, 0, 0, 0, 0⟩ dc_impl.SIZE_T_MINUS_ONE =
      thread.start ⟨0, 0, 0, 0, 0⟩ :=
  ⟨by decide,
    (start_cpu_id_outcomes 1024 4 ⟨0, 0, 0, 0, 0⟩ 2 (by decide)).2.1 (by decide) rfl rfl rfl rfl rfl,
    (start_cpu_id_outcomes 1024 4 ⟨0, 0, 0, 0, 0⟩ 2 (by decide)).2.2.2.2.2.1⟩

/-! ## Lemmas on `conditional::timedwait_ns` -/

/-- C30: the deadline of `conditional::timedwait_ns` for `0 <= tv_usec < 10^6`
and an `int ns >= 0`: `tv_nsec` is normalised, but `tv_sec` takes a carry of at
most one second, so the deadline is the current time plus `ns` exactly when
`tv_usec * 1000 + ns` is below two seconds. -/
theorem timedwait_ns_deadline (tv : timeval) (ns : Int) (h0 : 0 ≤ tv.tv_usec)
    (h1 : tv.tv_usec < 1000000) (h2 : 0 ≤ ns) (h3 : ns < 2 ^ 31) :
    (0 ≤ (conditional.timedwait_ns tv ns).tv_nsec ∧
      (conditional.timedwait_ns tv ns).tv_nsec < 1000000000) ∧
    ((conditional.timedwait_ns tv ns).tv_sec * 1000000000 +
          (conditional.timedwait_ns tv ns).tv_nsec =
        tv.tv_sec * 1000000000 + tv.tv_usec * 1000 + ns ↔
      tv.tv_usec * 1000 + ns < 2000000000) := by
  have hm : (tv.tv_usec * 1000 + ns).tmod 1000000000 = (tv.tv_usec * 1000 + ns) % 1000000000 :=
    Int.tmod_eq_emod (by omega) (by omega)
  simp only [conditional.timedwait_ns, hm]
  norm_num at h3
  constructor
  · omega
  · by_cases hc : tv.tv_usec * 1000 + ns ≥ 1000000000
    · rw [if_pos hc]
      omega
    · rw [if_neg hc]
      omega

theorem timedwait_ns_deadline_witness :
    ((0 : Int) ≤ 0 ∧ (0 : Int) < 1000000 ∧ (0 : Int) ≤ 2000000000 ∧
      (2000000000 : Int) < 2 ^ 31) ∧
    conditional.timedwait_ns ⟨5, 0⟩ 2000000000 = ⟨6, 0⟩ ∧
    ¬ ((conditional.timedwait_ns ⟨5, 0⟩ 2000000000).tv_sec * 1000000000 +
          (conditional.timedwait_ns ⟨5, 0⟩ 2000000000).tv_nsec =
        5 * 1000000000 + 0 * 1000 + 2000000000) :=
  ⟨by decide, by decide,
    fun h => absurd
      ((timedwait_ns_deadline ⟨5, 0⟩ 2000000000 (by decide) (by decide) (by decide)
        (by decide)).2.mp h) (by decide)⟩


/-! ## Lemmas on the barrier -/

theorem succ_div_mod (n k : Nat) (h1 : 1 ≤ n) :
    (k % n + 1 = n → (k + 1) % n = 0 ∧ (k + 1) / n = k / n + 1) ∧
    (k % n + 1 ≠ n → (k + 1) % n = k % n + 1 ∧ (k + 1) / n = k / n) := by
  have hlt : k % n < n := Nat.mod_lt _ (by omega)
  have hk : k % n + n * (k / n) = k := Nat.mod_add_div k n
  constructor
  · intro h
    have := (Nat.div_mod_unique (show 0 < n by omega)).mpr
      (show 0 + n * (k / n + 1) = k + 1 ∧ 0 < n from ⟨by rw [Nat.mul_add]; omega, by omega⟩)
    exact ⟨this.2, this.1⟩
  · intro h
    have := (Nat.div_mod_unique (show 0 < n by omega)).mpr
      (show (k % n + 1) + n * (k / n) = k + 1 ∧ k % n + 1 < n from ⟨by omega, by omega⟩)
    exact ⟨this.2, this.1⟩

theorem barrier_construct_needed (n : Nat) (h2 : n < 2 ^ 31) :
    (barrier.construct n).needed = n := by
  norm_num at h2
  simp only [barrier.construct, dc_impl.to_signed]
  norm_num
  omega

/-- The barrier after `k` arrivals: `called` counts the arrivals of the round
under way, and `barrier_sense` has been flipped once for every round
completed. -/
theorem barrier_arrivals_eq (n : Nat) (h1 : 1 ≤ n) (h2 : n < 2 ^ 31) (k : Nat) :
    (barrier.construct n).arrivals k =
      { needed := n
        called := ((k % n : Nat) : Int)
        barrier_sense := decide (k / n % 2 = 1)
        barrier_release := decide (k / n % 2 = 0) } := by
  induction k with
  | zero =>
    have hn := barrier_construct_needed n h2
    simp only [barrier.arrivals, Nat.zero_mod, Nat.zero_div]
    simp only [barrier.construct] at hn ⊢
    rw [hn]
    rfl
  | succ k ih =>
    have hs := succ_div_mod n k h1
    simp only [barrier.arrivals, ih, barrier.wait]
    by_cases hc : k % n + 1 = n
    · have hc1 : ((k % n : Nat) : Int) + 1 = (n : Int) := by omega
      rw [if_pos hc1, (hs.1 hc).1, (hs.1 hc).2]
      have e1 : (!decide (k / n % 2 = 1)) = decide ((k / n + 1) % 2 = 1) := by
        by_cases hp : k / n % 2 = 1
        · have : ¬ (k / n + 1) % 2 = 1 := by omega
          simp [hp, this]
        · have : (k / n + 1) % 2 = 1 := by omega
          simp [hp, this]
      have e2 : decide (k / n % 2 = 1) = decide ((k / n + 1) % 2 = 0) := by
        by_cases hp : k / n % 2 = 1
        · have : (k / n + 1) % 2 = 0 := by omega
          simp [hp, this]
        · have : ¬ (k / n + 1) % 2 = 0 := by omega
          simp [hp, this]
      simp only [barrier.mk.injEq, Nat.cast_zero, true_and]
      exact ⟨e1, e2⟩
    · have hc1 : ¬ ((k % n : Nat) : Int) + 1 = (n : Int) := by omega
      rw [if_neg hc1, (hs.2 hc).1, (hs.2 hc).2]
      simp only [Nat.cast_add, Nat.cast_one]

/-- C26: the sense-reversing barrier built for `n >= 1` threads (`n` within
`int`).  After construction and after every arrival at `wait()`,
`0 <= called < n` and `barrier_release != barrier_sense`.  Arrival number
`k + 1` takes the branch `called == needed` exactly when `n` divides `k + 1`;
it then resets `called`, flips `barrier_sense` and sets `barrier_release` to
the sense it recorded, and every other arrival only counts itself.  A thread
whose arrival, number `j + 1`, did not take that branch finds its waiting
condition true as long as its round is not complete, and false once the `n`-th
arrival of its round has been made. -/
theorem barrier_rounds (n : Nat) (h1 : 1 ≤ n) (h2 : n < 2 ^ 31) (k : Nat) :
    (0 ≤ ((barrier.construct n).arrivals k).called ∧
      ((barrier.construct n).arrivals k).called < n ∧
      ((barrier.construct n).arrivals k).barrier_release ≠
        ((barrier.construct n).arrivals k).barrier_sense) ∧
    (((barrier.construct n).arrivals k).wait.2.2 = true ↔ (k + 1) % n = 0) ∧
    ((k + 1) % n = 0 →
      (barrier.construct n).arrivals (k + 1) =
        { needed := n
          called := 0
          barrier_sense := !((barrier.construct n).arrivals k).barrier_sense
          barrier_release := ((barrier.construct n).arrivals k).wait.2.1 }) ∧
    ((k + 1) % n ≠ 0 →
      (barrier.construct n).arrivals (k + 1) =
        { (barrier.construct n).arrivals k with
          called := ((barrier.construct n).arrivals k).called + 1 }) ∧
    (∀ j, j ≤ k → (j + 1) % n ≠ 0 →
      ((k + 1) / n = j / n →
        ((barrier.construct n).arrivals (k + 1)).waiting
          ((barrier.construct n).arrivals j).wait.2.1 = true) ∧
      (k + 1 = (j / n + 1) * n →
        ((barrier.construct n).arrivals (k + 1)).waiting
          ((barrier.construct n).arrivals j).wait.2.1 = false)) := by
  have hk := barrier_arrivals_eq n h1 h2 k
  have hk1 := barrier_arrivals_eq n h1 h2 (k + 1)
  have hs := succ_div_mod n k h1
  have hlt : k % n < n := Nat.mod_lt _ (by omega)
  have hiff : (k + 1) % n = 0 ↔ k % n + 1 = n := by
    constructor
    · intro h
      by_contra hc
      have := (hs.2 hc).1
      omega
    · intro h
      exact (hs.1 h).1
  refine ⟨?_, ?_, ?_, ?_, ?_⟩
  · rw [hk]
    refine ⟨by simp only []; omega, by simp only []; omega, ?_⟩
    simp only []
    by_cases hp : k / n % 2 = 1
    · have : ¬ k / n % 2 = 0 := by omega
      simp [hp, this]
    · have : k / n % 2 = 0 := by omega
      simp [hp, this]
  · rw [hk, hiff]
    simp only [barrier.wait]
    by_cases hc : k % n + 1 = n
    · have hc1 : ((k % n : Nat) : Int) + 1 = (n : Int) := by omega
      rw [if_pos hc1]
      exact ⟨fun _ => hc, fun _ => rfl⟩
    · have hc1 : ¬ ((k % n : Nat) : Int) + 1 = (n : Int) := by omega
      rw [if_neg hc1]
      exact ⟨fun h => Bool.noConfusion h, fun h => absurd h hc⟩
  · intro h
    have hc := hiff.mp h
    have hc1 : ((k % n : Nat) : Int) + 1 = (n : Int) := by omega
    simp only [barrier.arrivals]
    rw [hk]
    simp only [barrier.wait, if_pos hc1]
  · intro h
    have hc : ¬ k % n + 1 = n := fun x => h (hiff.mpr x)
    have hc1 : ¬ ((k % n : Nat) : Int) + 1 = (n : Int) := by omega
    simp only [barrier.arrivals]
    rw [hk]
    simp only [barrier.wait, if_neg hc1]
  · intro j _ hj
    have hjs := barrier_arrivals_eq n h1 h2 j
    have hl : ((barrier.construct n).arrivals j).wait.2.1 = decide (j / n % 2 = 1) := by
      rw [hjs]
      simp only [barrier.wait]
      split_ifs <;> rfl
    rw [hl, hk1]
    simp only [barrier.waiting]
    constructor
    · intro hr
      rw [hr]
      by_cases hp : j / n % 2 = 1
      · have : ¬ j / n % 2 = 0 := by omega
        simp [hp, this]
      · have : j / n % 2 = 0 := by omega
        simp [hp, this]
    · intro hr
      have hd : (k + 1) / n = j / n + 1 := by
        rw [hr]
        exact Nat.mul_div_cancel _ (by omega)
      rw [hd]
      by_cases hp : j / n % 2 = 1
      · have : (j / n + 1) % 2 = 0 := by omega
        simp [hp, this]
      · have : ¬ (j / n + 1) % 2 = 0 := by omega
        simp [hp, this]

theorem barrier_rounds_witness :
    (1 ≤ 3 ∧ 3 < 2 ^ 31) ∧
    (((barrier.construct 3).arrivals 5).wait.2.2 = true ↔ (5 + 1) % 3 = 0) ∧
    ((barrier.construct 3).arrivals (5 + 1)).waiting
      ((barrier.construct 3).arrivals 4).wait.2.1 = false :=
  ⟨by decide, (barrier_rounds 3 (by decide) (by decide) 5).2.1,
    ((barrier_rounds 3 (by decide) (by decide) 5).2.2.2.2 4 (by decide) (by decide)).2
      (by decide)⟩

/-! ## Lemmas on `synchronized_queue` -/

theorem safepop_nil {T : Type} (ret : T) :
    (synchronized_queue.mk ([] : List T)).safepop ret = (false, ret, ⟨[]⟩) := rfl

theorem safepop_cons {T : Type} (x : T) (rest : List T) (ret : T) :
    (synchronized_queue.mk (x :: rest)).safepop ret = (true, x, ⟨rest⟩) := rfl

theorem calls_push {T : Type} (item : T) (cs : List (queue_call T)) (q : synchronized_queue T)
    (ret : T) :
    synchronized_queue.calls (queue_call.push item :: cs) q ret =
      synchronized_queue.calls cs (q.push item) ret := rfl

theorem calls_safepop {T : Type} (cs : List (queue_call T)) (q : synchronized_queue T) (ret : T) :
    synchronized_queue.calls (queue_call.safepop :: cs) q ret =
      ((synchronized_queue.calls cs (q.safepop ret).2.2 (q.safepop ret).2.1).1,
        (synchronized_queue.calls cs (q.safepop ret).2.2 (q.safepop ret).2.1).2.1,
        ((q.safepop ret).1, (q.safepop ret).2.1) ::
          (synchronized_queue.calls cs (q.safepop ret).2.2 (q.safepop ret).2.1).2.2) := rfl

theorem calls_append {T : Type} (a b : List (queue_call T)) (q : synchronized_queue T) (ret : T) :
    synchronized_queue.calls (a ++ b) q ret =
      ((synchronized_queue.calls b (synchronized_queue.calls a q ret).1
          (synchronized_queue.calls a q ret).2.1).1,
        (synchronized_queue.calls b (synchronized_queue.calls a q ret).1
          (synchronized_queue.calls a q ret).2.1).2.1,
        (synchronized_queue.calls a q ret).2.2 ++
          (synchronized_queue.calls b (synchronized_queue.calls a q ret).1
            (synchronized_queue.calls a q ret).2.1).2.2) := by
  induction a generalizing q ret with
  | nil => rfl
  | cons c cs ih =>
    cases c with
    | push item =>
      rw [List.cons_append, calls_push, calls_push]
      exact ih _ _
    | safepop =>
      rw [List.cons_append, calls_safepop, calls_safepop, ih]
      rfl

theorem calls_pushes {T : Type} (xs : List T) (q : synchronized_queue T) (ret : T) :
    synchronized_queue.calls (xs.map queue_call.push) q ret = (⟨q._queue ++ xs⟩, ret, []) := by
  induction xs generalizing q with
  | nil => simp [synchronized_queue.calls]
  | cons x xs ih =>
    rw [List.map_cons, calls_push, ih]
    simp only [synchronized_queue.push, List.append_assoc, List.singleton_append]

theorem calls_safepops {T : Type} (xs rest : List T) (ret : T) :
    synchronized_queue.calls (List.replicate xs.length queue_call.safepop) ⟨xs ++ rest⟩ ret =
      (⟨rest⟩, xs.getLast?.getD ret, xs.map fun x => (true, x)) := by
  induction xs generalizing ret with
  | nil => simp [synchronized_queue.calls]
  | cons x xs ih =>
    rw [List.length_cons, List.replicate_succ, calls_safepop, List.cons_append, safepop_cons]
    simp only [ih, List.map_cons]
    cases xs with
    | nil => rfl
    | cons y ys =>
      rw [List.getLast?_cons_cons]
      simp [List.getLast?_eq_getLast]

theorem safepop_size {T : Type} (q : synchronized_queue T) (ret : T) :
    (q.safepop ret).2.2.size + (if (q.safepop ret).1 then 1 else 0) = q.size := by
  obtain ⟨l⟩ := q
  cases l with
  | nil => rfl
  | cons x rest =>
    rw [safepop_cons]
    simp [synchronized_queue.size]

theorem calls_size {T : Type} (cs : List (queue_call T)) (q : synchronized_queue T) (ret : T) :
    (synchronized_queue.calls cs q ret).1.size +
        ((synchronized_queue.calls cs q ret).2.2.filter fun r => r.1).length =
      q.size + (cs.filter queue_call.is_push).length := by
  induction cs generalizing q ret with
  | nil => rfl
  | cons c cs ih =>
    cases c with
    | push item =>
      rw [calls_push, ih]
      simp [synchronized_queue.size, synchronized_queue.push, queue_call.is_push]
      omega
    | safepop =>
      rw [calls_safepop]
      have h := ih (q.safepop ret).2.2 (q.safepop ret).2.1
      have hs := safepop_size q ret
      simp only [List.filter_cons, queue_call.is_push] at h ⊢
      cases hb : (q.safepop ret).1 with
      | true =>
        rw [hb] at hs
        simp only [if_true, List.length_cons] at hs ⊢
        simp only [Bool.false_eq_true, if_false] at h ⊢
        omega
      | false =>
        rw [hb] at hs
        simp only [Bool.false_eq_true, if_false] at hs h ⊢
        omega

/-- C25: `synchronized_queue` is FIFO.  `safepop` on an empty queue returns
false and leaves the queue and `*ret` as they are; on a queue whose oldest
element is `x` it returns true, stores `x` and removes it; so it returns false
exactly on the empty queue.  Pushes append behind the elements present, so
after pushing `xs` onto the empty queue as many calls of `safepop` as `xs` has
elements return them in order and the next call returns false.  After any
calls on an empty queue `size()` is the number of pushes minus the number of
successful pops, and `pop()` on a non-empty queue returns the element that
`safepop` would store and leaves the same queue. -/
theorem synchronized_queue_fifo {T : Type} :
    (∀ (q : synchronized_queue T) (ret : T), q._queue = [] → q.safepop ret = (false, ret, q)) ∧
    (∀ (x : T) (rest : List T) (ret : T),
      (synchronized_queue.mk (x :: rest)).safepop ret = (true, x, ⟨rest⟩)) ∧
    (∀ (q : synchronized_queue T) (ret : T), (q.safepop ret).1 = false ↔ q._queue = []) ∧
    (∀ (q : synchronized_queue T) (xs : List T) (ret : T),
      (synchronized_queue.calls (xs.map queue_call.push) q ret).1._queue = q._queue ++ xs) ∧
    (∀ (xs : List T) (ret : T),
      synchronized_queue.calls
          (xs.map queue_call.push ++ List.replicate xs.length queue_call.safepop ++
            [queue_call.safepop]) ⟨[]⟩ ret =
        (⟨[]⟩, xs.getLast?.getD ret,
          (xs.map fun x => (true, x)) ++ [(false, xs.getLast?.getD ret)])) ∧
    (∀ (cs : List (queue_call T)) (ret : T),
      (synchronized_queue.calls cs ⟨[]⟩ ret).1.size =
        (cs.filter queue_call.is_push).length -
          ((synchronized_queue.calls cs ⟨[]⟩ ret).2.2.filter fun r => r.1).length) ∧
    (∀ (q : synchronized_queue T) (ret : T), q._queue ≠ [] →
      q.pop = some ((q.safepop ret).2.1, (q.safepop ret).2.2)) := by
  refine ⟨?_, safepop_cons, ?_, ?_, ?_, ?_, ?_⟩
  · intro q ret h
    obtain ⟨l⟩ := q
    simp only at h
    subst h
    rfl
  · intro q ret
    obtain ⟨l⟩ := q
    cases l with
    | nil => exact ⟨fun _ => rfl, fun _ => rfl⟩
    | cons x rest =>
      rw [safepop_cons]
      exact ⟨fun h => Bool.noConfusion h, fun h => List.noConfusion h⟩
  · intro q xs ret
    rw [calls_pushes]
  · intro xs ret
    rw [calls_append, calls_append, calls_pushes]
    simp only [List.nil_append]
    have h := calls_safepops xs [] ret
    rw [List.append_nil] at h
    rw [h]
    rfl
  · intro cs ret
    have h := calls_size cs ⟨[]⟩ ret
    have h0 : (synchronized_queue.mk ([] : List T)).size = 0 := rfl
    rw [h0] at h
    omega
  · intro q ret h
    obtain ⟨l⟩ := q
    cases l with
    | nil => exact absurd rfl h
    | cons x rest => rfl

end graphlab

namespace pmf

/-! ## Lemmas on `load_matrix_market` -/

theorem load_matrix_market_loop_fatal {α : Type} [DecidableEq α] [Zero α] (zero : Bool)
    (M N : Int) (n : Nat) (I J : Int) (val : α) (rest : List (Option (Int × Int × α)))
    (g : List (added_edge α)) (h : I ≤ 0 ∨ J ≤ 0) :
    load_matrix_market_loop zero M N (n + 1) (some (I, J, val) :: rest) g = (g, .fatal) := by
  simp only [load_matrix_market_loop, if_pos h]

theorem load_matrix_market_loop_assert {α : Type} [DecidableEq α] [Zero α] (zero : Bool)
    (M N : Int) (n : Nat) (I J : Int) (val : α) (rest : List (Option (Int × Int × α)))
    (g : List (added_edge α)) (hI : 1 ≤ I) (hJ : 1 ≤ J)
    (h : M < I ∨ N < J ∨ (zero = false ∧ val = 0)) :
    load_matrix_market_loop zero M N (n + 1) (some (I, J, val) :: rest) g =
      (g, .assert_failed) := by
  have h0 : ¬ (I ≤ 0 ∨ J ≤ 0) := by omega
  simp only [load_matrix_market_loop, if_neg h0]
  by_cases hz : zero = false ∧ ¬ val ≠ 0
  · rw [if_pos hz]
  · rw [if_neg hz]
    by_cases h1 : ¬ I - 1 < M
    · rw [if_pos h1]
    · rw [if_neg h1]
      by_cases h2 : ¬ J - 1 < N
      · rw [if_pos h2]
      · exfalso
        rcases h with h | h | h
        · omega
        · omega
        · exact hz ⟨h.1, fun x => x h.2⟩

theorem load_matrix_market_loop_edge {α : Type} [DecidableEq α] [Zero α] (zero : Bool)
    (M N : Int) (n : Nat) (I J : Int) (val : α) (rest : List (Option (Int × Int × α)))
    (g : List (added_edge α)) (hI : 1 ≤ I) (hI2 : I ≤ M) (hJ : 1 ≤ J) (hJ2 : J ≤ N)
    (hv : zero = true ∨ val ≠ 0) :
    load_matrix_market_loop zero M N (n + 1) (some (I, J, val) :: rest) g =
      load_matrix_market_loop zero M N n rest (g ++ [⟨I - 1, J - 1 + M, val⟩]) := by
  have h0 : ¬ (I ≤ 0 ∨ J ≤ 0) := by omega
  have hz : ¬ (zero = false ∧ ¬ val ≠ 0) := by
    rintro ⟨a, b⟩
    rcases hv with hv | hv
    · rw [a] at hv
      exact Bool.noConfusion hv
    · exact b hv
  have h1 : ¬ ¬ I - 1 < M := by omega
  have h2 : ¬ ¬ J - 1 < N := by omega
  simp only [load_matrix_market_loop, if_neg h0, if_neg hz, if_neg h1, if_neg h2]

/-- Lines that pass every check add their edges one after the other. -/
theorem load_matrix_market_loop_valid {α : Type} [DecidableEq α] [Zero α] (zero : Bool)
    (M N : Int) (pre : List (Int × Int × α))
    (hpre : ∀ l ∈ pre, 1 ≤ l.1 ∧ l.1 ≤ M ∧ 1 ≤ l.2.1 ∧ l.2.1 ≤ N ∧ (zero = true ∨ l.2.2 ≠ 0))
    (n : Nat) (more : List (Option (Int × Int × α))) (g : List (added_edge α)) :
    load_matrix_market_loop zero M N (pre.length + n) (pre.map some ++ more) g =
      load_matrix_market_loop zero M N n more
        (g ++ pre.map fun l => ⟨l.1 - 1, l.2.1 - 1 + M, l.2.2⟩) := by
  induction pre generalizing g with
  | nil => simp
  | cons l pre ih =>
    obtain ⟨I, J, val⟩ := l
    have hl := hpre (I, J, val) (List.mem_cons_self _ _)
    have e : (((I, J, val) :: pre).length + n) = (pre.length + n) + 1 := by
      rw [List.length_cons]
      omega
    rw [e, List.map_cons, List.cons_append,
      load_matrix_market_loop_edge zero M N _ I J val _ g hl.1 hl.2.1 hl.2.2.1 hl.2.2.2.1
        hl.2.2.2.2,
      ih (fun x hx => hpre x (List.mem_cons_of_mem _ hx))]
    simp

/-- Every edge added has its source among the `M` row vertices and its target
among the `N` column vertices behind them. -/
theorem load_matrix_market_loop_range {α : Type} [DecidableEq α] [Zero α] (zero : Bool)
    (M N : Int) (n : Nat) (lines : List (Option (Int × Int × α))) (g : List (added_edge α))
    (hg : ∀ e ∈ g, 0 ≤ e.source ∧ e.source < M ∧ M ≤ e.target ∧ e.target < M + N) :
    ∀ e ∈ (load_matrix_market_loop zero M N n lines g).1,
      0 ≤ e.source ∧ e.source < M ∧ M ≤ e.target ∧ e.target < M + N := by
  induction n generalizing lines g with
  | zero =>
    simp only [load_matrix_market_loop]
    exact hg
  | succ n ih =>
    cases lines with
    | nil =>
      simp only [load_matrix_market_loop]
      exact hg
    | cons l rest =>
      cases l with
      | none =>
        simp only [load_matrix_market_loop]
        exact hg
      | some t =>
        obtain ⟨I, J, val⟩ := t
        by_cases h0 : I ≤ 0 ∨ J ≤ 0
        · rw [load_matrix_market_loop_fatal zero M N n I J val rest g h0]
          exact hg
        · by_cases hbad : M < I ∨ N < J ∨ (zero = false ∧ val = 0)
          · rw [load_matrix_market_loop_assert zero M N n I J val rest g (by omega) (by omega)
              hbad]
            exact hg
          · have hv : zero = true ∨ val ≠ 0 := by
              by_cases hz : zero = true
              · exact Or.inl hz
              · right
                intro hval
                exact hbad (Or.inr (Or.inr ⟨by simpa using hz, hval⟩))
            have hI2 : I ≤ M := by
              by_contra hc
              exact hbad (Or.inl (by omega))
            have hJ2 : J ≤ N := by
              by_contra hc
              exact hbad (Or.inr (Or.inl (by omega)))
            rw [load_matrix_market_loop_edge zero M N n I J val rest g (by omega) hI2
              (by omega) hJ2 hv]
            apply ih
            intro e he
            rcases List.mem_append.mp he with h | h
            · exact hg e h
            · rw [List.mem_singleton] at h
              subst h
              simp only []
              omega

/-- C22, the claim as stated fails: with `ac.zero` not set, the line `1 1 0`
of a file with the size line `1 1 1` has `1 <= I <= M` and `1 <= J <= N`, and
adds no edge: `assert(val != 0)` fails. -/
theorem load_matrix_market_rejects_zero_value :
    ((1 : Int) ≤ 1 ∧ (1 : Int) ≤ 1) ∧
    load_matrix_market false 1 1 1 [some (1, 1, (0 : Int))] = ([], .assert_failed) := by
  decide

/-- C22, amended: the loop of the pmf `load_matrix_market` for the size line
`M N nz`.  Data lines `(I, J, val)` with `1 <= I <= M`, `1 <= J <= N` and
`val != 0` or `ac.zero` set add one edge each, from `I-1` to `(J-1)+M` with
weight `val`, in file order: `nz` such lines give `nz` edges and the loader
returns.  After such lines, a further line among the first `nz` with `I <= 0`
or `J <= 0` is a fatal error, and one with `I > M`, `J > N`, or `val = 0` while
`ac.zero` is not set, fails an assertion; neither adds an edge.  Whatever the
file, every edge added has its source in `[0, M)` and its target in
`[M, M+N)`. -/
theorem load_matrix_market_converts_indices {α : Type} [DecidableEq α] [Zero α] (zero : Bool)
    (M N : Int) (pre : List (Int × Int × α))
    (hpre : ∀ l ∈ pre,
      1 ≤ l.1 ∧ l.1 ≤ M ∧ 1 ≤ l.2.1 ∧ l.2.1 ≤ N ∧ (zero = true ∨ l.2.2 ≠ 0)) :
    (∀ more, load_matrix_market zero M N pre.length (pre.map some ++ more) =
      (pre.map fun l => ⟨l.1 - 1, l.2.1 - 1 + M, l.2.2⟩, .ok)) ∧
    ((load_matrix_market zero M N pre.length (pre.map some)).1.length = pre.length) ∧
    (∀ (nz I J : Int) (val : α) more, pre.length < nz → I ≤ 0 ∨ J ≤ 0 →
      load_matrix_market zero M N nz (pre.map some ++ some (I, J, val) :: more) =
        (pre.map fun l => ⟨l.1 - 1, l.2.1 - 1 + M, l.2.2⟩, .fatal)) ∧
    (∀ (nz I J : Int) (val : α) more, pre.length < nz → 1 ≤ I → 1 ≤ J →
      M < I ∨ N < J ∨ (zero = false ∧ val = 0) →
      load_matrix_market zero M N nz (pre.map some ++ some (I, J, val) :: more) =
        (pre.map fun l => ⟨l.1 - 1, l.2.1 - 1 + M, l.2.2⟩, .assert_failed)) ∧
    (∀ (nz : Int) (lines : List (Option (Int × Int × α))),
      ∀ e ∈ (load_matrix_market zero M N nz lines).1,
        0 ≤ e.source ∧ e.source < M ∧ M ≤ e.target ∧ e.target < M + N) := by
  have hok : ∀ more, load_matrix_market zero M N pre.length (pre.map some ++ more) =
      (pre.map fun l => ⟨l.1 - 1, l.2.1 - 1 + M, l.2.2⟩, .ok) := by
    intro more
    have h := load_matrix_market_loop_valid zero M N pre hpre 0 more []
    simp only [Nat.add_zero, List.nil_append] at h
    simp only [load_matrix_market, Int.toNat_ofNat, h, load_matrix_market_loop]
  have hsplit : ∀ (nz : Int), (pre.length : Int) < nz →
      ∃ n, nz.toNat = pre.length + (n + 1) := by
    intro nz h
    exact ⟨nz.toNat - pre.length - 1, by omega⟩
  refine ⟨hok, ?_, ?_, ?_, ?_⟩
  · have h := hok []
    rw [List.append_nil] at h
    rw [h, List.length_map]
  · intro nz I J val more hnz hbad
    obtain ⟨n, hn⟩ := hsplit nz hnz
    simp only [load_matrix_market, hn]
    rw [load_matrix_market_loop_valid zero M N pre hpre (n + 1) _ [],
      load_matrix_market_loop_fatal zero M N n I J val more _ hbad, List.nil_append]
  · intro nz I J val more hnz hI hJ hbad
    obtain ⟨n, hn⟩ := hsplit nz hnz
    simp only [load_matrix_market, hn]
    rw [load_matrix_market_loop_valid zero M N pre hpre (n + 1) _ [],
      load_matrix_market_loop_assert zero M N n I J val more _ hI hJ hbad, List.nil_append]
  · intro nz lines
    exact load_matrix_market_loop_range zero M N nz.toNat lines [] (fun e he => by cases he)

theorem load_matrix_market_converts_indices_witness :
    (∀ l ∈ [((1 : Int), (2 : Int), (7 : Int)), (2, 1, 9)],
      1 ≤ l.1 ∧ l.1 ≤ 2 ∧ 1 ≤ l.2.1 ∧ l.2.1 ≤ 2 ∧ (false = true ∨ l.2.2 ≠ 0)) ∧
    load_matrix_market false 2 2 2 ([((1 : Int), (2 : Int), (7 : Int)), (2, 1, 9)].map some ++ []) =
      ([⟨0, 3, 7⟩, ⟨1, 2, 9⟩], .ok) :=
  ⟨by decide,
    (load_matrix_market_converts_indices false 2 2 [(1, 2, 7), (2, 1, 9)] (by decide)).1 []⟩


/-! ## Lemmas on `save_matrix_market_matrix` -/

theorem filterMap_flatten_map {β γ : Type} (f : β → Option γ) (L : List (List β)) :
    L.flatten.filterMap f = (L.map (List.filterMap f)).flatten := by
  induction L with
  | nil => rfl
  | cons l L ih => simp [List.filterMap_append, ih]

theorem filterMap_flatten_cells {β γ : Type} (f : β → Option γ) (p : Nat → Bool)
    (c : Nat → β) (d : Nat → γ) (hc : ∀ j, f (c j) = some (d j)) (js : List Nat) :
    (js.map fun j => if p j then [c j] else []).flatten.filterMap f =
      (js.filter p).map d := by
  induction js with
  | nil => rfl
  | cons j js ih =>
    rw [List.map_cons, List.flatten_cons, List.filterMap_append, ih]
    cases hp : p j with
    | true => simp [hp, hc]
    | false => simp [hp]

/-- In sparse mode the lines written are those of the non-zero cells, row by
row. -/
theorem save_matrix_market_matrix_entry_lines {α : Type} [DecidableEq α] [Zero α] (a : mat α)
    (integer : Bool) :
    (save_matrix_market_matrix a integer true).entry_lines =
      ((List.range a.rows).map fun i =>
        ((List.range a.cols).filter fun j => decide (a.val i j ≠ 0)).map fun j =>
          (i + 1, j + 1, a.val i j)).flatten := by
  simp only [mm_file.entry_lines, save_matrix_market_matrix, if_true]
  rw [filterMap_flatten_map, List.map_map]
  congr 1
  apply List.map_congr_left
  intro i _
  simp only [Function.comp]
  have h := filterMap_flatten_cells
    (fun x : mm_item α => match x with
      | .entry i j _ v => some (i, j, v)
      | _ => none)
    (fun j => decide (a.val i j ≠ 0))
    (fun j => mm_item.entry (i + 1) (j + 1) integer (a.val i j))
    (fun j => (i + 1, j + 1, a.val i j)) (fun _ => rfl) (List.range a.cols)
  simp only [decide_eq_true_eq] at h
  exact h

/-- C27: the size line of `save_matrix_market_matrix` declares `a.size()`
entries, the number of all cells, while in sparse mode the lines written are
those `(i+1, j+1, a(i,j))` of the non-zero cells, row by row: for the identity
matrix of order 2 the file declares 4 entries and holds 2 lines, and
`load_matrix_market`, which reads as many lines as the size line declares,
ends with a fatal error on it. -/
theorem save_matrix_market_matrix_declares_all_cells :
    (∀ (a : mat Int) (integer : Bool),
      (save_matrix_market_matrix a integer true).size_line = (a.rows, a.cols, a.rows * a.cols) ∧
      (save_matrix_market_matrix a integer true).entry_lines =
        ((List.range a.rows).map fun i =>
          ((List.range a.cols).filter fun j => decide (a.val i j ≠ 0)).map fun j =>
            (i + 1, j + 1, a.val i j)).flatten) ∧
    (save_matrix_market_matrix ⟨2, 2, fun i j => if i = j then (1 : Int) else 0⟩ false
        true).size_line = (2, 2, 4) ∧
    (save_matrix_market_matrix ⟨2, 2, fun i j => if i = j then (1 : Int) else 0⟩ false
        true).entry_lines = [(1, 1, 1), (2, 2, 1)] ∧
    load_matrix_market true 2 2 4
        ((save_matrix_market_matrix ⟨2, 2, fun i j => if i = j then (1 : Int) else 0⟩ false
          true).entry_lines.map fun l => some ((l.1 : Int), (l.2.1 : Int), l.2.2)) =
      ([⟨0, 2, 1⟩, ⟨1, 3, 1⟩], .fatal) :=
  ⟨fun a integer => ⟨rfl, save_matrix_market_matrix_entry_lines a integer⟩, by decide, by decide,
    by decide⟩

end pmf

namespace toolkits

/-! ## Lemmas on `load_matrixmarket` -/

/-- C29: `load_matrixmarket` does not check the lower bound of an index.  For
the size line `2 2 1` and 32-bit vertex ids, the line `0 1 5` passes
`ASSERT_LT(row, desc.rows)` with `row = -1` and is appended with the source
`4294967295`, and the line `1 0 5` is appended with the target `1`, a row
vertex. -/
theorem load_matrixmarket_accepts_index_zero :
    load_matrixmarket (2 ^ 32) 2 2 1 [some (0, 1, (5 : Int))] =
      ([⟨4294967295, 2, 5⟩], .ok) ∧
    load_matrixmarket (2 ^ 32) 2 2 1 [some (1, 0, (5 : Int))] = ([⟨0, 1, 5⟩], .ok) := by
  decide

/-! ## Lemmas on `read_vec` and `write_vec` -/

theorem transfer_le {T : Type} (f : FILE T) (n : Nat) : f.transfer n ≤ n := by
  unfold FILE.transfer
  cases f.short with
  | nil => exact Nat.le_refl n
  | cons k ks => exact Nat.min_le_left n k

theorem transfer_pos {T : Type} (f : FILE T) (n : Nat) (hn : 0 < n)
    (hpos : ∀ k ∈ f.short, 0 < k) : 0 < f.transfer n := by
  unfold FILE.transfer
  cases hs : f.short with
  | nil => exact hn
  | cons k ks =>
    have hk : 0 < k := hpos k (by rw [hs]; exact List.mem_cons_self _ _)
    exact Nat.lt_min.mpr ⟨hn, hk⟩

/-- The loop of `write_vec` resumes behind what was written: whatever the
calls of `fwrite` transfer, as long as each transfers something, the loop ends
with `total == len` and the whole array written in order. -/
theorem write_vec_loop_resumes {T : Type} (array : List T) (fuel : Nat) :
    ∀ (total : Nat) (f : FILE T), array.length - total ≤ fuel → total ≤ array.length →
      (∀ k ∈ f.short, 0 < k) →
      ∃ f1, write_vec_loop array.length array fuel total f = some (array.length, f1) ∧
        f1.written = f.written ++ array.drop total ∧ f1.unread = f.unread := by
  induction fuel with
  | zero =>
    intro total f hfuel ht _
    have e : total = array.length := by omega
    subst e
    exact ⟨f, rfl, by simp, rfl⟩
  | succ fuel ih =>
    intro total f hfuel ht hpos
    by_cases hlt : total < array.length
    · have hput : ((array.drop total).take (f.transfer (array.length - total))).length =
          f.transfer (array.length - total) := by
        rw [List.length_take, List.length_drop]
        exact Nat.min_eq_left (transfer_le f _)
      have hp := transfer_pos f (array.length - total) (by omega) hpos
      have hle := transfer_le f (array.length - total)
      have hrc : ¬ (fwrite array total (array.length - total) f).1 ≤ 0 := by
        simp only [fwrite, hput]
        omega
      obtain ⟨f1, h1, h2, h3⟩ := ih (total + f.transfer (array.length - total))
        (fwrite array total (array.length - total) f).2 (by omega) (by omega)
        (fun k hk => hpos k (List.mem_of_mem_tail hk))
      refine ⟨f1, ?_, ?_, ?_⟩
      · simp only [write_vec_loop, if_pos hlt, if_neg hrc]
        simp only [fwrite, hput]
        exact h1
      · rw [h2]
        simp only [fwrite, List.append_assoc]
        congr 1
        rw [← List.drop_drop]
        exact List.take_append_drop _ _
      · rw [h3]
        rfl
    · have e : total = array.length := by omega
      subst e
      refine ⟨f, ?_, by simp, rfl⟩
      simp only [write_vec_loop, if_neg hlt]

theorem write_vec_resumes {T : Type} (array : List T) (f : FILE T)
    (hpos : ∀ k ∈ f.short, 0 < k) :
    ∃ f1, write_vec f array.length array = .ok f1 ∧ f1.written = f.written ++ array := by
  obtain ⟨f1, h1, h2, _⟩ := write_vec_loop_resumes array array.length 0 f (by omega) (by omega)
    hpos
  refine ⟨f1, ?_, by simpa using h2⟩
  simp only [write_vec, h1, if_true]

/-- C28: `read_vec` does not resume behind what it has read: every call is
`fread(vec, sizeof(T), len, f)`.  For `len = 4`, when the first call returns
2 elements, the second call stores at the start of the array again and asks
for 4 elements more: on a stream of 6 elements `total` becomes 6 and
`assert(total == (int)len)` fails, and on a stream of 4 elements the array
returned starts with the third and fourth element and has nothing stored behind
them.  Without a short read the first 4 elements are returned, and `write_vec`
on the same transfers writes the array in order. -/
theorem read_vec_restarts_at_array_start :
    read_vec ⟨[1, 2, 3, 4, 5, 6], [], [2]⟩ 4 = (.assert_failed : read_result Nat) ∧
    read_vec ⟨[1, 2, 3, 4], [], [2]⟩ 4 = .returned [some 3, some 4, none, none] ∧
    read_vec ⟨[1, 2, 3, 4, 5, 6], [], []⟩ 4 =
      .returned [some 1, some 2, some 3, some 4] ∧
    write_vec ⟨[], [], [2]⟩ 4 [1, 2, 3, 4] = .ok ⟨[], [1, 2, 3, 4], []⟩ :=
  ⟨by decide, by decide, by decide, rfl⟩

end toolkits
